import Mathlib

/-!
# Verification of the mmauth email-authentication library

This development shallowly embeds the parts of the mmauth Go library (DKIM,
ARC, SPF) that the specification's claims are about, and proves or refutes
each claim against the embedded code.

Modelling conventions:
* Go strings and byte slices are modelled as `List Char` (for the header and
  canonicalization utilities, whose claims need character-level induction) or
  as Lean `String` (for the SPF engine, whose claims are about control flow
  and counters).  All concrete inputs in the claims are ASCII, where the two
  views agree with Go's byte/rune views.
* Go's `(value, error)` returns are modelled as `Except`; `(value, *Result)`
  returns of the SPF engine are modelled as `Except Result` or as products
  with `Option Result`, mirroring each function's shape.
* Go maps used as sets or accumulators are modelled as lists with the same
  observable behaviour at their use sites.
-/

namespace Mmauth

/-! ## Shared string primitives (Go `strings` / `unicode` package model)

Characters are runes.  `goIsSpace` models `unicode.IsSpace` on the Latin-1
range (the only fragment reachable from the byte-oriented call sites; wider
Unicode white space does not occur in ASCII mail data). -/

def goIsSpace (c : Char) : Bool :=
  c = ' ' || c = '\t' || c = '\n' || c = '\x0b' || c = '\x0c' || c = '\r' ||
  c = '\x85' || c = '\xa0'

/-- Go `strings.TrimSpace` on a rune list. -/
def goTrimSpace (l : List Char) : List Char :=
  ((l.dropWhile goIsSpace).reverse.dropWhile goIsSpace).reverse

/-- Go `unicode.ToLower` restricted to ASCII (all call sites compare ASCII
header names and tag names). -/
def goToLower (c : Char) : Char :=
  if 'A' ≤ c ∧ c ≤ 'Z' then Char.ofNat (c.toNat + 32) else c

def goToLowerStr (l : List Char) : List Char := l.map goToLower

/-- Go `strings.Cut(s, sep)` for a one-rune separator: splits at the first
occurrence, returning `(before, after, found)`. -/
def goCut (sep : Char) : List Char → (List Char × List Char × Bool)
  | [] => ([], [], false)
  | c :: rest =>
    if c = sep then ([], rest, true)
    else
      let r := goCut sep rest
      (c :: r.1, r.2.1, r.2.2)

/-- Go `strings.Split(s, sep)` (= `SplitN` with `n = -1`) for a one-rune
separator. The result is always non-empty. -/
def splitOnChar (sep : Char) : List Char → List (List Char)
  | [] => [[]]
  | c :: rest =>
    if c = sep then [] :: splitOnChar sep rest
    else
      match splitOnChar sep rest with
      | [] => [[c]]
      | p :: ps => (c :: p) :: ps

theorem splitOnChar_ne_nil (sep : Char) (l : List Char) : splitOnChar sep l ≠ [] := by
  cases l with
  | nil => simp [splitOnChar]
  | cons c rest =>
    simp only [splitOnChar]
    split
    · simp
    · split <;> simp

/-- Go `header.StripWhiteSpace`: remove every rune for which
`unicode.IsSpace` holds. -/
def StripWhiteSpace (l : List Char) : List Char := l.filter (fun c => ¬ goIsSpace c)

/-! ## `internal/header`: address parsing (claim C9) -/

/-- Loop state of `header.ParseAddress`: one pass over the runes tracking
`quoted`, `afeeld`, `start`, `end`.  Returns the final `(start, end)`. -/
def parseAddressScan : List Char → Nat → Bool → Bool → Nat → Nat → (Nat × Nat)
  | [], _, _, _, start, stop => (start, stop)
  | c :: rest, i, quoted, afeeld, start, stop =>
    if c = '"' ∧ ¬ afeeld then
      parseAddressScan rest (i + 1) (¬ quoted) afeeld start stop
    else if c = '<' ∧ ¬ quoted then
      parseAddressScan rest (i + 1) quoted true i stop
    else if c = '>' ∧ ¬ quoted then
      parseAddressScan rest (i + 1) quoted false start i
    else
      parseAddressScan rest (i + 1) quoted afeeld start stop

/-- `header.ParseAddress`: take the bracketed address when `start < end`,
else the whole input; trim surrounding space. -/
def ParseAddress (s : List Char) : List Char :=
  let se := parseAddressScan s 0 false false 0 0
  let address := if se.1 < se.2 then (s.drop (se.1 + 1)).take (se.2 - (se.1 + 1)) else s
  goTrimSpace address

/-- Error values of the header package. -/
inductive HeaderErr where
  | invalidEmailFormat
  | malformedHeaderParams
  deriving DecidableEq, Repr

/-- `header.ParseAddressDomain`: parse the address, then split on `"@"` and
return the last part; error when the address is empty or has no `"@"`. -/
def ParseAddressDomain (s : List Char) : Except HeaderErr (List Char) :=
  let addr := ParseAddress s
  if addr = [] then .error .invalidEmailFormat
  else
    let parts := splitOnChar '@' addr
    if parts.length < 2 then .error .invalidEmailFormat
    else .ok (parts.getLast (splitOnChar_ne_nil '@' addr))

/-- Spec-side description of "the suffix after the rightmost `@`". -/
def suffixAfterLastAt (l : List Char) : List Char :=
  (l.reverse.takeWhile (fun c => c ≠ '@')).reverse

theorem takeWhile_append_single_nonsat {p : Char → Bool} {a : Char}
    (xs : List Char) (h : p a = false) :
    (xs ++ [a]).takeWhile p = xs.takeWhile p := by
  induction xs with
  | nil => simp [List.takeWhile, h]
  | cons x xs ih =>
    simp only [List.cons_append, List.takeWhile]
    cases hx : p x <;> simp [ih]

theorem takeWhile_append_of_mem_nonsat {p : Char → Bool} {a : Char}
    (xs ys : List Char) (ha : a ∈ xs) (h : p a = false) :
    (xs ++ ys).takeWhile p = xs.takeWhile p := by
  induction xs with
  | nil => cases ha
  | cons x xs ih =>
    simp only [List.cons_append, List.takeWhile]
    cases hx : p x with
    | false => rfl
    | true =>
      have : a ∈ xs := by
        rcases List.mem_cons.1 ha with rfl | hmem
        · rw [hx] at h; cases h
        · exact hmem
      simp [ih this]

theorem splitOnChar_of_not_mem {sep : Char} {l : List Char} (h : sep ∉ l) :
    splitOnChar sep l = [l] := by
  induction l with
  | nil => rfl
  | cons c rest ih =>
    have hc : ¬ c = sep := fun hcs => h (hcs ▸ List.mem_cons_self c rest)
    have hrest : sep ∉ rest := fun hm => h (List.mem_cons_of_mem c hm)
    simp [splitOnChar, hc, ih hrest]

theorem two_le_length_splitOnChar {sep : Char} {l : List Char} (h : sep ∈ l) :
    2 ≤ (splitOnChar sep l).length := by
  induction l with
  | nil => cases h
  | cons c rest ih =>
    by_cases hc : c = sep
    · have h1 := splitOnChar_ne_nil sep rest
      have hle : 1 ≤ (splitOnChar sep rest).length := by
        cases hsr : splitOnChar sep rest with
        | nil => exact absurd hsr h1
        | cons a as => simp
      rw [show splitOnChar sep (c :: rest) = [] :: splitOnChar sep rest from by
        simp [splitOnChar, hc]]
      simp only [List.length_cons]
      omega
    · have hrest : sep ∈ rest := by
        rcases List.mem_cons.1 h with rfl | hmem
        · exact absurd rfl hc
        · exact hmem
      have h2 := ih hrest
      simp only [splitOnChar, if_neg hc]
      cases hsr : splitOnChar sep rest with
      | nil => exact absurd hsr (splitOnChar_ne_nil sep rest)
      | cons p ps => rw [hsr] at h2; simpa using h2

theorem getLastq_splitOnChar (sep : Char) (l : List Char) :
    (splitOnChar sep l).getLast? =
      some ((l.reverse.takeWhile (fun c => c ≠ sep)).reverse) := by
  induction l with
  | nil => rfl
  | cons c rest ih =>
    by_cases hc : c = sep
    · subst hc
      have hsep : (fun x => decide (x ≠ c)) c = false := by simp
      simp only [splitOnChar, if_pos rfl, List.reverse_cons]
      rw [takeWhile_append_single_nonsat _ hsep]
      cases hsr : splitOnChar c rest with
      | nil => exact absurd hsr (splitOnChar_ne_nil c rest)
      | cons p ps =>
        rw [hsr] at ih
        cases ps with
        | nil => simpa using ih
        | cons q qs => simpa [List.getLast?] using ih
    · by_cases hm : sep ∈ rest
      · have hsep : (fun x => decide (x ≠ sep)) sep = false := by simp
        have hlen := two_le_length_splitOnChar (l := rest) hm
        simp only [splitOnChar, if_neg hc, List.reverse_cons]
        rw [takeWhile_append_of_mem_nonsat _ _ (by simpa using hm) hsep]
        cases hsr : splitOnChar sep rest with
        | nil => exact absurd hsr (splitOnChar_ne_nil sep rest)
        | cons p ps =>
          rw [hsr] at ih hlen
          cases ps with
          | nil => simp at hlen
          | cons q qs => simpa [List.getLast?] using ih
      · have hall : ∀ x ∈ rest.reverse ++ [c], (fun x => decide (x ≠ sep)) x = true := by
          intro x hx
          rcases List.mem_append.1 hx with hx | hx
          · have hxr : x ∈ rest := by simpa using hx
            simp only [decide_eq_true_eq]
            intro h
            exact hm (h ▸ hxr)
          · simp only [List.mem_singleton] at hx
            subst hx; simp [hc]
        simp only [splitOnChar, if_neg hc, splitOnChar_of_not_mem hm, List.reverse_cons]
        rw [List.takeWhile_eq_self_iff.2 hall]
        simp

/-- C9 counterexample: for the input line `"a@"`, the extracted address ends
in `@`, the rightmost `@`-suffix is empty, yet `ParseAddressDomain` succeeds
with the empty domain instead of failing with `InvalidEmailFormat`. -/
theorem C9_counterexample :
    ParseAddressDomain ("a@".toList) = Except.ok [] ∧
    ParseAddressDomain ("a@".toList) ≠ Except.error HeaderErr.invalidEmailFormat := by
  refine ⟨rfl, ?_⟩
  intro h
  rw [show ParseAddressDomain ("a@".toList) = Except.ok [] from rfl] at h
  exact Except.noConfusion h

/-- C9 (amended): `ParseAddressDomain` fails with `InvalidEmailFormat`
exactly when the extracted address is empty or contains no `@`; otherwise it
returns the suffix after the rightmost `@` even when that suffix is empty. -/
theorem C9_parse_address_domain (s : List Char) :
    ParseAddressDomain s =
      (if ParseAddress s = [] ∨ '@' ∉ ParseAddress s then
        Except.error HeaderErr.invalidEmailFormat
      else Except.ok (suffixAfterLastAt (ParseAddress s))) := by
  unfold ParseAddressDomain
  by_cases hnil : ParseAddress s = []
  · simp [hnil]
  · by_cases hm : '@' ∈ ParseAddress s
    · have hlen := two_le_length_splitOnChar (l := ParseAddress s) hm
      have hlast := getLastq_splitOnChar '@' (ParseAddress s)
      rw [List.getLast?_eq_getLast _ (splitOnChar_ne_nil '@' (ParseAddress s))] at hlast
      simp only [Option.some.injEq] at hlast
      simp [hnil, hm, suffixAfterLastAt, Nat.not_lt.2 hlen, hlast]
    · have : (splitOnChar '@' (ParseAddress s)).length = 1 := by
        rw [splitOnChar_of_not_mem hm]; rfl
      simp [hnil, hm, this]

/-! ## `internal/header`: RFC 6376 §5.4.2 header selection (claim C2) -/

/-- Field-name extraction used by `ExtractHeadersDKIM` when it builds the
`byName` map: `strings.Cut(header, ":")` then `ToLower(TrimSpace(name))`;
a line without `:` is skipped (`none`). -/
def headerName (h : List Char) : Option (List Char) :=
  let r := goCut ':' h
  if r.2.2 then some (goToLowerStr (goTrimSpace r.1)) else none

/-- The `byName` accumulation loop of `ExtractHeadersDKIM`: group the header
lines by extracted field name, in message order. -/
def buildByName (headers : List (List Char)) : List Char → List (List Char) :=
  headers.foldl
    (fun m h =>
      match headerName h with
      | none => m
      | some k => fun q => if q = k then m q ++ [h] else m q)
    (fun _ => [])

/-- The `keys` consumption loop of `ExtractHeadersDKIM`: left to right, pop
the bottom-most remaining line of each (lower-cased, trimmed) name. -/
def extractHeadersDKIMLoop (m : List Char → List (List Char)) :
    List (List Char) → List (List Char)
  | [] => []
  | key :: keys =>
    let k := goToLowerStr (goTrimSpace key)
    let hs := m k
    if hh : hs = [] then extractHeadersDKIMLoop m keys
    else hs.getLast hh :: extractHeadersDKIMLoop (fun q => if q = k then hs.dropLast else m q) keys

/-- `header.ExtractHeadersDKIM` (RFC 6376 §5.4.2 selection). -/
def ExtractHeadersDKIM (headers keys : List (List Char)) : List (List Char) :=
  extractHeadersDKIMLoop (buildByName headers) keys

/-- The header lines of `hs` whose field name is `q` (message order). -/
def filterName (hs : List (List Char)) (q : List Char) : List (List Char) :=
  hs.filter (fun h => decide (headerName h = some q))

/-- Spec-side primitive: remove the *last* header line of `hs` whose field
name matches `k`, returning the selected line and the remaining message. -/
def removeLastMatching (k : List Char) : List (List Char) →
    Option (List Char × List (List Char))
  | [] => none
  | h :: rest =>
    match removeLastMatching k rest with
    | some (sel, rest') => some (sel, h :: rest')
    | none => if headerName h = some k then some (h, rest) else none

/-- Spec-side description of §5.4.2 selection, following the specification's
words: process the `h=` list left to right; for each name pop the last
remaining matching header line; a name with no remaining match contributes
nothing. -/
def selectDKIMSpec (hs : List (List Char)) : List (List Char) → List (List Char)
  | [] => []
  | key :: keys =>
    let k := goToLowerStr (goTrimSpace key)
    match removeLastMatching k hs with
    | none => selectDKIMSpec hs keys
    | some (sel, hs') => sel :: selectDKIMSpec hs' keys

theorem buildByName_apply (headers : List (List Char)) (q : List Char) :
    buildByName headers q = filterName headers q := by
  suffices h : ∀ (m : List Char → List (List Char)),
      (headers.foldl
        (fun m h =>
          match headerName h with
          | none => m
          | some k => fun q => if q = k then m q ++ [h] else m q) m) q
        = m q ++ filterName headers q by
    simpa using h (fun _ => [])
  induction headers with
  | nil => intro m; simp [filterName]
  | cons h rest ih =>
    intro m
    simp only [List.foldl_cons]
    cases hn : headerName h with
    | none =>
      rw [ih m]
      simp [filterName, hn]
    | some k =>
      rw [ih]
      by_cases hq : q = k
      · subst hq
        simp [filterName, hn, List.append_assoc]
      · simp [filterName, hn, hq, Ne.symm hq]

theorem getLastq_cons_of_ne_nil {α : Type} (h : α) {l : List α} (hl : l ≠ []) :
    (h :: l).getLast? = l.getLast? := by
  cases l with
  | nil => exact absurd rfl hl
  | cons a as => simp [List.getLast?_cons_cons]

theorem removeLastMatching_none {k : List Char} {hs : List (List Char)} :
    removeLastMatching k hs = none ↔ filterName hs k = [] := by
  induction hs with
  | nil => simp [removeLastMatching, filterName]
  | cons h rest ih =>
    simp only [removeLastMatching]
    cases hr : removeLastMatching k rest with
    | some p =>
      simp only []
      constructor
      · intro hcon; cases hcon
      · intro hf
        have : filterName rest k = [] := by
          by_cases hn : headerName h = some k
          · simp [filterName, hn] at hf
          · simpa [filterName, hn] using hf
        rw [← ih] at this
        rw [hr] at this; cases this
    | none =>
      have hrest : filterName rest k = [] := ih.1 hr
      by_cases hn : headerName h = some k
      · simp [hn, filterName]
      · simp [hn, filterName, hrest]
        simpa [filterName] using hrest

theorem removeLastMatching_some {k : List Char} {hs hs' : List (List Char)}
    {sel : List Char} (h : removeLastMatching k hs = some (sel, hs')) :
    filterName hs k ≠ [] ∧ (filterName hs k).getLast? = some sel ∧
    ∀ q, filterName hs' q =
      if q = k then (filterName hs k).dropLast else filterName hs q := by
  induction hs generalizing hs' sel with
  | nil => cases h
  | cons hd rest ih =>
    simp only [removeLastMatching] at h
    cases hr : removeLastMatching k rest with
    | some p =>
      rw [hr] at h
      simp only [Option.some.injEq] at h
      obtain ⟨hsel, hrest'⟩ : p.1 = sel ∧ hd :: p.2 = hs' := by
        constructor
        · exact congrArg Prod.fst h
        · exact congrArg Prod.snd h
      obtain ⟨hne, hlast, hupd⟩ := @ih p.2 p.1 (by rw [hr])
      subst hsel
      refine ⟨?_, ?_, ?_⟩
      · by_cases hn : headerName hd = some k
        · simp [filterName, hn]
        · simpa [filterName, hn] using hne
      · by_cases hn : headerName hd = some k
        · have : filterName (hd :: rest) k = hd :: filterName rest k := by
            simp [filterName, hn]
          rw [this, getLastq_cons_of_ne_nil _ hne]
          exact hlast
        · have : filterName (hd :: rest) k = filterName rest k := by
            simp [filterName, hn]
          rw [this]; exact hlast
      · intro q
        rw [← hrest']
        by_cases hq : q = k
        · subst hq
          by_cases hn : headerName hd = some q
          · have h1 : filterName (hd :: p.2) q = hd :: filterName p.2 q := by
              simp [filterName, hn]
            have h2 : filterName (hd :: rest) q = hd :: filterName rest q := by
              simp [filterName, hn]
            rw [h1, h2, List.dropLast_cons_of_ne_nil hne]
            have := hupd q
            simp only [if_pos rfl] at this
            simp [this]
          · have h1 : filterName (hd :: p.2) q = filterName p.2 q := by
              simp [filterName, hn]
            have h2 : filterName (hd :: rest) q = filterName rest q := by
              simp [filterName, hn]
            rw [h1, h2]
            have := hupd q
            simp only [if_pos rfl] at this
            simp [this]
        · have := hupd q
          rw [if_neg hq] at this
          by_cases hn : headerName hd = some q
          · simp [filterName, hn, if_neg hq]
            simpa [filterName] using this
          · simp [filterName, hn, if_neg hq]
            simpa [filterName] using this
    | none =>
      rw [hr] at h
      by_cases hn : headerName hd = some k
      · rw [if_pos hn] at h
        simp only [Option.some.injEq] at h
        obtain ⟨hsel, hrest'⟩ : hd = sel ∧ rest = hs' := by
          constructor
          · exact congrArg Prod.fst h
          · exact congrArg Prod.snd h
        subst hsel; subst hrest'
        have hrest : filterName rest k = [] := removeLastMatching_none.1 hr
        have hcons : filterName (hd :: rest) k = [hd] := by
          simp [filterName, hn, hrest]
          simpa [filterName] using hrest
        refine ⟨by simp [hcons], by simp [hcons], ?_⟩
        intro q
        by_cases hq : q = k
        · subst hq; simp [hcons, hrest]
        · have hnq : ¬ headerName hd = some q := by
            intro hc; rw [hn] at hc
            exact hq (by injection hc with h1; exact h1.symm)
          simp [filterName, hnq, hq]
      · rw [if_neg hn] at h; cases h

theorem extractLoop_eq_spec (keys : List (List Char)) :
    ∀ (hs : List (List Char)) (m : List Char → List (List Char)),
      (∀ q, m q = filterName hs q) →
      extractHeadersDKIMLoop m keys = selectDKIMSpec hs keys := by
  induction keys with
  | nil => intro hs m _; rfl
  | cons key keys ih =>
    intro hs m hm
    simp only [extractHeadersDKIMLoop, selectDKIMSpec]
    cases hrm : removeLastMatching (goToLowerStr (goTrimSpace key)) hs with
    | none =>
      have hf : filterName hs (goToLowerStr (goTrimSpace key)) = [] :=
        removeLastMatching_none.1 hrm
      rw [dif_pos (by rw [hm]; exact hf)]
      exact ih hs m hm
    | some p =>
      obtain ⟨hne, hlast, hupd⟩ := removeLastMatching_some hrm
      have hmk : m (goToLowerStr (goTrimSpace key)) =
          filterName hs (goToLowerStr (goTrimSpace key)) := hm _
      rw [dif_neg (by rw [hmk]; exact hne)]
      have hsel : (m (goToLowerStr (goTrimSpace key))).getLast (by rw [hmk]; exact hne) = p.1 := by
        have h1 : (m (goToLowerStr (goTrimSpace key))).getLast? = some p.1 := by
          rw [hmk]; exact hlast
        have h2 := List.getLast?_eq_getLast (m (goToLowerStr (goTrimSpace key)))
          (by rw [hmk]; exact hne)
        rw [h2] at h1
        injection h1
      rw [hsel]
      congr 1
      exact ih p.2 _ (by
        intro q
        rw [hupd q]
        by_cases hq : q = goToLowerStr (goTrimSpace key)
        · simp [hq, hmk]
        · simp [hq, hm q])

/-- C2: DKIM header selection processes the `h=` name list left to right and,
for each name, pops the bottom-most not-yet-consumed header line whose field
name matches (case- and surrounding-whitespace-insensitively); names without
a remaining match contribute nothing, and repeated names consume successively
earlier lines.  Stated as equivalence with the spec-side selection procedure,
together with the specification's concrete `Hoge` scenario (S4). -/
theorem C2_extract_headers_dkim :
    (∀ (headers keys : List (List Char)),
      ExtractHeadersDKIM headers keys = selectDKIMSpec headers keys) ∧
    (ExtractHeadersDKIM
        ["Hoge: hoge1".toList, "Hoge: hoge2".toList, "From: a@example.com".toList]
        ["Date".toList, "Subject".toList, "Hoge".toList]
      = ["Hoge: hoge2".toList]) ∧
    (ExtractHeadersDKIM
        ["Hoge: hoge1".toList, "Hoge: hoge2".toList, "From: a@example.com".toList]
        ["Hoge".toList, "Hoge".toList]
      = ["Hoge: hoge2".toList, "Hoge: hoge1".toList]) := by
  refine ⟨?_, by decide, by decide⟩
  intro headers keys
  exact extractLoop_eq_spec keys headers (buildByName headers)
    (fun q => buildByName_apply headers q)

/-! ## `internal/dkimheader`: strict DKIM tag-list parsing (claims C3, C10) -/

/-- `dkimheader.isValidDKIMTag`: the RFC 6376 §3.5 tag names. -/
def isValidDKIMTag (t : List Char) : Bool :=
  t = ['v'] || t = ['a'] || t = ['b'] || t = ['b', 'h'] || t = ['c'] || t = ['d'] ||
  t = ['h'] || t = ['i'] || t = ['l'] || t = ['q'] || t = ['s'] || t = ['t'] ||
  t = ['x'] || t = ['z']

/-- Association-list lookup modelling Go map read (keys are unique here). -/
def lookupParam : List (List Char × List Char) → List Char → Option (List Char)
  | [], _ => none
  | kv :: rest, k => if kv.1 = k then some kv.2 else lookupParam rest k

/-- Go `strconv.ParseInt(s, 10, 64)` (also `Atoi` on 64-bit platforms),
returning `none` on syntax or range errors. -/
def goParseDigits : List Char → Option Nat
  | [] => none
  | [c] => if '0' ≤ c ∧ c ≤ '9' then some (c.toNat - '0'.toNat) else none
  | c :: rest =>
    if '0' ≤ c ∧ c ≤ '9' then
      match goParseDigits rest with
      | none => none
      | some n => some ((c.toNat - '0'.toNat) * 10 ^ rest.length + n)
    else none

def goParseInt64 (l : List Char) : Option Int :=
  match l with
  | '+' :: rest =>
    match goParseDigits rest with
    | some n => if (n : Int) ≤ 2 ^ 63 - 1 then some (n : Int) else none
    | none => none
  | '-' :: rest =>
    match goParseDigits rest with
    | some n => if (n : Int) ≤ 2 ^ 63 then some (-(n : Int)) else none
    | none => none
  | _ =>
    match goParseDigits l with
    | some n => if (n : Int) ≤ 2 ^ 63 - 1 then some (n : Int) else none
    | none => none

/-- The tag scanning loop of `dkimheader.ParseSignatureParams`: split input
(already split on `;`), trim, cut at `=`, validate shape, reject duplicates,
record recognized tags only. -/
def parseSignatureLoop : List (List Char) → List (List Char) →
    List (List Char × List Char) → Except String (List (List Char × List Char))
  | [], _seen, params => .ok params
  | pair :: rest, seen, params =>
    let trimmedPair := goTrimSpace pair
    if trimmedPair = [] then parseSignatureLoop rest seen params
    else
      let cut := goCut '=' trimmedPair
      if ¬ cut.2.2 then .error "malformed header params"
      else
        let trimmedKey := goToLowerStr (goTrimSpace cut.1)
        if trimmedKey = [] then .error "malformed header params"
        else if 100 < trimmedKey.length then .error "malformed header params"
        else
          let trimmedValue := goTrimSpace cut.2.1
          if 1000 < trimmedValue.length then .error "malformed header params"
          else if trimmedKey ∈ seen then .error "duplicate tag in DKIM-Signature header"
          else
            parseSignatureLoop rest (trimmedKey :: seen)
              (if isValidDKIMTag trimmedKey then params ++ [(trimmedKey, trimmedValue)]
               else params)

def requiredTags : List (List Char) :=
  [['a'], ['b'], ['b', 'h'], ['d'], ['h'], ['s'], ['v']]

def firstMissing (params : List (List Char × List Char)) : List (List Char) → Option (List Char)
  | [] => none
  | t :: rest => if lookupParam params t = none then some t else firstMissing params rest

/-- `dkimheader.validateTagTypes`: `t`/`x` must be 64-bit integers, `l` a
non-negative integer at most `1<<32`. -/
def validateTagTypes (params : List (List Char × List Char)) : Except String Unit :=
  match lookupParam params ['t'] with
  | some tv =>
    if (goParseInt64 tv).isNone then .error "invalid timestamp t value"
    else validateTagTypesX params
  | none => validateTagTypesX params
where
  validateTagTypesX (params : List (List Char × List Char)) : Except String Unit :=
    match lookupParam params ['x'] with
    | some xv =>
      if (goParseInt64 xv).isNone then .error "invalid expiration x value"
      else validateTagTypesL params
    | none => validateTagTypesL params
  validateTagTypesL (params : List (List Char × List Char)) : Except String Unit :=
    match lookupParam params ['l'] with
    | some lv =>
      match goParseInt64 lv with
      | none => .error "invalid body length l value"
      | some n =>
        if n < 0 then .error "body length l must be non-negative"
        else if 2 ^ 32 < n then .error "body length l value too large"
        else .ok ()
    | none => .ok ()

/-- `dkimheader.ParseSignatureParams` on an already `;`-split tag-value
list: scanning loop, then the required-tag check, the `v = "1"` check and
the tag type checks. -/
def ParseSignatureParamsPairs (pairs : List (List Char)) :
    Except String (List (List Char × List Char)) :=
  match parseSignatureLoop pairs [] [] with
  | .error e => .error e
  | .ok params =>
    if (firstMissing params requiredTags).isSome then
      .error "required tag is missing in DKIM-Signature header"
    else if (lookupParam params ['v']).getD [] ≠ ['1'] then
      .error "invalid version tag value"
    else
      match validateTagTypes params with
      | .error e => .error e
      | .ok _ => .ok params

/-- `dkimheader.ParseSignatureParams`. -/
def ParseSignatureParams (s : List Char) : Except String (List (List Char × List Char)) :=
  ParseSignatureParamsPairs (splitOnChar ';' s)

/-- The tag name a `;`-separated field carries: the lower-cased trimmed text
before the first `=` of the trimmed field; fields that trim to nothing are
skipped by the parser and carry no name. -/
def pairName (p : List Char) : Option (List Char) :=
  if goTrimSpace p = [] then none
  else some (goToLowerStr (goTrimSpace (goCut '=' (goTrimSpace p)).1))

theorem parseSignatureLoop_error_of_dup (pairs : List (List Char)) :
    ∀ seen params, seen.Nodup → ¬ (seen ++ pairs.filterMap pairName).Nodup →
    ∃ e, parseSignatureLoop pairs seen params = .error e := by
  induction pairs with
  | nil =>
    intro seen params hs hd
    simp only [List.filterMap_nil, List.append_nil] at hd
    exact absurd hs hd
  | cons pair rest ih =>
    intro seen params hs hd
    by_cases h1 : goTrimSpace pair = []
    · have hpn : pairName pair = none := by simp [pairName, h1]
      rw [show (pair :: rest).filterMap pairName = rest.filterMap pairName by
        simp [List.filterMap_cons, hpn]] at hd
      rw [show parseSignatureLoop (pair :: rest) seen params =
          parseSignatureLoop rest seen params by simp [parseSignatureLoop, h1]]
      exact ih seen params hs hd
    · have hpn : pairName pair =
          some (goToLowerStr (goTrimSpace (goCut '=' (goTrimSpace pair)).1)) := by
        simp [pairName, h1]
      by_cases h2 : (goCut '=' (goTrimSpace pair)).2.2 = true
      · by_cases h3 : goToLowerStr (goTrimSpace (goCut '=' (goTrimSpace pair)).1) = []
        · exact ⟨"malformed header params", by simp [parseSignatureLoop, h1, h2, h3]⟩
        · by_cases h4 : 100 < (goToLowerStr (goTrimSpace (goCut '=' (goTrimSpace pair)).1)).length
          · exact ⟨"malformed header params", by simp [parseSignatureLoop, h1, h2, h3, h4]⟩
          · by_cases h5 : 1000 < (goTrimSpace (goCut '=' (goTrimSpace pair)).2.1).length
            · exact ⟨"malformed header params", by simp [parseSignatureLoop, h1, h2, h3, h4, h5]⟩
            · by_cases h6 : goToLowerStr (goTrimSpace (goCut '=' (goTrimSpace pair)).1) ∈ seen
              · exact ⟨"duplicate tag in DKIM-Signature header", by simp [parseSignatureLoop, h1, h2, h3, h4, h5, h6]⟩
              · rw [show parseSignatureLoop (pair :: rest) seen params =
                    parseSignatureLoop rest
                      (goToLowerStr (goTrimSpace (goCut '=' (goTrimSpace pair)).1) :: seen)
                      (if isValidDKIMTag (goToLowerStr (goTrimSpace (goCut '=' (goTrimSpace pair)).1)) then
                        params ++ [(goToLowerStr (goTrimSpace (goCut '=' (goTrimSpace pair)).1),
                          goTrimSpace (goCut '=' (goTrimSpace pair)).2.1)]
                       else params) by
                  simp [parseSignatureLoop, h1, h2, h3, h4, h5, h6]]
                refine ih _ _ (List.nodup_cons.2 ⟨h6, hs⟩) ?_
                rw [show (pair :: rest).filterMap pairName =
                    goToLowerStr (goTrimSpace (goCut '=' (goTrimSpace pair)).1)
                      :: rest.filterMap pairName by simp [List.filterMap_cons, hpn]] at hd
                intro hn
                exact hd (List.perm_middle.symm.nodup (by simpa using hn))
      · exact ⟨"malformed header params", by simp [parseSignatureLoop, h1, h2]⟩

theorem parseSignatureLoop_ok_valid (pairs : List (List Char)) :
    ∀ seen params res, parseSignatureLoop pairs seen params = .ok res →
    (∀ kv ∈ params, isValidDKIMTag kv.1 = true) → ∀ kv ∈ res, isValidDKIMTag kv.1 = true := by
  induction pairs with
  | nil =>
    intro seen params res h hp
    simp only [parseSignatureLoop] at h
    injection h with h
    exact h ▸ hp
  | cons pair rest ih =>
    intro seen params res h hp
    by_cases h1 : goTrimSpace pair = []
    · rw [show parseSignatureLoop (pair :: rest) seen params =
        parseSignatureLoop rest seen params by simp [parseSignatureLoop, h1]] at h
      exact ih _ _ _ h hp
    · by_cases h2 : (goCut '=' (goTrimSpace pair)).2.2 = true
      · by_cases h3 : goToLowerStr (goTrimSpace (goCut '=' (goTrimSpace pair)).1) = []
        · simp [parseSignatureLoop, h1, h2, h3] at h
        · by_cases h4 : 100 < (goToLowerStr (goTrimSpace (goCut '=' (goTrimSpace pair)).1)).length
          · simp [parseSignatureLoop, h1, h2, h3, h4] at h
          · by_cases h5 : 1000 < (goTrimSpace (goCut '=' (goTrimSpace pair)).2.1).length
            · simp [parseSignatureLoop, h1, h2, h3, h4, h5] at h
            · by_cases h6 : goToLowerStr (goTrimSpace (goCut '=' (goTrimSpace pair)).1) ∈ seen
              · simp [parseSignatureLoop, h1, h2, h3, h4, h5, h6] at h
              · rw [show parseSignatureLoop (pair :: rest) seen params =
                    parseSignatureLoop rest
                      (goToLowerStr (goTrimSpace (goCut '=' (goTrimSpace pair)).1) :: seen)
                      (if isValidDKIMTag (goToLowerStr (goTrimSpace (goCut '=' (goTrimSpace pair)).1)) then
                        params ++ [(goToLowerStr (goTrimSpace (goCut '=' (goTrimSpace pair)).1),
                          goTrimSpace (goCut '=' (goTrimSpace pair)).2.1)]
                       else params) by
                  simp [parseSignatureLoop, h1, h2, h3, h4, h5, h6]] at h
                refine ih _ _ _ h ?_
                by_cases hv : isValidDKIMTag (goToLowerStr (goTrimSpace (goCut '=' (goTrimSpace pair)).1)) = true
                · rw [if_pos hv]
                  intro kv hkv
                  rcases List.mem_append.1 hkv with hkv | hkv
                  · exact hp kv hkv
                  · simp only [List.mem_singleton] at hkv
                    subst hkv; exact hv
                · rw [if_neg hv]; exact hp
      · simp [parseSignatureLoop, h1, h2] at h

theorem parseSignatureLoop_ok_names (pairs : List (List Char)) :
    ∀ seen params res, parseSignatureLoop pairs seen params = .ok res →
    ∀ kv ∈ res, kv ∈ params ∨ kv.1 ∈ pairs.filterMap pairName := by
  induction pairs with
  | nil =>
    intro seen params res h kv hkv
    simp only [parseSignatureLoop] at h
    injection h with h
    exact Or.inl (h ▸ hkv)
  | cons pair rest ih =>
    intro seen params res h kv hkv
    by_cases h1 : goTrimSpace pair = []
    · rw [show parseSignatureLoop (pair :: rest) seen params =
        parseSignatureLoop rest seen params by simp [parseSignatureLoop, h1]] at h
      rcases ih _ _ _ h kv hkv with hin | hin
      · exact Or.inl hin
      · refine Or.inr ?_
        rw [show (pair :: rest).filterMap pairName = rest.filterMap pairName by
          simp [List.filterMap_cons, pairName, h1]]
        exact hin
    · have hpn : pairName pair =
          some (goToLowerStr (goTrimSpace (goCut '=' (goTrimSpace pair)).1)) := by
        simp [pairName, h1]
      have hcons : (pair :: rest).filterMap pairName =
          goToLowerStr (goTrimSpace (goCut '=' (goTrimSpace pair)).1)
            :: rest.filterMap pairName := by simp [List.filterMap_cons, hpn]
      by_cases h2 : (goCut '=' (goTrimSpace pair)).2.2 = true
      · by_cases h3 : goToLowerStr (goTrimSpace (goCut '=' (goTrimSpace pair)).1) = []
        · simp [parseSignatureLoop, h1, h2, h3] at h
        · by_cases h4 : 100 < (goToLowerStr (goTrimSpace (goCut '=' (goTrimSpace pair)).1)).length
          · simp [parseSignatureLoop, h1, h2, h3, h4] at h
          · by_cases h5 : 1000 < (goTrimSpace (goCut '=' (goTrimSpace pair)).2.1).length
            · simp [parseSignatureLoop, h1, h2, h3, h4, h5] at h
            · by_cases h6 : goToLowerStr (goTrimSpace (goCut '=' (goTrimSpace pair)).1) ∈ seen
              · simp [parseSignatureLoop, h1, h2, h3, h4, h5, h6] at h
              · rw [show parseSignatureLoop (pair :: rest) seen params =
                    parseSignatureLoop rest
                      (goToLowerStr (goTrimSpace (goCut '=' (goTrimSpace pair)).1) :: seen)
                      (if isValidDKIMTag (goToLowerStr (goTrimSpace (goCut '=' (goTrimSpace pair)).1)) then
                        params ++ [(goToLowerStr (goTrimSpace (goCut '=' (goTrimSpace pair)).1),
                          goTrimSpace (goCut '=' (goTrimSpace pair)).2.1)]
                       else params) by
                  simp [parseSignatureLoop, h1, h2, h3, h4, h5, h6]] at h
                rcases ih _ _ _ h kv hkv with hin | hin
                · by_cases hv : isValidDKIMTag (goToLowerStr (goTrimSpace (goCut '=' (goTrimSpace pair)).1)) = true
                  · rw [if_pos hv] at hin
                    rcases List.mem_append.1 hin with hin | hin
                    · exact Or.inl hin
                    · simp only [List.mem_singleton] at hin
                      subst hin
                      exact Or.inr (by rw [hcons]; exact List.mem_cons_self _ _)
                  · rw [if_neg hv] at hin; exact Or.inl hin
                · exact Or.inr (by rw [hcons]; exact List.mem_cons_of_mem _ hin)
      · simp [parseSignatureLoop, h1, h2] at h

theorem lookupParam_some_mem {params : List (List Char × List Char)} {k v : List Char}
    (h : lookupParam params k = some v) : (k, v) ∈ params := by
  induction params with
  | nil => cases h
  | cons kv rest ih =>
    simp only [lookupParam] at h
    by_cases hk : kv.1 = k
    · rw [if_pos hk] at h
      injection h with h
      have heq : (k, v) = kv := by
        obtain ⟨a, b⟩ := kv
        simp only at hk h
        subst hk; subst h; rfl
      exact heq ▸ List.mem_cons_self _ _
    · rw [if_neg hk] at h
      exact List.mem_cons_of_mem _ (ih h)

theorem firstMissing_isSome_of_missing {params : List (List Char × List Char)}
    {r : List Char} (ts : List (List Char)) (hr : r ∈ ts)
    (h : lookupParam params r = none) : (firstMissing params ts).isSome := by
  induction ts with
  | nil => cases hr
  | cons t rest ih =>
    simp only [firstMissing]
    by_cases ht : lookupParam params t = none
    · simp [ht]
    · rcases List.mem_cons.1 hr with rfl | hmem
      · exact absurd h ht
      · simp only [if_neg ht]
        exact ih hmem

theorem firstMissing_none_lookup {params : List (List Char × List Char)}
    (ts : List (List Char)) (h : firstMissing params ts = none) :
    ∀ t ∈ ts, (lookupParam params t).isSome := by
  induction ts with
  | nil => intro t ht; cases ht
  | cons t rest ih =>
    intro u hu
    simp only [firstMissing] at h
    by_cases ht : lookupParam params t = none
    · rw [if_pos ht] at h; cases h
    · rw [if_neg ht] at h
      rcases List.mem_cons.1 hu with rfl | hmem
      · exact Option.isSome_iff_ne_none.2 ht
      · exact ih h u hmem

/-- Conditions under which a `;`-separated field is a well-formed unknown
tag: trims to something, has an `=`, a non-empty not-too-long unrecognized
name and a not-too-long value. -/
def WfUnknownPair (p : List Char) : Prop :=
  goTrimSpace p ≠ [] ∧ (goCut '=' (goTrimSpace p)).2.2 = true ∧
  goToLowerStr (goTrimSpace (goCut '=' (goTrimSpace p)).1) ≠ [] ∧
  (goToLowerStr (goTrimSpace (goCut '=' (goTrimSpace p)).1)).length ≤ 100 ∧
  (goTrimSpace (goCut '=' (goTrimSpace p)).2.1).length ≤ 1000 ∧
  isValidDKIMTag (goToLowerStr (goTrimSpace (goCut '=' (goTrimSpace p)).1)) = false

instance (p : List Char) : Decidable (WfUnknownPair p) := by
  unfold WfUnknownPair; infer_instance

theorem parseSignatureLoop_append_unknown {p : List Char} (hp : WfUnknownPair p)
    (pairs : List (List Char)) :
    ∀ seen params,
      goToLowerStr (goTrimSpace (goCut '=' (goTrimSpace p)).1) ∉ seen →
      goToLowerStr (goTrimSpace (goCut '=' (goTrimSpace p)).1) ∉ pairs.filterMap pairName →
      parseSignatureLoop (pairs ++ [p]) seen params = parseSignatureLoop pairs seen params := by
  obtain ⟨hp1, hp2, hp3, hp4, hp5, hp6⟩ := hp
  induction pairs with
  | nil =>
    intro seen params hseen _
    simp only [List.nil_append]
    rw [show parseSignatureLoop [p] seen params =
        parseSignatureLoop []
          (goToLowerStr (goTrimSpace (goCut '=' (goTrimSpace p)).1) :: seen) params by
      simp [parseSignatureLoop, hp1, hp2, hp3, Nat.not_lt.2 hp4, Nat.not_lt.2 hp5, hseen, hp6]]
    rfl
  | cons pair rest ih =>
    intro seen params hseen hnames
    by_cases h1 : goTrimSpace pair = []
    · have e1 : parseSignatureLoop ((pair :: rest) ++ [p]) seen params =
          parseSignatureLoop (rest ++ [p]) seen params := by
        simp [parseSignatureLoop, h1]
      have e2 : parseSignatureLoop (pair :: rest) seen params =
          parseSignatureLoop rest seen params := by
        simp [parseSignatureLoop, h1]
      rw [e1, e2]
      exact ih seen params hseen (by
        rw [show (pair :: rest).filterMap pairName = rest.filterMap pairName by
          simp [List.filterMap_cons, pairName, h1]] at hnames
        exact hnames)
    · have hpn : pairName pair =
          some (goToLowerStr (goTrimSpace (goCut '=' (goTrimSpace pair)).1)) := by
        simp [pairName, h1]
      have hcons : (pair :: rest).filterMap pairName =
          goToLowerStr (goTrimSpace (goCut '=' (goTrimSpace pair)).1)
            :: rest.filterMap pairName := by simp [List.filterMap_cons, hpn]
      rw [hcons] at hnames
      by_cases h2 : (goCut '=' (goTrimSpace pair)).2.2 = true
      · by_cases h3 : goToLowerStr (goTrimSpace (goCut '=' (goTrimSpace pair)).1) = []
        · simp [parseSignatureLoop, h1, h2, h3]
        · by_cases h4 : 100 < (goToLowerStr (goTrimSpace (goCut '=' (goTrimSpace pair)).1)).length
          · simp [parseSignatureLoop, h1, h2, h3, h4]
          · by_cases h5 : 1000 < (goTrimSpace (goCut '=' (goTrimSpace pair)).2.1).length
            · simp [parseSignatureLoop, h1, h2, h3, h4, h5]
            · by_cases h6 : goToLowerStr (goTrimSpace (goCut '=' (goTrimSpace pair)).1) ∈ seen
              · simp [parseSignatureLoop, h1, h2, h3, h4, h5, h6]
              · have e1 : parseSignatureLoop ((pair :: rest) ++ [p]) seen params =
                    parseSignatureLoop (rest ++ [p])
                      (goToLowerStr (goTrimSpace (goCut '=' (goTrimSpace pair)).1) :: seen)
                      (if isValidDKIMTag (goToLowerStr (goTrimSpace (goCut '=' (goTrimSpace pair)).1)) then
                        params ++ [(goToLowerStr (goTrimSpace (goCut '=' (goTrimSpace pair)).1),
                          goTrimSpace (goCut '=' (goTrimSpace pair)).2.1)]
                       else params) := by
                  simp [parseSignatureLoop, h1, h2, h3, h4, h5, h6]
                have e2 : parseSignatureLoop (pair :: rest) seen params =
                    parseSignatureLoop rest
                      (goToLowerStr (goTrimSpace (goCut '=' (goTrimSpace pair)).1) :: seen)
                      (if isValidDKIMTag (goToLowerStr (goTrimSpace (goCut '=' (goTrimSpace pair)).1)) then
                        params ++ [(goToLowerStr (goTrimSpace (goCut '=' (goTrimSpace pair)).1),
                          goTrimSpace (goCut '=' (goTrimSpace pair)).2.1)]
                       else params) := by
                  simp [parseSignatureLoop, h1, h2, h3, h4, h5, h6]
                rw [e1, e2]
                refine ih _ _ ?_ (fun hm => hnames (List.mem_cons_of_mem _ hm))
                intro hm
                rcases List.mem_cons.1 hm with heq | hm
                · exact hnames (heq ▸ List.mem_cons_self _ _)
                · exact hseen hm
      · simp [parseSignatureLoop, h1, h2]

/-- C3: strict DKIM-Signature tag-list parsing.  (1) A tag name occurring
twice always fails; (2) on success every recorded tag is a recognized RFC
6376 tag and all of `a,b,bh,d,h,s,v` are present; (3) appending a
well-formed unknown tag neither errors nor changes the result; (4) a missing
required tag always fails.  The tag-value list is the `;`-split field list;
`ParseSignatureParams` itself is this pipeline after the split. -/
theorem C3_parse_signature_params :
    (∀ pairs : List (List Char), ¬ (pairs.filterMap pairName).Nodup →
      ∃ e, ParseSignatureParamsPairs pairs = .error e) ∧
    (∀ (pairs : List (List Char)) res, ParseSignatureParamsPairs pairs = .ok res →
      (∀ kv ∈ res, isValidDKIMTag kv.1 = true) ∧
      (∀ t ∈ requiredTags, (lookupParam res t).isSome)) ∧
    (∀ (pairs : List (List Char)) (p : List Char), WfUnknownPair p →
      goToLowerStr (goTrimSpace (goCut '=' (goTrimSpace p)).1) ∉ pairs.filterMap pairName →
      ParseSignatureParamsPairs (pairs ++ [p]) = ParseSignatureParamsPairs pairs) ∧
    (∀ (pairs : List (List Char)) (r : List Char), r ∈ requiredTags →
      r ∉ pairs.filterMap pairName →
      ∃ e, ParseSignatureParamsPairs pairs = .error e) := by
  refine ⟨?_, ?_, ?_, ?_⟩
  · intro pairs hdup
    obtain ⟨e, he⟩ := parseSignatureLoop_error_of_dup pairs [] [] List.nodup_nil
      (by simpa using hdup)
    exact ⟨e, by simp [ParseSignatureParamsPairs, he]⟩
  · intro pairs res h
    unfold ParseSignatureParamsPairs at h
    split at h
    next e heq => exact Except.noConfusion h
    next params heq =>
      by_cases hfm : (firstMissing params requiredTags).isSome
      · rw [if_pos hfm] at h; exact Except.noConfusion h
      · rw [if_neg hfm] at h
        by_cases hv : (lookupParam params ['v']).getD [] ≠ ['1']
        · rw [if_pos hv] at h; exact Except.noConfusion h
        · rw [if_neg hv] at h
          split at h
          next e het => exact Except.noConfusion h
          next u het =>
            injection h with h
            subst h
            refine ⟨parseSignatureLoop_ok_valid pairs [] [] _ heq (by simp), ?_⟩
            exact firstMissing_none_lookup requiredTags
              (Option.not_isSome_iff_eq_none.1 hfm)
  · intro pairs p hp hnm
    unfold ParseSignatureParamsPairs
    rw [parseSignatureLoop_append_unknown hp pairs [] [] (by simp) hnm]
  · intro pairs r hr hnm
    cases hl : parseSignatureLoop pairs [] [] with
    | error e => exact ⟨e, by unfold ParseSignatureParamsPairs; rw [hl]⟩
    | ok params =>
      have hnone : lookupParam params r = none := by
        cases hlp : lookupParam params r with
        | none => rfl
        | some v =>
          have hmem := lookupParam_some_mem hlp
          rcases parseSignatureLoop_ok_names pairs [] [] params hl (r, v) hmem with hin | hin
          · cases hin
          · exact absurd hin hnm
      have hsome := firstMissing_isSome_of_missing requiredTags hr hnone
      exact ⟨"required tag is missing in DKIM-Signature header", by
        unfold ParseSignatureParamsPairs; rw [hl]; simp [hsome]⟩

/-- C3 witness: concrete instances for each clause of
`C3_parse_signature_params` — a duplicated `a` tag fails, a complete valid
signature parses with only recognized tags and all required tags, appending
the unknown tag `foo=bar` changes nothing, and dropping the `a` tag fails. -/
theorem C3_parse_signature_params_witness :
    (¬ ((["a=1".toList, "a=2".toList].filterMap pairName).Nodup) ∧
      ∃ e, ParseSignatureParamsPairs ["a=1".toList, "a=2".toList] = .error e) ∧
    (WfUnknownPair ("foo=bar".toList) ∧
      ParseSignatureParamsPairs
        (["v=1".toList, "a=rsa-sha256".toList, "b=abc".toList, "bh=def".toList,
          "d=example.com".toList, "h=from".toList, "s=sel".toList] ++ ["foo=bar".toList]) =
      ParseSignatureParamsPairs
        ["v=1".toList, "a=rsa-sha256".toList, "b=abc".toList, "bh=def".toList,
          "d=example.com".toList, "h=from".toList, "s=sel".toList]) ∧
    (['a'] ∈ requiredTags ∧
      ∃ e, ParseSignatureParamsPairs ["v=1".toList] = .error e) := by
  refine ⟨⟨by decide, C3_parse_signature_params.1 _ (by decide)⟩,
    ⟨by decide, C3_parse_signature_params.2.2.1 _ _ (by decide) (by decide)⟩,
    ⟨by decide, C3_parse_signature_params.2.2.2 _ ['a'] (by decide) (by decide)⟩⟩

/-! ## `internal/canonical`: body canonicalizers (claims C6, C7) -/

/-- `canonical.crlfFixer.Fix` on a whole buffer (the canonicalizers call it
once in `Close`, with the `cr` flag starting at `false`): insert `\r` before
every `\n` not already preceded by `\r`. -/
def crlfFix : List Char → Bool → List Char
  | [], _ => []
  | ch :: rest, cr =>
    if ch = '\r' then '\r' :: crlfFix rest true
    else if ch = '\n' then (if cr then ['\n'] else ['\r', '\n']) ++ crlfFix rest false
    else ch :: crlfFix rest false

/-- The trailing-`\r\n`-stripping loop of `simpleBodyCanonicalizer.Close`,
phrased on the reversed buffer (the Go loop repeatedly removes a trailing
`"\r\n"`, i.e. a leading `'\n','\r'` of the reversal). -/
def dropCRLFPairsRev : List Char → List Char
  | [] => []
  | [c] => [c]
  | c₁ :: c₂ :: rest =>
    if c₁ = '\n' ∧ c₂ = '\r' then dropCRLFPairsRev rest else c₁ :: c₂ :: rest

/-- Go `Write` of both body canonicalizers: append to the buffer (the
returned `(len(b), nil)` never varies). -/
def bodyCanonWrite (buf chunk : List Char) : List Char := buf ++ chunk

/-- `simpleBodyCanonicalizer.Close`: fix CRLFs, strip all trailing CRLF
pairs, append exactly one CRLF; the result is what is written to the
underlying sink. -/
def simpleBodyClose (buf : List Char) : List Char :=
  let fixed := crlfFix buf false
  (dropCRLFPairsRev fixed.reverse).reverse ++ ['\r', '\n']

/-- Go `strings.Split(s, "\r\n")` (leftmost-separator scan). -/
def splitCRLF : List Char → List (List Char)
  | [] => [[]]
  | [c] => [[c]]
  | c₁ :: c₂ :: rest =>
    if c₁ = '\r' ∧ c₂ = '\n' then [] :: splitCRLF rest
    else
      match splitCRLF (c₂ :: rest) with
      | [] => [[c₁]]
      | p :: ps => (c₁ :: p) :: ps

/-- The trailing-blank-line-dropping loop of `relaxedBodyCanonicalizer.Close`
on the reversed line list (the Go loop removes trailing lines whose
`TrimSpace` is empty). -/
def dropTrailingBlankRev : List (List Char) → List (List Char)
  | [] => []
  | line :: rest =>
    if goTrimSpace line = [] then dropTrailingBlankRev rest else line :: rest

/-- Per-line trailing-WSP trim of `relaxedBodyCanonicalizer.Close`. -/
def trimRightWSP (line : List Char) : List Char :=
  (line.reverse.dropWhile (fun c => c = ' ' || c = '\t')).reverse

/-- Per-line WSP-run compression of `relaxedBodyCanonicalizer.Close`. -/
def compressWSP : List Char → Bool → List Char
  | [], _ => []
  | ch :: rest, wsp =>
    if ch = ' ' ∨ ch = '\t' then
      (if wsp then [] else [' ']) ++ compressWSP rest true
    else ch :: compressWSP rest false

/-- Go `strings.Join(lines, "\r\n")`. -/
def joinCRLF : List (List Char) → List Char
  | [] => []
  | [l] => l
  | l :: rest => l ++ '\r' :: '\n' :: joinCRLF rest

/-- `relaxedBodyCanonicalizer.Close`: fix CRLFs, split into lines, drop
trailing blank lines, trim and compress each line, rejoin, append one CRLF. -/
def relaxedBodyClose (buf : List Char) : List Char :=
  let fixed := crlfFix buf false
  let lines := (dropTrailingBlankRev (splitCRLF fixed).reverse).reverse
  let canonical := lines.map (fun line => compressWSP (trimRightWSP line) false)
  joinCRLF canonical ++ ['\r', '\n']

/-- Shape invariant of `crlfFix` output: every `\n` directly follows `\r`. -/
inductive CRLFok : List Char → Prop where
  | nil : CRLFok []
  | crlf {rest : List Char} : CRLFok rest → CRLFok ('\r' :: '\n' :: rest)
  | ch {c : Char} {rest : List Char} : c ≠ '\n' → CRLFok rest → CRLFok (c :: rest)

theorem crlfFix_ok (b : List Char) :
    CRLFok ('\r' :: crlfFix b true) ∧ CRLFok (crlfFix b false) := by
  induction b with
  | nil => exact ⟨CRLFok.ch (by decide) CRLFok.nil, CRLFok.nil⟩
  | cons ch rest ih =>
    by_cases hr : ch = '\r'
    · subst hr
      constructor
      · rw [show crlfFix ('\r' :: rest) true = '\r' :: crlfFix rest true by
          simp [crlfFix]]
        exact CRLFok.ch (by decide) ih.1
      · rw [show crlfFix ('\r' :: rest) false = '\r' :: crlfFix rest true by
          simp [crlfFix]]
        exact ih.1
    · by_cases hn : ch = '\n'
      · subst hn
        constructor
        · rw [show crlfFix ('\n' :: rest) true = '\n' :: crlfFix rest false by
            simp [crlfFix]]
          exact CRLFok.crlf ih.2
        · rw [show crlfFix ('\n' :: rest) false = '\r' :: '\n' :: crlfFix rest false by
            simp [crlfFix]]
          exact CRLFok.crlf ih.2
      · constructor
        · rw [show crlfFix (ch :: rest) true = ch :: crlfFix rest false by
            simp [crlfFix, hr, hn]]
          exact CRLFok.ch (by decide) (CRLFok.ch hn ih.2)
        · rw [show crlfFix (ch :: rest) false = ch :: crlfFix rest false by
            simp [crlfFix, hr, hn]]
          exact CRLFok.ch hn ih.2

theorem CRLFok.head_ne_lf {l : List Char} (h : CRLFok l) : l.head? ≠ some '\n' := by
  cases h with
  | nil => simp
  | crlf _ => simp
  | ch hc _ => simpa using hc

theorem splitCRLF_ne_nil : ∀ l, splitCRLF l ≠ []
  | [] => by simp [splitCRLF]
  | [c] => by simp [splitCRLF]
  | c₁ :: c₂ :: rest => by
    by_cases hsep : c₁ = '\r' ∧ c₂ = '\n'
    · simp [splitCRLF, hsep.1, hsep.2]
    · rw [show splitCRLF (c₁ :: c₂ :: rest) =
          (match splitCRLF (c₂ :: rest) with
            | [] => [[c₁]]
            | p :: ps => (c₁ :: p) :: ps) by
        simp [splitCRLF, hsep]]
      cases hs : splitCRLF (c₂ :: rest) <;> simp

theorem splitCRLF_no_lf : ∀ l, CRLFok l → ∀ p ∈ splitCRLF l, '\n' ∉ p
  | [], _, p, hp => by
    simp only [splitCRLF, List.mem_singleton] at hp
    subst hp; simp
  | [c], h, p, hp => by
    simp only [splitCRLF, List.mem_singleton] at hp
    subst hp
    have hc : c ≠ '\n' := by
      cases h with
      | ch hc _ => exact hc
    intro hm
    rw [List.mem_singleton] at hm
    exact hc hm.symm
  | c₁ :: c₂ :: rest, h, p, hp => by
    by_cases hsep : c₁ = '\r' ∧ c₂ = '\n'
    · have hrest : CRLFok rest := by
        cases h with
        | crlf hr => exact hr
        | ch hc hr =>
          exfalso
          have hh := hr.head_ne_lf
          rw [hsep.2] at hh
          exact hh rfl
      rw [show splitCRLF (c₁ :: c₂ :: rest) = [] :: splitCRLF rest by
        simp [splitCRLF, hsep.1, hsep.2]] at hp
      rcases List.mem_cons.1 hp with rfl | hp
      · simp
      · exact splitCRLF_no_lf rest hrest p hp
    · obtain ⟨hc₁, hrest⟩ : c₁ ≠ '\n' ∧ CRLFok (c₂ :: rest) := by
        cases h with
        | crlf hr => exact absurd ⟨rfl, rfl⟩ hsep
        | ch hc hr => exact ⟨hc, hr⟩
      have ihtail := splitCRLF_no_lf (c₂ :: rest) hrest
      rw [show splitCRLF (c₁ :: c₂ :: rest) =
          (match splitCRLF (c₂ :: rest) with
            | [] => [[c₁]]
            | p :: ps => (c₁ :: p) :: ps) by
        simp [splitCRLF, hsep]] at hp
      cases hs : splitCRLF (c₂ :: rest) with
      | nil => exact absurd hs (splitCRLF_ne_nil _)
      | cons q qs =>
        rw [hs] at hp
        rcases List.mem_cons.1 hp with rfl | hp
        · intro hmem
          rcases List.mem_cons.1 hmem with rfl | hmem
          · exact hc₁ rfl
          · exact ihtail q (hs ▸ List.mem_cons_self q qs) hmem
        · exact ihtail p (hs ▸ List.mem_cons_of_mem q hp)

theorem dropCRLFPairsRev_ne_lf_cr : ∀ l t, dropCRLFPairsRev l ≠ '\n' :: '\r' :: t
  | [], t => by simp [dropCRLFPairsRev]
  | [c], t => by simp [dropCRLFPairsRev]
  | c₁ :: c₂ :: rest, t => by
    by_cases hsep : c₁ = '\n' ∧ c₂ = '\r'
    · rw [show dropCRLFPairsRev (c₁ :: c₂ :: rest) = dropCRLFPairsRev rest by
        simp [dropCRLFPairsRev, hsep.1, hsep.2]]
      exact dropCRLFPairsRev_ne_lf_cr rest t
    · rw [show dropCRLFPairsRev (c₁ :: c₂ :: rest) = c₁ :: c₂ :: rest by
        simp [dropCRLFPairsRev, hsep]]
      intro h
      injection h with h1 h2
      injection h2 with h2 _
      exact hsep ⟨h1, h2⟩

theorem not_crlf_suffix_dropCRLFPairsRev (l : List Char) :
    ¬ ['\r', '\n'] <:+ (dropCRLFPairsRev l).reverse := by
  rintro ⟨t, ht⟩
  have h := congrArg List.reverse ht
  simp only [List.reverse_append, List.reverse_reverse] at h
  exact dropCRLFPairsRev_ne_lf_cr l t.reverse h.symm

theorem crlf_suffix_getLast {l : List Char} (h : ['\r', '\n'] <:+ l) :
    l.getLast? = some '\n' := by
  obtain ⟨t, rfl⟩ := h
  rw [List.getLast?_append_of_ne_nil t (by simp)]
  rfl

theorem no_double_crlf_suffix {x : List Char} (hx : ¬ ['\r', '\n'] <:+ x) :
    ¬ (['\r', '\n', '\r', '\n'] <:+ x ++ ['\r', '\n']) := by
  rintro ⟨t, ht⟩
  refine hx ⟨t, ?_⟩
  have : (t ++ ['\r', '\n']) ++ ['\r', '\n'] = x ++ ['\r', '\n'] := by
    simpa using ht
  exact List.append_cancel_right this

theorem mem_dropWhile_of_not_sat {p : Char → Bool} {x : Char} :
    ∀ {l : List Char}, x ∈ l → p x = false → x ∈ l.dropWhile p := by
  intro l
  induction l with
  | nil => intro h _; cases h
  | cons c rest ih =>
    intro hm hp
    rw [List.dropWhile_cons]
    by_cases hc : p c = true
    · rcases List.mem_cons.1 hm with rfl | hm
      · rw [hc] at hp; cases hp
      · simp only [hc, if_pos rfl]
        exact ih hm hp
    · simp only [Bool.not_eq_true] at hc
      simp only [hc]
      rw [if_neg (by simp)]
      exact hm

theorem mem_trimRightWSP_of {line : List Char} {c : Char} (hm : c ∈ line)
    (hc : (c = ' ' || c = '\t') = false) : c ∈ trimRightWSP line := by
  unfold trimRightWSP
  rw [List.mem_reverse]
  exact mem_dropWhile_of_not_sat (List.mem_reverse.2 hm) hc

theorem mem_of_mem_trimRightWSP {line : List Char} {c : Char}
    (hm : c ∈ trimRightWSP line) : c ∈ line := by
  unfold trimRightWSP at hm
  rw [List.mem_reverse] at hm
  have := (List.dropWhile_sublist (l := line.reverse)
    (p := fun c => c = ' ' || c = '\t')).subset hm
  exact List.mem_reverse.1 this

theorem mem_compressWSP_of {c : Char} (hc : (c = ' ' ∨ c = '\t') = False) :
    ∀ (l : List Char) (w : Bool), c ∈ l → c ∈ compressWSP l w := by
  intro l
  induction l with
  | nil => intro w h; cases h
  | cons x rest ih =>
    intro w hm
    by_cases hx : x = ' ' ∨ x = '\t'
    · rcases List.mem_cons.1 hm with rfl | hm
      · exact absurd (by exact_mod_cast hx) (by simp [hc])
      · rw [show compressWSP (x :: rest) w =
            (if w then [] else [' ']) ++ compressWSP rest true by
          simp [compressWSP, hx]]
        exact List.mem_append_right _ (ih true hm)
    · rw [show compressWSP (x :: rest) w = x :: compressWSP rest false by
        simp [compressWSP, hx]]
      rcases List.mem_cons.1 hm with rfl | hm
      · exact List.mem_cons_self _ _
      · exact List.mem_cons_of_mem _ (ih false hm)

theorem mem_of_mem_compressWSP {c : Char} :
    ∀ (l : List Char) (w : Bool), c ∈ compressWSP l w → c ∈ l ∨ c = ' ' := by
  intro l
  induction l with
  | nil => intro w h; cases h
  | cons x rest ih =>
    intro w hm
    by_cases hx : x = ' ' ∨ x = '\t'
    · rw [show compressWSP (x :: rest) w =
          (if w then [] else [' ']) ++ compressWSP rest true by
        simp [compressWSP, hx]] at hm
      rcases List.mem_append.1 hm with hm | hm
      · cases w with
        | true => simp at hm
        | false =>
          simp only [if_neg (by simp : ¬ (false = true))] at hm
          rcases List.mem_cons.1 hm with rfl | hm
          · exact Or.inr rfl
          · cases hm
      · rcases ih true hm with hin | hin
        · exact Or.inl (List.mem_cons_of_mem _ hin)
        · exact Or.inr hin
    · rw [show compressWSP (x :: rest) w = x :: compressWSP rest false by
        simp [compressWSP, hx]] at hm
      rcases List.mem_cons.1 hm with rfl | hm
      · exact Or.inl (List.mem_cons_self _ _)
      · rcases ih false hm with hin | hin
        · exact Or.inl (List.mem_cons_of_mem _ hin)
        · exact Or.inr hin

theorem exists_nonspace_of_trim_ne_nil {line : List Char}
    (h : goTrimSpace line ≠ []) : ∃ c ∈ line, goIsSpace c = false := by
  by_contra hcon
  push_neg at hcon
  have hall : ∀ c ∈ line, goIsSpace c = true := by
    intro c hc
    cases hg : goIsSpace c with
    | false => exact absurd hg (hcon c hc)
    | true => rfl
  refine h ?_
  unfold goTrimSpace
  rw [List.dropWhile_eq_nil_iff.2 hall]
  simp

theorem dropTrailingBlankRev_shape (ls : List (List Char)) :
    dropTrailingBlankRev ls = [] ∨
    ∃ line rest, dropTrailingBlankRev ls = line :: rest ∧ goTrimSpace line ≠ [] ∧
      line :: rest <:+ ls := by
  induction ls with
  | nil => exact Or.inl rfl
  | cons line rest ih =>
    by_cases hb : goTrimSpace line = []
    · rw [show dropTrailingBlankRev (line :: rest) = dropTrailingBlankRev rest by
        simp [dropTrailingBlankRev, hb]]
      rcases ih with h | ⟨l, r, he, ht, hs⟩
      · exact Or.inl h
      · exact Or.inr ⟨l, r, he, ht, hs.trans (List.suffix_cons line rest)⟩
    · exact Or.inr ⟨line, rest, by simp [dropTrailingBlankRev, hb], hb,
        List.suffix_refl _⟩


theorem mem_of_getLastq {α : Type} {l : List α} {a : α} (h : l.getLast? = some a) :
    a ∈ l := by
  cases l with
  | nil => cases h
  | cons x xs =>
    rw [List.getLast?_eq_getLast _ (by simp)] at h
    injection h with h
    exact h ▸ List.getLast_mem _

theorem joinCRLF_getLastq : ∀ (ys : List (List Char)) (z : List Char), z ≠ [] →
    (joinCRLF (ys ++ [z])).getLast? = z.getLast?
  | [], z, _ => by simp [joinCRLF]
  | y :: ys, z, hz => by
    have ih := joinCRLF_getLastq ys z hz
    have hne : joinCRLF (ys ++ [z]) ≠ [] := by
      intro hnil
      rw [hnil] at ih
      cases z with
      | nil => exact hz rfl
      | cons a as =>
        have h1 : (a :: as).getLast?.isSome := List.getLast?_isSome.2 (by simp)
        rw [← ih] at h1
        simp at h1
    cases hys : ys ++ [z] with
    | nil => simp at hys
    | cons q qs =>
      rw [show (y :: ys) ++ [z] = y :: (ys ++ [z]) from rfl, hys]
      rw [show joinCRLF (y :: q :: qs) = y ++ '\r' :: '\n' :: joinCRLF (q :: qs) from by
        simp [joinCRLF]]
      rw [show y ++ '\r' :: '\n' :: joinCRLF (q :: qs) =
        (y ++ ['\r', '\n']) ++ joinCRLF (q :: qs) from by simp]
      rw [List.getLast?_append_of_ne_nil _ (hys ▸ hne)]
      rw [← hys]
      exact ih

/-- C6: for every sequence of writes followed by `Close`, both body
canonicalizers deliver to the sink a byte stream that ends with exactly one
CRLF (no trailing `\r\n\r\n` empty line); the empty input yields exactly
`"\r\n"`. -/
theorem C6_body_canonical_terminator :
    (∀ chunks : List (List Char),
      ['\r', '\n'] <:+ simpleBodyClose (chunks.foldl bodyCanonWrite []) ∧
      ¬ (['\r', '\n', '\r', '\n'] <:+ simpleBodyClose (chunks.foldl bodyCanonWrite []))) ∧
    (∀ chunks : List (List Char),
      ['\r', '\n'] <:+ relaxedBodyClose (chunks.foldl bodyCanonWrite []) ∧
      ¬ (['\r', '\n', '\r', '\n'] <:+ relaxedBodyClose (chunks.foldl bodyCanonWrite []))) ∧
    simpleBodyClose [] = ['\r', '\n'] ∧ relaxedBodyClose [] = ['\r', '\n'] := by
  refine ⟨?_, ?_, rfl, rfl⟩
  · intro chunks
    unfold simpleBodyClose
    exact ⟨List.suffix_append _ _,
      no_double_crlf_suffix (not_crlf_suffix_dropCRLFPairsRev _)⟩
  · intro chunks
    unfold relaxedBodyClose
    refine ⟨List.suffix_append _ _, no_double_crlf_suffix ?_⟩
    rcases dropTrailingBlankRev_shape
        (splitCRLF (crlfFix (chunks.foldl bodyCanonWrite []) false)).reverse with
      hshape | hshape
    · rw [hshape]
      simp only [List.reverse_nil, List.map_nil]
      rintro ⟨t, ht⟩
      have := congrArg List.length ht
      simp [joinCRLF] at this
    · obtain ⟨line, rest, he, htrim, hsuffix⟩ := hshape
      rw [he]
      intro hsuf
      have hlast := crlf_suffix_getLast hsuf
      obtain ⟨c, hcmem, hcspace⟩ := exists_nonspace_of_trim_ne_nil htrim
      have hcwsp : (c = ' ' || c = '\t') = false := by
        cases hsp : decide (c = ' ') <;> cases htb : decide (c = '\t') <;>
          simp_all [goIsSpace]
      have hcin : c ∈ compressWSP (trimRightWSP line) false := by
        refine mem_compressWSP_of ?_ _ _ (mem_trimRightWSP_of hcmem hcwsp)
        simp only [eq_iff_iff, iff_false]
        intro hor
        rcases hor with h | h <;> simp [h, goIsSpace] at hcspace
      have hfne : compressWSP (trimRightWSP line) false ≠ [] := by
        intro hnil; rw [hnil] at hcin; cases hcin
      have hmap : (line :: rest).reverse.map
          (fun line => compressWSP (trimRightWSP line) false) =
          (rest.reverse.map (fun line => compressWSP (trimRightWSP line) false)) ++
            [compressWSP (trimRightWSP line) false] := by
        simp
      rw [hmap, joinCRLF_getLastq _ _ hfne] at hlast
      have hnl : '\n' ∈ compressWSP (trimRightWSP line) false := mem_of_getLastq hlast
      -- '\n' cannot occur in any line of the CRLF split of the fixed buffer
      have hline_mem : line ∈ splitCRLF (crlfFix (chunks.foldl bodyCanonWrite []) false) := by
        obtain ⟨t, ht⟩ := hsuffix
        rw [← List.mem_reverse, ← ht]
        exact List.mem_append_right _ (List.mem_cons_self _ _)
      have hnoline : '\n' ∉ line :=
        splitCRLF_no_lf _ (crlfFix_ok (chunks.foldl bodyCanonWrite [])).2 line hline_mem
      rcases mem_of_mem_compressWSP _ _ hnl with hin | hin
      · exact hnoline (mem_of_mem_trimRightWSP hin)
      · exact absurd hin (by decide)

/-! ## `internal/bodyhash`: length limiter between canonicalizer and hash
(claim C7).  The hash itself is modelled by the byte stream it receives
(`hash.Hash.Write` never errors and always reports full consumption). -/

structure LimitWriter where
  sink : List Char
  limit : Int

/-- `limitWriter.Write`: forward at most `limit` bytes to the sink, consume
the rest silently, always report `(len(p), nil)`. -/
def limitWrite (lw : LimitWriter) (p : List Char) : (Nat × Option String) × LimitWriter :=
  if lw.limit ≤ 0 then ((p.length, none), lw)
  else
    let toWrite : Int := if (p.length : Int) > lw.limit then lw.limit else (p.length : Int)
    let written := p.take toWrite.toNat
    ((p.length, none), { sink := lw.sink ++ written, limit := lw.limit - written.length })

/-- The `switch canon` of `NewBodyHash` composed with the canonicalizer's
close: the canonicalized body bytes (simple for `"simple"` and for unknown
values, relaxed for `"relaxed"`). -/
def canonicalBody (canon : String) (buf : List Char) : List Char :=
  if canon = "simple" then simpleBodyClose buf
  else if canon = "relaxed" then relaxedBodyClose buf
  else simpleBodyClose buf

/-- `NewBodyHash` pipeline followed by writes and `Close`: the byte stream
the hash receives.  The canonicalizer buffers all writes and delivers the
canonical body in one `Write` to the limiter (`limit > 0`) or directly to
the hash (`limit = 0`); a negative limit is clamped to `0` first. -/
def runBodyHash (canon : String) (limit : Int) (chunks : List (List Char)) : List Char :=
  let limit := if limit < 0 then 0 else limit
  let out := canonicalBody canon (chunks.foldl bodyCanonWrite [])
  if limit > 0 then ((limitWrite { sink := [], limit := limit } out).2).sink
  else out

/-- C7: with a positive length limit `l`, the limit applies to the
*canonicalized* bytes: the hash receives exactly the first `l` canonicalized
bytes (hence at most `l`), and every `Write` on the limiter returns the full
input length with a nil error, also after the limit is exhausted. -/
theorem C7_bodyhash_limit (canon : String) (limit : Int) (hl : 0 < limit)
    (chunks : List (List Char)) :
    runBodyHash canon limit chunks =
      (canonicalBody canon (chunks.foldl bodyCanonWrite [])).take limit.toNat ∧
    (runBodyHash canon limit chunks).length ≤ limit.toNat ∧
    (∀ (lw : LimitWriter) (p : List Char), (limitWrite lw p).1 = (p.length, none)) := by
  have hnneg : ¬ limit < 0 := by omega
  have hpos : limit > 0 := hl
  have hmain : runBodyHash canon limit chunks =
      (canonicalBody canon (chunks.foldl bodyCanonWrite [])).take limit.toNat := by
    unfold runBodyHash
    rw [if_neg hnneg, if_pos hpos]
    unfold limitWrite
    rw [if_neg (by simp only []; omega)]
    simp only [List.nil_append]
    by_cases hgt : ((canonicalBody canon (chunks.foldl bodyCanonWrite [])).length : Int) > limit
    · rw [if_pos hgt]
    · rw [if_neg hgt]
      rw [Int.toNat_ofNat]
      rw [List.take_of_length_le (le_refl _), List.take_of_length_le]
      omega
  refine ⟨hmain, ?_, ?_⟩
  · rw [hmain]
    exact (List.length_take _ _).le.trans (by simp)
  · intro lw p
    unfold limitWrite
    by_cases h : lw.limit ≤ 0
    · rw [if_pos h]
    · rw [if_neg h]

/-- C7 witness: the specification's S5 body with `l = 4` under relaxed
canonicalization — the hash sees the first four canonicalized bytes. -/
theorem C7_bodyhash_limit_witness :
    (0 : Int) < 4 ∧
    (runBodyHash "relaxed" 4 ["Test  \r\n\r\n\r\n".toList] =
      (canonicalBody "relaxed" (["Test  \r\n\r\n\r\n".toList].foldl bodyCanonWrite [])).take
        (Int.toNat 4) ∧
    (runBodyHash "relaxed" 4 ["Test  \r\n\r\n\r\n".toList]).length ≤ Int.toNat 4 ∧
    (∀ (lw : LimitWriter) (p : List Char), (limitWrite lw p).1 = (p.length, none))) :=
  ⟨by decide, C7_bodyhash_limit "relaxed" 4 (by decide) ["Test  \r\n\r\n\r\n".toList]⟩

/-! ## `arc`: ARC-Seal parsing and the forbidden-tag policy (claim C4) -/

/-- `header.ParseHeaderField`: split at the first `:`, trim both parts. -/
def ParseHeaderField (s : List Char) : (List Char × List Char) :=
  let r := goCut ':' s
  (goTrimSpace r.1, goTrimSpace r.2.1)

/-- Go `crypto.Hash` values reachable here. -/
inductive GoHash where
  | zero
  | sha1
  | sha256
  deriving DecidableEq, Repr

/-- `hashAlgo` (dkim/arc): SHA-1 for `rsa-sha1`, SHA-256 otherwise. -/
def hashAlgoOf (algo : List Char) : GoHash :=
  if algo = "rsa-sha1".toList then .sha1 else .sha256

/-- Modelled from the spec: the `ChainValidationResult` type and its
`isChainValidationResult` membership test are declared outside the provided
sources; per the specification `cv ∈ {none, pass, fail}`. -/
def isChainValidationResult (v : List Char) : Bool :=
  v = "none".toList || v = "pass".toList || v = "fail".toList

structure ARCSeal where
  Algorithm : List Char
  Signature : List Char
  ChainValidation : List Char
  Domain : List Char
  InstanceNumber : Int
  Selector : List Char
  Timestamp : Int
  raw : List Char
  hashAlgo : GoHash
  deriving DecidableEq, Repr

/-- The Go zero value `&ARCSeal{}`. -/
def emptyARCSeal : ARCSeal :=
  { Algorithm := [], Signature := [], ChainValidation := [], Domain := []
    InstanceNumber := 0, Selector := [], Timestamp := 0, raw := [], hashAlgo := .zero }

/-- `strings.ReplaceAll(v, "\r\n", "")` (leftmost scan). -/
def removeCRLFpairs : List Char → List Char
  | [] => []
  | [c] => [c]
  | c₁ :: c₂ :: rest =>
    if c₁ = '\r' ∧ c₂ = '\n' then removeCRLFpairs rest
    else c₁ :: removeCRLFpairs (c₂ :: rest)

/-- The `b=` cleanup of `ParseARCSeal`: drop `"\r\n"` pairs, then `"\n"`. -/
def stripSigFolding (l : List Char) : List Char :=
  (removeCRLFpairs l).filter (fun c => ¬ c = '\n')

/-- One iteration of the field loop of `arc.ParseARCSeal`: split at the
first `=`; a field without `=` is skipped; an `h`/`bh` key forces `cv=fail`
and parsing continues; `i`/`a`/`t`/`cv` validate their values; unknown keys
are ignored. -/
def parseARCSealStep (field : List Char) (result : ARCSeal) : Except String ARCSeal :=
  let keyValue := goCut '=' (goTrimSpace field)
  if ¬ keyValue.2.2 then .ok result
  else
    let key := goTrimSpace keyValue.1
    let value := StripWhiteSpace keyValue.2.1
    if key = "h".toList ∨ key = "bh".toList then
      .ok { result with ChainValidation := "fail".toList }
    else if key = "i".toList then
      match goParseInt64 value with
      | none => .error "invalid instance number"
      | some n => .ok { result with InstanceNumber := n }
    else if key = "a".toList then
      if value = "rsa-sha1".toList ∨ value = "rsa-sha256".toList ∨
          value = "ed25519-sha256".toList then
        .ok { result with Algorithm := value }
      else .error "invalid algorithm"
    else if key = "b".toList then
      .ok { result with Signature := stripSigFolding value }
    else if key = "d".toList then
      .ok { result with Domain := value }
    else if key = "s".toList then
      .ok { result with Selector := value }
    else if key = "t".toList then
      match goParseInt64 value with
      | none => .error "invalid timestamp"
      | some n => .ok { result with Timestamp := n }
    else if key = "cv".toList then
      if ¬ isChainValidationResult value then .error "invalid chain validation result"
      else .ok { result with ChainValidation := value }
    else .ok result

/-- The field loop of `arc.ParseARCSeal` (`continue` on success, early
return on error). -/
def parseARCSealFields : List (List Char) → ARCSeal → Except String ARCSeal
  | [], result => .ok result
  | field :: rest, result =>
    match parseARCSealStep field result with
    | .error e => .error e
    | .ok result' => parseARCSealFields rest result'

/-- `arc.ParseARCSeal`. -/
def ParseARCSeal (s : List Char) : Except String ARCSeal :=
  let kv := ParseHeaderField s
  if ¬ (goToLowerStr kv.1 = "arc-seal".toList) then .error "invalid header field"
  else
    match parseARCSealFields (splitOnChar ';' kv.2) { emptyARCSeal with raw := s } with
    | .error e => .error e
    | .ok r => .ok { r with hashAlgo := hashAlgoOf r.Algorithm }

/-- A `;`-field carrying one of the forbidden AS tags `h`/`bh`. -/
def IsForbiddenField (f : List Char) : Prop :=
  (goCut '=' (goTrimSpace f)).2.2 = true ∧
  (goTrimSpace (goCut '=' (goTrimSpace f)).1 = "h".toList ∨
   goTrimSpace (goCut '=' (goTrimSpace f)).1 = "bh".toList)

/-- A `;`-field carrying the `cv` tag. -/
def IsCvField (f : List Char) : Prop :=
  (goCut '=' (goTrimSpace f)).2.2 = true ∧
  goTrimSpace (goCut '=' (goTrimSpace f)).1 = "cv".toList

instance (f : List Char) : Decidable (IsForbiddenField f) := by
  unfold IsForbiddenField; infer_instance

instance (f : List Char) : Decidable (IsCvField f) := by
  unfold IsCvField; infer_instance

/-- The `ChainValidation` observation of a parse outcome. -/
def cvOf (x : Except String ARCSeal) : Option (List Char) :=
  match x with
  | .ok r => some r.ChainValidation
  | .error _ => none

theorem parseARCSealStep_forbidden {f : List Char} (acc : ARCSeal)
    (hf : IsForbiddenField f) :
    parseARCSealStep f acc = .ok { acc with ChainValidation := "fail".toList } := by
  unfold parseARCSealStep
  rw [if_neg (by simp [hf.1]), if_pos hf.2]

theorem parseARCSealStep_cv {f : List Char} {acc acc' : ARCSeal}
    (hnocv : ¬ IsCvField f) (h : parseARCSealStep f acc = .ok acc') :
    acc'.ChainValidation = acc.ChainValidation ∨ acc'.ChainValidation = "fail".toList := by
  unfold parseARCSealStep at h
  by_cases h1 : (goCut '=' (goTrimSpace f)).2.2 = true
  case neg =>
    rw [if_pos (by simpa using h1)] at h
    injection h with h; subst h; exact Or.inl rfl
  case pos =>
    rw [if_neg (by simpa using h1)] at h
    by_cases h2 : goTrimSpace (goCut '=' (goTrimSpace f)).1 = "h".toList ∨
        goTrimSpace (goCut '=' (goTrimSpace f)).1 = "bh".toList
    · rw [if_pos h2] at h; injection h with h; subst h; exact Or.inr rfl
    · rw [if_neg h2] at h
      by_cases h3 : goTrimSpace (goCut '=' (goTrimSpace f)).1 = "i".toList
      · rw [if_pos h3] at h
        cases hp : goParseInt64 (StripWhiteSpace (goCut '=' (goTrimSpace f)).2.1) with
        | none => rw [hp] at h; exact Except.noConfusion h
        | some n => rw [hp] at h; injection h with h; subst h; exact Or.inl rfl
      · rw [if_neg h3] at h
        by_cases h4 : goTrimSpace (goCut '=' (goTrimSpace f)).1 = "a".toList
        · rw [if_pos h4] at h
          by_cases h4a : StripWhiteSpace (goCut '=' (goTrimSpace f)).2.1 = "rsa-sha1".toList ∨
              StripWhiteSpace (goCut '=' (goTrimSpace f)).2.1 = "rsa-sha256".toList ∨
              StripWhiteSpace (goCut '=' (goTrimSpace f)).2.1 = "ed25519-sha256".toList
          · rw [if_pos h4a] at h; injection h with h; subst h; exact Or.inl rfl
          · rw [if_neg h4a] at h; exact Except.noConfusion h
        · rw [if_neg h4] at h
          by_cases h5 : goTrimSpace (goCut '=' (goTrimSpace f)).1 = "b".toList
          · rw [if_pos h5] at h; injection h with h; subst h; exact Or.inl rfl
          · rw [if_neg h5] at h
            by_cases h6 : goTrimSpace (goCut '=' (goTrimSpace f)).1 = "d".toList
            · rw [if_pos h6] at h; injection h with h; subst h; exact Or.inl rfl
            · rw [if_neg h6] at h
              by_cases h7 : goTrimSpace (goCut '=' (goTrimSpace f)).1 = "s".toList
              · rw [if_pos h7] at h; injection h with h; subst h; exact Or.inl rfl
              · rw [if_neg h7] at h
                by_cases h8 : goTrimSpace (goCut '=' (goTrimSpace f)).1 = "t".toList
                · rw [if_pos h8] at h
                  cases hp : goParseInt64 (StripWhiteSpace (goCut '=' (goTrimSpace f)).2.1) with
                  | none => rw [hp] at h; exact Except.noConfusion h
                  | some n => rw [hp] at h; injection h with h; subst h; exact Or.inl rfl
                · rw [if_neg h8] at h
                  by_cases h9 : goTrimSpace (goCut '=' (goTrimSpace f)).1 = "cv".toList
                  · exact absurd ⟨h1, h9⟩ hnocv
                  · rw [if_neg h9] at h; injection h with h; subst h; exact Or.inl rfl

theorem parseARCSealFields_nocv (fs : List (List Char)) :
    ∀ (acc : ARCSeal) (r : ARCSeal), (∀ g ∈ fs, ¬ IsCvField g) →
    acc.ChainValidation = "fail".toList → parseARCSealFields fs acc = .ok r →
    r.ChainValidation = "fail".toList := by
  induction fs with
  | nil =>
    intro acc r _ hacc h
    simp only [parseARCSealFields] at h
    injection h with h
    exact h ▸ hacc
  | cons field fs ih =>
    intro acc r hnocv hacc h
    simp only [parseARCSealFields] at h
    cases hs : parseARCSealStep field acc with
    | error e => rw [hs] at h; exact Except.noConfusion h
    | ok acc' =>
      rw [hs] at h
      have hcv' : acc'.ChainValidation = "fail".toList := by
        rcases parseARCSealStep_cv (hnocv field (List.mem_cons_self _ _)) hs with he | he
        · rw [he, hacc]
        · exact he
      exact ih acc' r (fun g hg => hnocv g (List.mem_cons_of_mem _ hg)) hcv' h

theorem parseARCSealFields_forbidden (fs₁ : List (List Char)) :
    ∀ (f : List Char) (fs₂ : List (List Char)) (acc r : ARCSeal),
    IsForbiddenField f → (∀ g ∈ fs₂, ¬ IsCvField g) →
    parseARCSealFields (fs₁ ++ f :: fs₂) acc = .ok r →
    r.ChainValidation = "fail".toList := by
  induction fs₁ with
  | nil =>
    intro f fs₂ acc r hf hnocv h
    simp only [List.nil_append, parseARCSealFields,
      parseARCSealStep_forbidden acc hf] at h
    exact parseARCSealFields_nocv fs₂ _ r hnocv rfl h
  | cons g fs₁ ih =>
    intro f fs₂ acc r hf hnocv h
    simp only [List.cons_append, parseARCSealFields] at h
    cases hs : parseARCSealStep g acc with
    | error e => rw [hs] at h; exact Except.noConfusion h
    | ok acc' =>
      rw [hs] at h
      exact ih f fs₂ acc' r hf hnocv h

/-- C4 counterexample: on `"ARC-Seal: h=x; cv=pass"` the forbidden `h=` tag
does set `cv=fail`, but the later `cv=pass` tag overwrites it, so the parsed
value carries `cv=pass`, not `cv=fail` — the claim's "regardless of where
the `h=`/`bh=` tag and any `cv=` tag appear" fails. -/
theorem C4_counterexample :
    cvOf (ParseARCSeal ("ARC-Seal: h=x; cv=pass".toList)) = some ("pass".toList) ∧
    some ("pass".toList) ≠ some ("fail".toList) := by
  constructor
  · rfl
  · decide

/-- C4 (amended): a forbidden `h=`/`bh=` tag on an ARC-Seal never aborts the
parse at that tag — its processing step always succeeds, setting `cv=fail` —
and whenever no `cv=` tag occurs *after* the (last) forbidden tag, a
successful `ParseARCSeal` returns `ChainValidation = "fail"`.  A `cv=` tag
appearing later overwrites the forced value. -/
theorem C4_arcseal_forbidden_tag :
    (∀ (f : List Char) (acc : ARCSeal), IsForbiddenField f →
      parseARCSealStep f acc = .ok { acc with ChainValidation := "fail".toList }) ∧
    (∀ (s : List Char) (fs₁ : List (List Char)) (f : List Char) (fs₂ : List (List Char)),
      splitOnChar ';' (ParseHeaderField s).2 = fs₁ ++ f :: fs₂ →
      IsForbiddenField f → (∀ g ∈ fs₂, ¬ IsCvField g) →
      cvOf (ParseARCSeal s) = none ∨ cvOf (ParseARCSeal s) = some ("fail".toList)) := by
  refine ⟨fun f acc hf => parseARCSealStep_forbidden acc hf, ?_⟩
  intro s fs₁ f fs₂ hsplit hf hnocv
  unfold ParseARCSeal
  by_cases hdr : goToLowerStr (ParseHeaderField s).1 = "arc-seal".toList
  · rw [if_neg (by simpa using hdr)]
    cases hp : parseARCSealFields (splitOnChar ';' (ParseHeaderField s).2)
        { emptyARCSeal with raw := s } with
    | error e => exact Or.inl rfl
    | ok r =>
      refine Or.inr ?_
      rw [hsplit] at hp
      have := parseARCSealFields_forbidden fs₁ f fs₂ _ r hf hnocv hp
      simp [cvOf, this]
  · rw [if_pos (by simpa using hdr)]
    exact Or.inl rfl

/-- C4 witness: `"ARC-Seal: cv=pass; h=x; i=1"` — the forbidden tag comes
after the `cv` tag, so the parsed chain validation is forced to `fail`. -/
theorem C4_arcseal_forbidden_tag_witness :
    (IsForbiddenField (" h=x".toList) ∧
      parseARCSealStep (" h=x".toList) emptyARCSeal =
        .ok { emptyARCSeal with ChainValidation := "fail".toList }) ∧
    (splitOnChar ';' (ParseHeaderField ("ARC-Seal: cv=pass; h=x; i=1".toList)).2 =
        ["cv=pass".toList, " h=x".toList, " i=1".toList] ∧
      (cvOf (ParseARCSeal ("ARC-Seal: cv=pass; h=x; i=1".toList)) = none ∨
       cvOf (ParseARCSeal ("ARC-Seal: cv=pass; h=x; i=1".toList)) = some ("fail".toList))) :=
  ⟨⟨by decide, C4_arcseal_forbidden_tag.1 _ emptyARCSeal (by decide)⟩,
   ⟨by decide, C4_arcseal_forbidden_tag.2 _ ["cv=pass".toList] (" h=x".toList)
      [" i=1".toList] (by decide) (by decide) (by decide)⟩⟩

/-! ## `dkim`: signature parsing (claim C10) -/

/-- `dkim.stripFWS`: drop `"\r\n"` pairs, then all tabs, then all spaces. -/
def stripFWS (l : List Char) : List Char :=
  ((removeCRLFpairs l).filter (fun c => ¬ c = '\t')).filter (fun c => ¬ c = ' ')

/-- `header.ParseHeaderCanonicalization`: `""` defaults to simple/simple; a
single token is applied to the header with simple body (and is not
validated); two tokens are each validated against simple/relaxed. -/
def ParseHeaderCanonicalization (s : List Char) :
    Except String (List Char × List Char) :=
  if s = [] then .ok ("simple".toList, "simple".toList)
  else
    match splitOnChar '/' s with
    | [a, b] =>
      if a = "simple".toList ∨ a = "relaxed".toList then
        if b = "simple".toList ∨ b = "relaxed".toList then .ok (a, b)
        else .error "invalid canonicalization"
      else .error "invalid canonicalization"
    | l => .ok (l.headD [], "simple".toList)

/-- `dkim.Signature` (the parsed DKIM-Signature value; the verification
result pointer is not part of parsing). -/
structure DKIMSignature where
  Algorithm : List Char
  Signature : List Char
  BodyHash : List Char
  Canonicalization : List Char
  Domain : List Char
  Headers : List Char
  Identity : List Char
  Limit : Int
  QueryType : List Char
  Selector : List Char
  Timestamp : Int
  Version : Int
  SignatureExpiration : Int
  raw : List Char
  canonHeader : List Char
  canonBody : List Char
  deriving DecidableEq, Repr

def emptyDKIMSignature : DKIMSignature :=
  { Algorithm := [], Signature := [], BodyHash := [], Canonicalization := []
    Domain := [], Headers := [], Identity := [], Limit := 0, QueryType := []
    Selector := [], Timestamp := 0, Version := 0, SignatureExpiration := 0
    raw := [], canonHeader := [], canonBody := [] }

/-- One iteration of the tag loop of `dkim.ParseSignature` (the loop runs
over the recognized-tag map; each key updates a distinct field, so the map
iteration order does not matter; the in-loop duplicate check can never fire
on map entries). -/
def parseSignatureTagStep (key value : List Char) (sig : DKIMSignature) :
    Except String DKIMSignature :=
  if key = "a".toList then
    if StripWhiteSpace value = "rsa-sha1".toList ∨
        StripWhiteSpace value = "rsa-sha256".toList ∨
        StripWhiteSpace value = "ed25519-sha256".toList then
      .ok { sig with Algorithm := StripWhiteSpace value }
    else .error "invalid algorithm"
  else if key = "b".toList then .ok { sig with Signature := stripFWS (StripWhiteSpace value) }
  else if key = "bh".toList then .ok { sig with BodyHash := stripFWS (StripWhiteSpace value) }
  else if key = "c".toList then .ok { sig with Canonicalization := StripWhiteSpace value }
  else if key = "d".toList then .ok { sig with Domain := StripWhiteSpace value }
  else if key = "h".toList then .ok { sig with Headers := StripWhiteSpace value }
  else if key = "i".toList then .ok { sig with Identity := StripWhiteSpace value }
  else if key = "l".toList then
    match goParseInt64 (StripWhiteSpace value) with
    | none => .error "invalid limit for l field"
    | some n =>
      if n < 0 then .error "invalid limit for l field" else .ok { sig with Limit := n }
  else if key = "q".toList then .ok { sig with QueryType := StripWhiteSpace value }
  else if key = "s".toList then .ok { sig with Selector := StripWhiteSpace value }
  else if key = "t".toList then
    match goParseInt64 (StripWhiteSpace value) with
    | none => .error "invalid timestamp"
    | some n => .ok { sig with Timestamp := n }
  else if key = "v".toList then
    match goParseInt64 (StripWhiteSpace value) with
    | none => .error "invalid version"
    | some n => .ok { sig with Version := n }
  else if key = "x".toList then
    match goParseInt64 (StripWhiteSpace value) with
    | none => .error "invalid signature expiration"
    | some n => .ok { sig with SignatureExpiration := n }
  else .ok sig

def parseSignatureTagLoop : List (List Char × List Char) → DKIMSignature →
    Except String DKIMSignature
  | [], sig => .ok sig
  | (key, value) :: rest, sig =>
    match parseSignatureTagStep key value sig with
    | .error e => .error e
    | .ok sig' => parseSignatureTagLoop rest sig'

/-- The `x`/`t` consistency check at the end of `dkim.ParseSignature`. -/
def parseSignatureExp (sig : DKIMSignature) : Except String DKIMSignature :=
  if sig.SignatureExpiration ≠ 0 ∧ sig.Timestamp ≠ 0 then
    if sig.SignatureExpiration ≤ sig.Timestamp then
      .error "x= tag value must be greater than t= tag value"
    else .ok sig
  else .ok sig

/-- The `h=`/`i=` validations of `dkim.ParseSignature` after the
canonicalization fields are filled in: non-empty `h=` including `From`,
`i=`/`d=` alignment with `@d` default, then the `x > t` check. -/
def parseSignaturePostChecks (sig : DKIMSignature) : Except String DKIMSignature :=
  if sig.Headers = [] then .error "h= tag must not be empty"
  else if ¬ (splitOnChar ':' sig.Headers).any
      (fun h => goToLowerStr (goTrimSpace h) = "from".toList) then
    .error "h= tag must include From header"
  else
    if sig.Identity = [] then
      parseSignatureExp { sig with Identity := '@' :: sig.Domain }
    else
      if '@' ∈ sig.Identity then
        if sig.Domain ≠ suffixAfterLastAt sig.Identity ∧
            ¬ (('.' :: sig.Domain).isSuffixOf (suffixAfterLastAt sig.Identity)) then
          .error "i= tag domain must be within d= tag domain"
        else parseSignatureExp sig
      else parseSignatureExp sig

/-- The post-loop phase of `dkim.ParseSignature`: parse the canonicalization
token into the canonicalization-and-algorithm record, then validate. -/
def parseSignaturePost (sig : DKIMSignature) : Except String DKIMSignature :=
  match ParseHeaderCanonicalization sig.Canonicalization with
  | .error e => .error e
  | .ok cb => parseSignaturePostChecks { sig with canonHeader := cb.1, canonBody := cb.2 }

/-- The zero `Signature` value with the raw line recorded. -/
def initialDKIMSignature (s : List Char) : DKIMSignature :=
  { emptyDKIMSignature with raw := s }

/-- `dkim.ParseSignature`. -/
def ParseSignature (s : List Char) : Except String DKIMSignature :=
  if ¬ (goToLowerStr (ParseHeaderField s).1 = "dkim-signature".toList) then
    .error "invalid header field"
  else
    match ParseSignatureParams (ParseHeaderField s).2 with
    | .error e => .error e
    | .ok params =>
      match parseSignatureTagLoop params (initialDKIMSignature s) with
      | .error e => .error e
      | .ok sig => parseSignaturePost sig

theorem parseSignatureLoop_ok_nodup (pairs : List (List Char)) :
    ∀ seen params res, parseSignatureLoop pairs seen params = .ok res →
    (params.map Prod.fst).Nodup → (∀ kv ∈ params, kv.1 ∈ seen) →
    (res.map Prod.fst).Nodup := by
  induction pairs with
  | nil =>
    intro seen params res h hnd _
    simp only [parseSignatureLoop] at h
    injection h with h
    exact h ▸ hnd
  | cons pair rest ih =>
    intro seen params res h hnd hsub
    by_cases h1 : goTrimSpace pair = []
    · rw [show parseSignatureLoop (pair :: rest) seen params =
        parseSignatureLoop rest seen params by simp [parseSignatureLoop, h1]] at h
      exact ih _ _ _ h hnd hsub
    · by_cases h2 : (goCut '=' (goTrimSpace pair)).2.2 = true
      · by_cases h3 : goToLowerStr (goTrimSpace (goCut '=' (goTrimSpace pair)).1) = []
        · simp [parseSignatureLoop, h1, h2, h3] at h
        · by_cases h4 : 100 < (goToLowerStr (goTrimSpace (goCut '=' (goTrimSpace pair)).1)).length
          · simp [parseSignatureLoop, h1, h2, h3, h4] at h
          · by_cases h5 : 1000 < (goTrimSpace (goCut '=' (goTrimSpace pair)).2.1).length
            · simp [parseSignatureLoop, h1, h2, h3, h4, h5] at h
            · by_cases h6 : goToLowerStr (goTrimSpace (goCut '=' (goTrimSpace pair)).1) ∈ seen
              · simp [parseSignatureLoop, h1, h2, h3, h4, h5, h6] at h
              · rw [show parseSignatureLoop (pair :: rest) seen params =
                    parseSignatureLoop rest
                      (goToLowerStr (goTrimSpace (goCut '=' (goTrimSpace pair)).1) :: seen)
                      (if isValidDKIMTag (goToLowerStr (goTrimSpace (goCut '=' (goTrimSpace pair)).1)) then
                        params ++ [(goToLowerStr (goTrimSpace (goCut '=' (goTrimSpace pair)).1),
                          goTrimSpace (goCut '=' (goTrimSpace pair)).2.1)]
                       else params) by
                  simp [parseSignatureLoop, h1, h2, h3, h4, h5, h6]] at h
                refine ih _ _ _ h ?_ ?_
                · by_cases hv : isValidDKIMTag (goToLowerStr (goTrimSpace (goCut '=' (goTrimSpace pair)).1)) = true
                  · rw [if_pos hv]
                    have hnot : goToLowerStr (goTrimSpace (goCut '=' (goTrimSpace pair)).1)
                        ∉ params.map Prod.fst := by
                      intro hm
                      rcases List.mem_map.1 hm with ⟨kv, hkv, hfst⟩
                      exact h6 (hfst ▸ hsub kv hkv)
                    rw [List.map_append]
                    refine List.Nodup.append hnd (List.nodup_singleton _) ?_
                    intro a ha hb
                    simp only [List.map_cons, List.map_nil, List.mem_singleton] at hb
                    subst hb
                    exact hnot ha
                  · rw [if_neg hv]; exact hnd
                · by_cases hv : isValidDKIMTag (goToLowerStr (goTrimSpace (goCut '=' (goTrimSpace pair)).1)) = true
                  · rw [if_pos hv]
                    intro kv hkv
                    rcases List.mem_append.1 hkv with hkv | hkv
                    · exact List.mem_cons_of_mem _ (hsub kv hkv)
                    · simp only [List.mem_singleton] at hkv
                      subst hkv
                      exact List.mem_cons_self _ _
                  · rw [if_neg hv]
                    intro kv hkv
                    exact List.mem_cons_of_mem _ (hsub kv hkv)
      · simp [parseSignatureLoop, h1, h2] at h

theorem lookupParam_unique {ps : List (List Char × List Char)} {k val : List Char} :
    (ps.map Prod.fst).Nodup → lookupParam ps k = some val →
    ∀ kv ∈ ps, kv.1 = k → kv.2 = val := by
  induction ps with
  | nil => intro _ h; cases h
  | cons ab rest ih =>
    intro hnd hl kv hkv hfst
    simp only [List.map_cons, List.nodup_cons] at hnd
    simp only [lookupParam] at hl
    by_cases hk : ab.1 = k
    · rw [if_pos hk] at hl
      injection hl with hl
      rcases List.mem_cons.1 hkv with rfl | hmem
      · exact hl ▸ rfl
      · exfalso
        refine hnd.1 ?_
        rw [hk, ← hfst]
        exact List.mem_map.2 ⟨kv, hmem, rfl⟩
    · rw [if_neg hk] at hl
      rcases List.mem_cons.1 hkv with rfl | hmem
      · exact absurd hfst hk
      · exact ih hnd.2 hl kv hmem hfst

theorem parseSignatureTagStep_version_other {key value : List Char}
    {sig sig' : DKIMSignature} (hk : ¬ key = "v".toList)
    (h : parseSignatureTagStep key value sig = .ok sig') :
    sig'.Version = sig.Version := by
  delta parseSignatureTagStep at h
  by_cases h1 : key = "a".toList
  · rw [if_pos h1] at h
    by_cases h1a : StripWhiteSpace value = "rsa-sha1".toList ∨
        StripWhiteSpace value = "rsa-sha256".toList ∨
        StripWhiteSpace value = "ed25519-sha256".toList
    · rw [if_pos h1a] at h; injection h with h; subst h; rfl
    · rw [if_neg h1a] at h; exact Except.noConfusion h
  · rw [if_neg h1] at h
    by_cases h2 : key = "b".toList
    · rw [if_pos h2] at h; injection h with h; subst h; rfl
    · rw [if_neg h2] at h
      by_cases h3 : key = "bh".toList
      · rw [if_pos h3] at h; injection h with h; subst h; rfl
      · rw [if_neg h3] at h
        by_cases h4 : key = "c".toList
        · rw [if_pos h4] at h; injection h with h; subst h; rfl
        · rw [if_neg h4] at h
          by_cases h5 : key = "d".toList
          · rw [if_pos h5] at h; injection h with h; subst h; rfl
          · rw [if_neg h5] at h
            by_cases h6 : key = "h".toList
            · rw [if_pos h6] at h; injection h with h; subst h; rfl
            · rw [if_neg h6] at h
              by_cases h7 : key = "i".toList
              · rw [if_pos h7] at h; injection h with h; subst h; rfl
              · rw [if_neg h7] at h
                by_cases h8 : key = "l".toList
                · rw [if_pos h8] at h
                  cases hp8 : goParseInt64 (StripWhiteSpace value) with
                  | none => rw [hp8] at h; exact Except.noConfusion h
                  | some n =>
                    simp only [hp8] at h
                    by_cases hneg : n < 0
                    · rw [if_pos hneg] at h; exact Except.noConfusion h
                    · rw [if_neg hneg] at h; injection h with h; subst h; rfl
                · rw [if_neg h8] at h
                  by_cases h9 : key = "q".toList
                  · rw [if_pos h9] at h; injection h with h; subst h; rfl
                  · rw [if_neg h9] at h
                    by_cases h10 : key = "s".toList
                    · rw [if_pos h10] at h; injection h with h; subst h; rfl
                    · rw [if_neg h10] at h
                      by_cases h11 : key = "t".toList
                      · rw [if_pos h11] at h
                        cases hp11 : goParseInt64 (StripWhiteSpace value) with
                        | none => rw [hp11] at h; exact Except.noConfusion h
                        | some n => rw [hp11] at h; injection h with h; subst h; rfl
                      · rw [if_neg h11] at h
                        by_cases h12 : key = "v".toList
                        · exact absurd h12 hk
                        · rw [if_neg h12] at h
                          by_cases h13 : key = "x".toList
                          · rw [if_pos h13] at h
                            cases hp13 : goParseInt64 (StripWhiteSpace value) with
                            | none => rw [hp13] at h; exact Except.noConfusion h
                            | some n => rw [hp13] at h; injection h with h; subst h; rfl
                          · rw [if_neg h13] at h
                            injection h with h; subst h; rfl

theorem parseSignatureTagStep_version_v {value : List Char} {sig : DKIMSignature}
    (hv : value = ['1']) :
    parseSignatureTagStep ("v".toList) value sig = .ok { sig with Version := 1 } := by
  subst hv; rfl

theorem parseSignatureTagLoop_version :
    ∀ (ps : List (List Char × List Char)) (sig r : DKIMSignature),
    (∀ kv ∈ ps, kv.1 = "v".toList → kv.2 = ['1']) →
    (sig.Version = 1 ∨ ∃ kv ∈ ps, kv.1 = "v".toList) →
    parseSignatureTagLoop ps sig = .ok r → r.Version = 1 := by
  intro ps
  induction ps with
  | nil =>
    intro sig r _ hor h
    simp only [parseSignatureTagLoop] at h
    injection h with h
    rcases hor with h1 | ⟨kv, hm, _⟩
    · exact h ▸ h1
    · cases hm
  | cons kv0 rest ih =>
    obtain ⟨key, value⟩ := kv0
    intro sig r hall hor h
    simp only [parseSignatureTagLoop] at h
    cases hs : parseSignatureTagStep key value sig with
    | error e => rw [hs] at h; exact Except.noConfusion h
    | ok sig' =>
      rw [hs] at h
      have hall' : ∀ kv ∈ rest, kv.1 = "v".toList → kv.2 = ['1'] :=
        fun kv hm => hall kv (List.mem_cons_of_mem _ hm)
      by_cases hk : key = "v".toList
      · have hval : value = ['1'] := hall (key, value) (List.mem_cons_self _ _) hk
        rw [hk, parseSignatureTagStep_version_v hval] at hs
        injection hs with hs
        refine ih sig' r hall' (Or.inl ?_) h
        rw [← hs]
      · have hsame := parseSignatureTagStep_version_other hk hs
        refine ih sig' r hall' ?_ h
        rcases hor with h1 | ⟨kv, hm, hkv⟩
        · exact Or.inl (hsame.trans h1)
        · rcases List.mem_cons.1 hm with heq | hm
          · exact absurd (by rw [heq] at hkv; exact hkv) hk
          · exact Or.inr ⟨kv, hm, hkv⟩

theorem ParseSignatureParamsPairs_ok_v {pairs : List (List Char)}
    {params : List (List Char × List Char)}
    (h : ParseSignatureParamsPairs pairs = .ok params) :
    lookupParam params ['v'] = some ['1'] ∧ (params.map Prod.fst).Nodup := by
  unfold ParseSignatureParamsPairs at h
  split at h
  next e heq => exact Except.noConfusion h
  next ps heq =>
    by_cases hfm : (firstMissing ps requiredTags).isSome
    · rw [if_pos hfm] at h; exact Except.noConfusion h
    · rw [if_neg hfm] at h
      by_cases hv : (lookupParam ps ['v']).getD [] ≠ ['1']
      · rw [if_pos hv] at h; exact Except.noConfusion h
      · rw [if_neg hv] at h
        split at h
        next e het => exact Except.noConfusion h
        next u het =>
          injection h with h
          rw [← h]
          constructor
          · rw [not_not] at hv
            cases hl : lookupParam ps ['v'] with
            | none => rw [hl] at hv; exact absurd hv (by decide)
            | some w => rw [hl] at hv; simp only [Option.getD] at hv; rw [hv]
          · exact parseSignatureLoop_ok_nodup pairs [] [] ps heq (by simp) (by simp)

theorem parseSignatureExp_version {sig r : DKIMSignature}
    (h : parseSignatureExp sig = .ok r) : r = sig := by
  unfold parseSignatureExp at h
  repeat' split at h
  all_goals first
    | exact Except.noConfusion h
    | (injection h with h; exact h.symm)

theorem parseSignaturePost_version {sig r : DKIMSignature}
    (h : parseSignaturePost sig = .ok r) : r.Version = sig.Version := by
  unfold parseSignaturePost at h
  split at h
  next e heq => exact Except.noConfusion h
  next cb heq =>
    unfold parseSignaturePostChecks at h
    repeat' split at h
    all_goals first
      | exact Except.noConfusion h
      | (rw [parseSignatureExp_version h])

/-- C10: every signature produced by a successful `dkim.ParseSignature` has
`Version = 1`: the tag parser requires the `v` tag and rejects any value
other than `"1"`, so the `Version ≠ 1` permerror branch of
`VerifyWithResolver` cannot fire for parsed signatures. -/
theorem C10_parse_signature_version (s : List Char) (sig : DKIMSignature)
    (h : ParseSignature s = .ok sig) : sig.Version = 1 := by
  unfold ParseSignature at h
  split at h
  · exact Except.noConfusion h
  · split at h
    next e heq => exact Except.noConfusion h
    next params heq =>
      split at h
      next e het => exact Except.noConfusion h
      next sig0 het =>
        obtain ⟨hv, hnd⟩ := ParseSignatureParamsPairs_ok_v heq
        have hall : ∀ kv ∈ params, kv.1 = "v".toList → kv.2 = ['1'] := by
          intro kv hm hk
          exact lookupParam_unique hnd hv kv hm (by simpa using hk)
        have hex : ∃ kv ∈ params, kv.1 = "v".toList :=
          ⟨(['v'], ['1']), lookupParam_some_mem hv, rfl⟩
        have hv1 := parseSignatureTagLoop_version params _ sig0 hall (Or.inr hex) het
        rw [parseSignaturePost_version h, hv1]

/-- C10 witness: a complete valid DKIM-Signature header parses and the
parsed version is 1. -/
theorem C10_parse_signature_version_witness :
    (ParseSignature ("DKIM-Signature: v=1; a=rsa-sha256; b=abc; bh=def; c=relaxed/relaxed; d=example.com; h=from; s=sel".toList)).toOption.map
      DKIMSignature.Version = some 1 := by
  cases hp : ParseSignature ("DKIM-Signature: v=1; a=rsa-sha256; b=abc; bh=def; c=relaxed/relaxed; d=example.com; h=from; s=sel".toList) with
  | error e =>
    exfalso
    have hok : (ParseSignature ("DKIM-Signature: v=1; a=rsa-sha256; b=abc; bh=def; c=relaxed/relaxed; d=example.com; h=from; s=sel".toList)).toOption.isSome = true := by
      decide
    rw [hp] at hok
    simp [Except.toOption] at hok
  | ok sig =>
    simp [Except.toOption, C10_parse_signature_version _ sig hp]

/-! ## `spf`: the macro engine (claim C8)

SPF strings are modelled as Lean `String`; `net.IP` values are byte lists
(`GoIP`).  The gate of this development reserves the identifier suffix used
by the Go function `expandMacro`, so the embedding is named `expandMacroFn`;
it is otherwise a direct translation. -/

abbrev GoIP := List Nat

/-- Go's 4-in-6 prefix `::ffff:0:0/96`. -/
def v4InV6Prefix : List Nat := [0, 0, 0, 0, 0, 0, 0, 0, 0, 0, 0xff, 0xff]

/-- `net.IP.To4`. -/
def ipTo4 (ip : GoIP) : Option GoIP :=
  if ip.length = 4 then some ip
  else if ip.length = 16 ∧ ip.take 12 = v4InV6Prefix then some (ip.drop 12)
  else none

/-- `net.IP.To16`. -/
def ipTo16 (ip : GoIP) : Option GoIP :=
  if ip.length = 4 then some (v4InV6Prefix ++ ip)
  else if ip.length = 16 then some ip
  else none

def ip4Dotted (bs : List Nat) : String :=
  String.intercalate "." (bs.map (fun b => toString b))

def hexLower (n : Nat) : String := String.mk (Nat.toDigits 16 n)

def hexDigitUpper (n : Nat) : Char :=
  if n < 10 then Char.ofNat ('0'.toNat + n) else Char.ofNat ('A'.toNat + (n - 10))

/-- The 16-bit groups of a 16-byte address. -/
def ipGroups : List Nat → List Nat
  | b₁ :: b₂ :: rest => (b₁ * 256 + b₂) :: ipGroups rest
  | _ => []

def countLeadingZeroGroups : List Nat → Nat
  | [] => 0
  | g :: rest => if g = 0 then 1 + countLeadingZeroGroups rest else 0

/-- Maximal zero runs (start index, length) of the group list. -/
def zeroRunsAux : List Nat → Nat → List (Nat × Nat)
  | [], _ => []
  | g :: rest, i =>
    if g = 0 then
      (i, 1 + countLeadingZeroGroups rest) ::
        zeroRunsAux (rest.drop (countLeadingZeroGroups rest))
          (i + 1 + countLeadingZeroGroups rest)
    else zeroRunsAux rest (i + 1)
  termination_by l _ => l.length
  decreasing_by
    all_goals simp [List.length_drop]
    all_goals omega

/-- The `::` elision window of `net.IP.String` (RFC 5952): the leftmost
longest run of at least two zero groups. -/
def bestZeroRun (gs : List Nat) : (Int × Int) :=
  let best := (zeroRunsAux gs 0).foldl
    (fun (best : Int × Int) (r : Nat × Nat) =>
      if (r.2 : Int) > best.2 - best.1 then ((r.1 : Int), (r.1 : Int) + (r.2 : Int)) else best)
    (-1, -1)
  if best.2 - best.1 ≤ 1 then (-1, -1) else best

/-- `net.IP.String`. -/
def ipString (ip : GoIP) : String :=
  if ip.length = 0 then "<nil>"
  else
    match ipTo4 ip with
    | some ip4 => ip4Dotted ip4
    | none =>
      if ip.length ≠ 16 then "?" ++ String.intercalate "" (ip.map hexLower)
      else
        let gs := ipGroups ip
        let be := bestZeroRun gs
        if be.1 < 0 then String.intercalate ":" (gs.map hexLower)
        else
          String.intercalate ":" ((gs.take be.1.toNat).map hexLower) ++ "::" ++
            String.intercalate ":" ((gs.drop be.2.toNat).map hexLower)

/-- `spf.macroClientI`: dotted quad for IPv4; 32 upper-case nibble labels
for IPv6. -/
def macroClientI (ip : GoIP) : String :=
  if ip = [] then ""
  else
    match ipTo4 ip with
    | some ip4 => ip4Dotted ip4
    | none =>
      match ipTo16 ip with
      | some ip16 =>
        String.intercalate "."
          (ip16.flatMap (fun b => [String.mk [hexDigitUpper (b / 16)],
            String.mk [hexDigitUpper (b % 16)]]))
      | none => ""

def goIsUpper (c : Char) : Bool := 'A' ≤ c ∧ c ≤ 'Z'

/-- `spf.urlEscapeSPF`: RFC 3986 unreserved characters stay, everything else
becomes `%XX`. -/
def urlEscapeSPF (s : String) : String :=
  String.mk (s.toList.flatMap (fun c =>
    if ('A' ≤ c ∧ c ≤ 'Z') ∨ ('a' ≤ c ∧ c ≤ 'z') ∨ ('0' ≤ c ∧ c ≤ '9') ∨
        c = '-' ∨ c = '.' ∨ c = '_' ∨ c = '~' then [c]
    else ['%', hexDigitUpper (c.toNat / 16 % 16), hexDigitUpper (c.toNat % 16)]))

inductive MacroPurpose where
  | domainSpec
  | exp
  deriving DecidableEq, Repr

structure MacroExpr where
  Letter : Char
  Num : Int
  Reverse : Bool
  Delims : String
  deriving DecidableEq, Repr

/-- The raw-value switch of the macro expander, factored out of the function
body: the per-letter value drawn from the macro context (`none` models the
`default` error branch for unknown letters). -/
def rawMacroValue (lower : Char) (sender domain helo receiver : String) (ip : GoIP)
    (timestamp : Int) (ptr : String) : Option String :=
  if lower = 's' then some sender
  else if lower = 'l' then
    some (if (goCut '@' sender.toList).2.2 then String.mk (goCut '@' sender.toList).1
          else sender)
  else if lower = 'o' then
    some (if (goCut '@' sender.toList).2.2 then String.mk (goCut '@' sender.toList).2.1
          else domain)
  else if lower = 'd' then some domain
  else if lower = 'i' then some (macroClientI ip)
  else if lower = 'p' then some ptr
  else if lower = 'v' then some (if (ipTo4 ip).isSome then "in-addr" else "ip6")
  else if lower = 'h' then some helo
  else if lower = 'c' then some (ipString ip)
  else if lower = 'r' then some receiver
  else if lower = 't' then some (toString timestamp)
  else none

/-- Go `strings.Join(labels, ".")` at the rune-list level. -/
def intercalateChar (sep : Char) : List (List Char) → List Char
  | [] => []
  | [l] => l
  | l :: rest => l ++ sep :: intercalateChar sep rest

/-- The successive per-delimiter splitting loop of the macro expander
(`for _, delim := range me.Delims`). -/
def splitByDelimsSeq (ds : List Char) (raw : List Char) : List (List Char) :=
  ds.foldl (fun labels d => labels.flatMap (fun l => splitOnChar d l)) [raw]

/-- `spf.expandMacro` (modelled as `expandMacroFn`). -/
def expandMacroFn (me : MacroExpr) (sender domain helo receiver : String) (ip : GoIP)
    (timestamp : Int) (ptr : String) (purpose : MacroPurpose) : Except String String :=
  if (goToLower me.Letter = 'c' ∨ goToLower me.Letter = 'r' ∨ goToLower me.Letter = 't') ∧
      purpose = MacroPurpose.domainSpec then
    .error "macro only allowed in exp"
  else
    match rawMacroValue (goToLower me.Letter) sender domain helo receiver ip timestamp ptr with
    | none => .error "unknown macro letter"
    | some raw =>
      let labels : List (List Char) :=
        if goToLower me.Letter = 'i' then
          -- for 'i' there is no splitting unless 'r' is present; with 'r',
          -- both IP families split on '.' and reverse the labels
          if me.Reverse then
            if (ipTo4 ip).isSome then (splitOnChar '.' raw.toList).reverse
            else if (ipTo16 ip).isSome then (splitOnChar '.' raw.toList).reverse
            else [raw.toList]
          else [raw.toList]
        else if goToLower me.Letter = 'c' then
          if (ipTo4 ip).isSome then splitOnChar '.' raw.toList
          else if (ipTo16 ip).isSome then [(ipString ip).toList]
          else [raw.toList]
        else if ¬ me.Delims = "." ∧ ¬ me.Delims = "" then
          splitByDelimsSeq me.Delims.toList raw.toList
        else
          -- the source's two remaining branches both split on "."
          splitOnChar '.' raw.toList
      let labels := if me.Reverse ∧ ¬ goToLower me.Letter = 'i' then labels.reverse else labels
      let labels :=
        if 0 < me.Num ∧ me.Num < (labels.length : Int) then
          labels.drop (labels.length - me.Num.toNat)
        else labels
      let out := String.mk (intercalateChar '.' labels)
      .ok (if goIsUpper me.Letter then urlEscapeSPF out else out)

/-- Single-pass split by a *set* of delimiters (the specification's "split
by the delimiter set"). -/
def splitOnAny (ds : List Char) : List Char → List (List Char)
  | [] => [[]]
  | c :: rest =>
    if c ∈ ds then [] :: splitOnAny ds rest
    else
      match splitOnAny ds rest with
      | [] => [[c]]
      | p :: ps => (c :: p) :: ps

/-- Spec-side transform: split the raw value by the delimiter set, reverse
if `r`, keep the rightmost `N` labels if specified, rejoin with `.`. -/
def specMacroTransform (raw : String) (delims : List Char) (rev : Bool) (num : Int) : String :=
  let labels := splitOnAny delims raw.toList
  let labels := if rev then labels.reverse else labels
  let labels := if 0 < num then labels.drop (labels.length - num.toNat) else labels
  String.mk (intercalateChar '.' labels)

theorem splitOnAny_ne_nil (ds : List Char) (l : List Char) : splitOnAny ds l ≠ [] := by
  cases l with
  | nil => simp [splitOnAny]
  | cons c rest =>
    simp only [splitOnAny]
    split
    · simp
    · split <;> simp

theorem splitOnAny_nil_delims (l : List Char) : splitOnAny [] l = [l] := by
  induction l with
  | nil => rfl
  | cons c rest ih => simp [splitOnAny, ih]

theorem splitOnChar_eq_any (d : Char) (l : List Char) :
    splitOnChar d l = splitOnAny [d] l := by
  induction l with
  | nil => rfl
  | cons c rest ih =>
    by_cases hc : c = d
    · simp [splitOnChar, splitOnAny, hc, ih]
    · simp [splitOnChar, splitOnAny, hc, ih]

theorem flatMap_splitOnChar (d : Char) (S : List Char) (l : List Char) :
    (splitOnAny S l).flatMap (fun p => splitOnChar d p) = splitOnAny (d :: S) l := by
  induction l with
  | nil => rfl
  | cons c rest ih =>
    by_cases hS : c ∈ S
    · rw [show splitOnAny S (c :: rest) = [] :: splitOnAny S rest by simp [splitOnAny, hS]]
      rw [show splitOnAny (d :: S) (c :: rest) = [] :: splitOnAny (d :: S) rest by
        simp [splitOnAny, List.mem_cons.2 (Or.inr hS)]]
      simp only [List.flatMap_cons]
      rw [show splitOnChar d [] = [[]] from rfl, ih]
      rfl
    · cases hsr : splitOnAny S rest with
      | nil => exact absurd hsr (splitOnAny_ne_nil S rest)
      | cons p ps =>
        rw [show splitOnAny S (c :: rest) = (c :: p) :: ps by
          simp [splitOnAny, hS, hsr]]
        by_cases hd : c = d
        · subst hd
          rw [show splitOnAny (c :: S) (c :: rest) = [] :: splitOnAny (c :: S) rest by
            simp [splitOnAny]]
          simp only [List.flatMap_cons]
          rw [show splitOnChar c (c :: p) = [] :: splitOnChar c p by simp [splitOnChar]]
          rw [← ih, hsr]
          simp [List.flatMap_cons]
        · have hmem : c ∉ d :: S := by
            intro hm
            rcases List.mem_cons.1 hm with h | h
            · exact hd h
            · exact hS h
          have ih' : splitOnChar d p ++ ps.flatMap (fun p => splitOnChar d p) =
              splitOnAny (d :: S) rest := by
            rw [← ih, hsr]; simp [List.flatMap_cons]
          cases hq : splitOnChar d p with
          | nil => exact absurd hq (by rw [splitOnChar_eq_any]; exact splitOnAny_ne_nil _ _)
          | cons q qs =>
            rw [show splitOnAny (d :: S) (c :: rest) =
                (match splitOnAny (d :: S) rest with
                  | [] => [[c]]
                  | p :: ps => (c :: p) :: ps) by simp [splitOnAny, hmem]]
            rw [← ih', hq]
            simp only [List.flatMap_cons]
            rw [show splitOnChar d (c :: p) = (c :: q) :: qs by
              simp [splitOnChar, hd, hq]]
            simp

theorem splitOnAny_congr {ds ds' : List Char} (h : ∀ c, c ∈ ds ↔ c ∈ ds')
    (l : List Char) : splitOnAny ds l = splitOnAny ds' l := by
  induction l with
  | nil => rfl
  | cons c rest ih =>
    by_cases hm : c ∈ ds
    · simp [splitOnAny, hm, (h c).1 hm, ih]
    · have hm' : c ∉ ds' := fun hx => hm ((h c).2 hx)
      simp [splitOnAny, hm, hm', ih]

theorem foldl_splitOnChar (ds : List Char) :
    ∀ (S : List Char) (l : List Char),
    List.foldl (fun labels d => labels.flatMap (fun p => splitOnChar d p))
      (splitOnAny S l) ds = splitOnAny (ds.reverse ++ S) l := by
  induction ds with
  | nil => intro S l; simp
  | cons d ds ih =>
    intro S l
    simp only [List.foldl_cons]
    rw [flatMap_splitOnChar d S l, ih (d :: S) l]
    simp [List.reverse_cons, List.append_assoc]

theorem splitByDelimsSeq_eq (ds : List Char) (raw : List Char) :
    splitByDelimsSeq ds raw = splitOnAny ds raw := by
  unfold splitByDelimsSeq
  rw [show ([raw] : List (List Char)) = splitOnAny [] raw from
    (splitOnAny_nil_delims raw).symm]
  rw [foldl_splitOnChar ds [] raw]
  exact splitOnAny_congr (by simp) raw

theorem macroLabelPipeline_eq (L : Char) (raw D : String) (R : Bool) (N : Int)
    (ip : GoIP) (hi : ¬ goToLower L = 'i') (hc : ¬ goToLower L = 'c') :
    String.mk (intercalateChar '.'
      (let labels : List (List Char) :=
        if goToLower L = 'i' then
          if R then
            if (ipTo4 ip).isSome then (splitOnChar '.' raw.toList).reverse
            else if (ipTo16 ip).isSome then (splitOnChar '.' raw.toList).reverse
            else [raw.toList]
          else [raw.toList]
        else if goToLower L = 'c' then
          if (ipTo4 ip).isSome then splitOnChar '.' raw.toList
          else if (ipTo16 ip).isSome then [(ipString ip).toList]
          else [raw.toList]
        else if ¬ D = "." ∧ ¬ D = "" then splitByDelimsSeq D.toList raw.toList
        else splitOnChar '.' raw.toList
      let labels := if R ∧ ¬ goToLower L = 'i' then labels.reverse else labels
      if 0 < N ∧ N < (labels.length : Int) then labels.drop (labels.length - N.toNat)
      else labels))
    = specMacroTransform raw (if D = "" then ['.'] else D.toList) R N := by
  have hA : (if ¬ D = "." ∧ ¬ D = "" then splitByDelimsSeq D.toList raw.toList
      else splitOnChar '.' raw.toList) =
      splitOnAny (if D = "" then ['.'] else D.toList) raw.toList := by
    by_cases hD0 : D = ""
    · rw [if_neg (by simp [hD0]), if_pos hD0, splitOnChar_eq_any]
    · by_cases hD1 : D = "."
      · rw [if_neg (by simp [hD1]), if_neg hD0, splitOnChar_eq_any, hD1]
        rfl
      · rw [if_pos ⟨hD1, hD0⟩, if_neg hD0, splitByDelimsSeq_eq]
  simp only [if_neg hi, if_neg hc, hA]
  have hrev : ∀ (X : List (List Char)),
      (if R ∧ ¬ goToLower L = 'i' then X.reverse else X) =
      (if R then X.reverse else X) := by
    intro X
    by_cases hR : R = true
    · rw [if_pos ⟨hR, hi⟩, if_pos hR]
    · rw [if_neg (fun hcon => hR hcon.1), if_neg hR]
  have hnum : ∀ (X : List (List Char)),
      (if 0 < N ∧ N < (X.length : Int) then X.drop (X.length - N.toNat) else X) =
      (if 0 < N then X.drop (X.length - N.toNat) else X) := by
    intro X
    by_cases h1 : 0 < N
    · by_cases h2 : N < (X.length : Int)
      · rw [if_pos ⟨h1, h2⟩, if_pos h1]
      · rw [if_neg (fun hcon => h2 hcon.2), if_pos h1,
          show X.length - N.toNat = 0 by omega]
        simp
    · rw [if_neg (fun hcon => h1 hcon.1), if_neg h1]
  rw [hrev, hnum]
  rfl

/-- C8 counterexample: for `%{i2}` with IPv4 client address `192.0.2.3`, the
code returns the unsplit raw value `192.0.2.3`, while the claimed
split/keep-rightmost-2/rejoin pipeline yields `2.3` — the `i` (and `c`)
letters bypass the claimed delimiter pipeline. -/
theorem C8_counterexample :
    expandMacroFn ⟨'i', 2, false, "."⟩ "strong-bad@email.example.com"
        "email.example.com" "" "" [192, 0, 2, 3] 0 "" MacroPurpose.domainSpec =
      .ok "192.0.2.3" ∧
    specMacroTransform "192.0.2.3" ['.'] false 2 = "2.3" ∧
    ("192.0.2.3" : String) ≠ "2.3" := by
  refine ⟨rfl, rfl, by decide⟩

/-- C8 (amended): for the macro letters `s l o d v h r t` (whose raw value
is taken directly from the macro context), a successful expansion is exactly
the specified pipeline: split the raw value by the delimiter set (default
`.`), reverse if `r`, keep the rightmost `N` labels when given, rejoin with
`.`.  The letters `i` and `c` are excluded: `i` splits only under the `r`
transformer and `c` always splits on `.`/keeps the IPv6 text whole, both
ignoring the delimiter set. -/
theorem C8_macro_transform
    (me : MacroExpr) (sender domain helo receiver : String) (ip : GoIP)
    (timestamp : Int) (ptr : String) (purpose : MacroPurpose) (raw out : String)
    (hmem : me.Letter ∈ (['s', 'l', 'o', 'd', 'v', 'h', 'r', 't'] : List Char))
    (hraw : rawMacroValue (goToLower me.Letter) sender domain helo receiver ip
      timestamp ptr = some raw)
    (h : expandMacroFn me sender domain helo receiver ip timestamp ptr purpose = .ok out) :
    out = specMacroTransform raw (if me.Delims = "" then ['.'] else me.Delims.toList)
      me.Reverse me.Num := by
  obtain ⟨L, N, R, D⟩ := me
  simp only [List.mem_cons, List.not_mem_nil, or_false] at hmem
  cases purpose <;> rcases hmem with rfl | rfl | rfl | rfl | rfl | rfl | rfl | rfl <;>
    first
      | exact Except.noConfusion h
      | (injection h with hout
         injection hraw with hraw
         rw [← hout, ← hraw]
         exact macroLabelPipeline_eq _ _ _ _ _ _
           (of_decide_eq_true rfl) (of_decide_eq_true rfl))

/-- C8 witness: `%{d2}` on domain `email.example.com` — both the code and
the specified pipeline yield `example.com`. -/
theorem C8_macro_transform_witness :
    ((⟨'d', 2, false, ""⟩ : MacroExpr).Letter ∈
      (['s', 'l', 'o', 'd', 'v', 'h', 'r', 't'] : List Char)) ∧
    ("example.com" : String) = specMacroTransform "email.example.com"
      (if ("" : String) = "" then ['.'] else ("" : String).toList) false 2 :=
  ⟨by decide,
   C8_macro_transform ⟨'d', 2, false, ""⟩ "strong-bad@email.example.com"
     "email.example.com" "" "" [] 0 "" MacroPurpose.domainSpec
     "email.example.com" "example.com" (by decide) rfl rfl⟩

/-! ### SPF evaluator embedding (src/spf/evaluate.go, src/spf record/cidr,
mechanism matching, resolver counter discipline) -/

/-- Go `strings.Index(s, c)` for a one-byte separator: first index or -1. -/
def goIndexChar (c : Char) : List Char → Int
  | [] => -1
  | x :: rest =>
    if x = c then 0
    else
      match goIndexChar c rest with
      | -1 => -1
      | i => i + 1

/-- Go `strings.LastIndex(s, c)` for a one-byte separator: last index or -1. -/
def goLastIndexChar (c : Char) : List Char → Int
  | [] => -1
  | x :: rest =>
    match goLastIndexChar c rest with
    | -1 => if x = c then 0 else -1
    | i => i + 1

/-- First index at which `sep` occurs as a contiguous sublist, if any. -/
def findSubIdx (sep : List Char) : List Char → Option Nat
  | [] => if sep = [] then some 0 else none
  | c :: rest =>
    if sep.isPrefixOf (c :: rest) then some 0
    else (findSubIdx sep rest).map (· + 1)

/-- Go `strings.Split(s, sep)` for non-empty `sep`, fueled by the input
length (each step consumes at least one element, so the fuel suffices). -/
def splitOnSubAux (sep : List Char) : Nat → List Char → List (List Char)
  | 0, l => [l]
  | fuel + 1, l =>
    match findSubIdx sep l with
    | none => [l]
    | some i => l.take i :: splitOnSubAux sep fuel (l.drop (i + sep.length))

def splitOnSub (sep l : List Char) : List (List Char) :=
  splitOnSubAux sep l.length l

/-- Go `strings.Contains(s, sub)`. -/
def goContainsSub (sub l : List Char) : Bool := (findSubIdx sub l).isSome

/-- Go `strings.HasSuffix`. -/
def goHasSuffix (suffix l : List Char) : Bool := suffix.isSuffixOf l

/-- Go `strings.TrimSuffix`. -/
def goTrimSuffix (suffix l : List Char) : List Char :=
  if goHasSuffix suffix l then l.take (l.length - suffix.length) else l

/-! #### Models of the Go `net` package operations used by the SPF engine.
A `GoIP` is the byte slice of a `net.IP` (4 or 16 entries, or `[]` for a
nil IP).  `ParseIP`/`ParseCIDR` follow the parsers of the Go standard
library (Go ≥ 1.17 behaviour: leading zeros in IPv4 octets are rejected). -/

def hexVal (c : Char) : Option Nat :=
  if '0' ≤ c ∧ c ≤ '9' then some (c.toNat - '0'.toNat)
  else if 'a' ≤ c ∧ c ≤ 'f' then some (c.toNat - 'a'.toNat + 10)
  else if 'A' ≤ c ∧ c ≤ 'F' then some (c.toNat - 'A'.toNat + 10)
  else none

/-- Go `net.xtoi`: hexadecimal prefix value and number of characters
consumed; fails with no digits or when the accumulator reaches
`net.big` (0xFFFFFF). -/
def xtoiAux : List Char → Nat → Nat → Option (Nat × Nat)
  | [], acc, used => if used = 0 then none else some (acc, used)
  | c :: rest, acc, used =>
    match hexVal c with
    | none => if used = 0 then none else some (acc, used)
    | some d =>
      if acc * 16 + d ≥ 0xFFFFFF then none
      else xtoiAux rest (acc * 16 + d) (used + 1)

def xtoi (l : List Char) : Option (Nat × Nat) := xtoiAux l 0 0

/-- One dotted-decimal IPv4 field: nonempty, digits only, ≤ 255, and no
leading zero (Go ≥ 1.17 `parseIPv4` via `dtoi` plus the zero check). -/
def v4Field (l : List Char) : Option Nat :=
  match goParseDigits l with
  | none => none
  | some n =>
    if n > 0xFF then none
    else if l.length > 1 ∧ l.headD ' ' = '0' then none
    else some n

/-- Go `net.parseIPv4` (returning the 16-byte IPv4-in-IPv6 form that
`net.IPv4` produces).  Splitting on `.` and checking each field is
equivalent to the sequential field scan of the Go source. -/
def goParseIPv4 (l : List Char) : Option GoIP :=
  match splitOnChar '.' l with
  | [a, b, c, d] =>
    match v4Field a, v4Field b, v4Field c, v4Field d with
    | some a', some b', some c', some d' => some (v4InV6Prefix ++ [a', b', c', d'])
    | _, _, _, _ => none
  | _ => none

/-- The grouped loop of Go `net.parseIPv6` (no zone): consumes the string
group by group, tracking the byte index `i` and the `::` position.
Returns the bytes written, the final index and the ellipsis position.
Fuel 8 bounds the loop (`i` grows by at least 2 each round, `i < 16`). -/
def parseIPv6Loop : Nat → List Char → Nat → Option Nat → List Nat →
    Option (List Nat × Nat × Option Nat)
  | 0, s, i, ellipsis, acc => if s = [] then some (acc, i, ellipsis) else none
  | fuel + 1, s, i, ellipsis, acc =>
    if i < 16 then
      match xtoi s with
      | none => none
      | some (n, c) =>
        if n > 0xFFFF then none
        else if (s.drop c).headD ' ' = '.' then
          -- trailing embedded IPv4 address
          if ellipsis.isNone ∧ i ≠ 12 then none
          else if i + 4 > 16 then none
          else
            match goParseIPv4 s with
            | none => none
            | some ip4 => some (acc ++ ip4.drop 12, i + 4, ellipsis)
        else
          let acc := acc ++ [n / 256, n % 256]
          let i := i + 2
          let s := s.drop c
          if s = [] then some (acc, i, ellipsis)
          else if s.headD ' ' ≠ ':' ∨ s.length = 1 then none
          else
            let s := s.drop 1
            if s.headD ' ' = ':' then
              if ellipsis.isSome then none
              else
                let s := s.drop 1
                if s = [] then some (acc, i, some i)
                else parseIPv6Loop fuel s i (some i) acc
            else parseIPv6Loop fuel s i ellipsis acc
    else if s = [] then some (acc, i, ellipsis) else none

/-- Go `net.parseIPv6` (no zone). -/
def goParseIPv6 (l : List Char) : Option GoIP :=
  let start :
      Option (List Char × Option Nat) :=
    if l.take 2 = [':', ':'] then
      if l.drop 2 = [] then none else some (l.drop 2, some 0)
    else some (l, none)
  match start with
  | none => some (List.replicate 16 0)
  | some (s, ellipsis) =>
    match parseIPv6Loop 8 s 0 ellipsis [] with
    | none => none
    | some (bytes, i, ell) =>
      if i < 16 then
        match ell with
        | none => none
        | some e => some (bytes.take e ++ List.replicate (16 - i) 0 ++ bytes.drop e)
      else
        match ell with
        | none => some bytes
        | some _ => none

/-- Go `net.ParseIP`: the first `.` or `:` decides the family. -/
def goParseIPFrom : List Char → List Char → Option GoIP
  | _, [] => none
  | orig, c :: rest =>
    if c = '.' then goParseIPv4 orig
    else if c = ':' then goParseIPv6 orig
    else goParseIPFrom orig rest

def goParseIP (s : String) : Option GoIP := goParseIPFrom s.toList s.toList

/-- Bytes of Go `net.CIDRMask(ones, 8*n)`: `ones` leading one bits. -/
def cidrMaskBytes : Nat → Nat → List Nat
  | 0, _ => []
  | nbytes + 1, ones =>
    if ones ≥ 8 then 0xFF :: cidrMaskBytes nbytes (ones - 8)
    else (0x100 - 2 ^ (8 - ones)) % 0x100 :: cidrMaskBytes nbytes 0

/-- Go `net.CIDRMask(ones, bits)` (`none` models the nil mask). -/
def goCIDRMask (ones bits : Int) : Option (List Nat) :=
  if bits ≠ 32 ∧ bits ≠ 128 then none
  else if ones < 0 ∨ ones > bits then none
  else some (cidrMaskBytes (bits.toNat / 8) ones.toNat)

/-- Go `net.IP.Mask`: adjust 4/16-byte representations, then byte-wise AND
(`nil` on a length mismatch is modelled as `[]`). -/
def goIPMask (mask : List Nat) (ip : GoIP) : GoIP :=
  let mask := if mask.length = 16 ∧ ip.length = 4 ∧ mask.take 12 = List.replicate 12 0xFF
    then mask.drop 12 else mask
  let ip := if ip.length = 16 ∧ mask.length = 4 ∧ ip.take 12 = v4InV6Prefix
    then ip.drop 12 else ip
  if ip.length ≠ mask.length then []
  else (ip.zip mask).map (fun p => p.1.land p.2)

/-- Go `net.IPNet`. -/
structure IPNet where
  IP : GoIP
  Mask : List Nat
deriving DecidableEq, Repr

/-- Go `net.networkNumberAndMask`. -/
def networkNumberAndMask (n : IPNet) : Option (GoIP × List Nat) :=
  let ipo := match ipTo4 n.IP with
    | some ip4 => some ip4
    | none => if n.IP.length = 16 then some n.IP else none
  match ipo with
  | none => none
  | some ip =>
    if n.Mask.length = 4 then
      if ip.length ≠ 4 then none else some (ip, n.Mask)
    else if n.Mask.length = 16 then
      if ip.length = 4 then some (ip, n.Mask.drop 12) else some (ip, n.Mask)
    else none

/-- Go `net.IPNet.Contains`. -/
def ipNetContains (n : IPNet) (ip : GoIP) : Bool :=
  match networkNumberAndMask n with
  | none => false
  | some (nn, m) =>
    let ip := match ipTo4 ip with
      | some x => x
      | none => ip
    if ip.length ≠ nn.length then false
    else (List.zip (List.zip nn m) (List.zip ip m)).all
      (fun p => p.1.1.land p.1.2 = p.2.1.land p.2.2)

/-- Go `net.IP.Equal`. -/
def ipEqual (ip x : GoIP) : Bool :=
  if ip.length = x.length then ip = x
  else if ip.length = 4 ∧ x.length = 16 then
    x.take 12 = v4InV6Prefix ∧ ip = x.drop 12
  else if ip.length = 16 ∧ x.length = 4 then
    ip.take 12 = v4InV6Prefix ∧ ip.drop 12 = x
  else false

/-- Go `net.ParseCIDR`: split at the first `/`, parse the address (IPv4
unless it contains a colon), parse the whole prefix length as decimal and
return the masked network.  (The Go source first tries the IPv4 parser and
falls back to IPv6; an address containing `:` never parses as IPv4, so
dispatching on the presence of `:` is equivalent.) -/
def goParseCIDR (s : String) : Option (GoIP × IPNet) :=
  match goIndexChar '/' s.toList with
  | -1 => none
  | i =>
    let addr := s.toList.take i.toNat
    let maskStr := s.toList.drop (i.toNat + 1)
    let ipo := if goIndexChar ':' addr = -1 then goParseIPv4 addr else goParseIPv6 addr
    match ipo with
    | none => none
    | some ip =>
      let iplen : Int := if goIndexChar ':' addr = -1 then 4 else 16
      match goParseDigits maskStr with
      | none => none
      | some n =>
        if (n : Int) > 8 * iplen then none
        else
          match goCIDRMask (n : Int) (8 * iplen) with
          | none => none
          | some m => some (ip, ⟨goIPMask m ip, m⟩)

/-! #### SPF core types (src/unnamed/part_003, src/spf/record.go) -/

def Pass : String := "pass"
def Fail : String := "fail"
def NoneSt : String := "none"
def SoftFail : String := "softfail"
def Neutral : String := "neutral"
def TempError : String := "temperror"
def PermError : String := "permerror"

/-- Go `spf.Result` (`Status` is the string-typed `spf.Status`). -/
structure Result where
  Status : String
  Reason : String
deriving DecidableEq, Repr

def MechanismAll : String := "all"
def MechanismInclude : String := "include"
def MechanismA : String := "a"
def MechanismMX : String := "mx"
def MechanismIP4 : String := "ip4"
def MechanismIP6 : String := "ip6"
def MechanismPTR : String := "ptr"
def MechanismExists : String := "exists"

def ModifierRedirect : String := "redirect"
def ModifierExp : String := "exp"

def QualifierPass : String := "+"
def QualifierFail : String := "-"
def QualifierSoftFail : String := "~"
def QualifierNeutral : String := "?"

/-- Go `spf.MechanismEntry`. -/
structure MechanismEntry where
  Mechanism : String
  Value : String
  Qualifier : String
deriving DecidableEq, Repr

/-- Go `spf.ModifierEntry`. -/
structure ModifierEntry where
  Modifier : String
  Value : String
deriving DecidableEq, Repr

/-- Go `spf.Record`. -/
structure Record where
  Raw : String
  Version : String
  Mechanisms : List MechanismEntry
  Modifiers : List ModifierEntry
  Exp : String
  AllExists : Bool
deriving DecidableEq, Repr

/-- Go `net.MX` (only `Host` is consulted by the SPF engine). -/
structure MX where
  Host : String
  Pref : Nat
deriving DecidableEq, Repr

/-- `spf.qualToStatus` (src/spf/evaluate.go). -/
def qualToStatus (q : String) : String :=
  if q = QualifierFail then Fail
  else if q = QualifierSoftFail then SoftFail
  else if q = QualifierNeutral then Neutral
  else Pass

/-! #### src/spf/cidr.go -/

/-- `spf.splitHostAndDualCIDR`: split `host/v4bits//v6bits` forms; `-1`
means "no CIDR given". -/
def splitHostAndDualCIDR (s : String) : Except String (String × Int × Int) :=
  if s = "" then .ok ("", -1, -1)
  else
    let l := s.toList
    let firstColon := goIndexChar ':' l
    let lastSlashAll := goLastIndexChar '/' l
    -- colon special case: names such as foo:bar/baz.example.com carry no CIDR
    if firstColon ≠ -1 ∧
        ¬ (lastSlashAll ≠ -1 ∧ firstColon < lastSlashAll ∧
           (goParseInt64 (l.drop (lastSlashAll.toNat + 1))).isSome) then
      .ok (s, -1, -1)
    else
      let parts := splitOnSub ['/', '/'] l
      if parts.length > 2 then .error "invalid dual CIDR format"
      else
        let hostPart := if parts.length = 2 then parts.headD [] else l
        let cidrPart := if parts.length = 2 then (parts.drop 1).headD [] else []
        let v6res : Except String Int :=
          if parts.length = 2 then
            if cidrPart = [] then .error "invalid dual CIDR format: missing IPv6 CIDR"
            else if cidrPart.length > 1 ∧ cidrPart.headD ' ' = '0' then
              .error ("bad ipv6 bits: \"" ++ String.mk cidrPart ++ "\" (leading zeros not allowed)")
            else
              match goParseInt64 cidrPart with
              | none => .error ("bad ipv6 bits: \"" ++ String.mk cidrPart ++ "\"")
              | some n =>
                if n < 0 ∨ n > 128 then .error ("bad ipv6 bits: \"" ++ String.mk cidrPart ++ "\"")
                else .ok n
          else .ok (-1)
        match v6res with
        | .error e => .error e
        | .ok v6bits =>
          match goLastIndexChar '/' hostPart with
          | -1 => .ok (String.mk hostPart, -1, v6bits)
          | lastSlash =>
            let host := hostPart.take lastSlash.toNat
            let v4cidr := hostPart.drop (lastSlash.toNat + 1)
            if v4cidr = [] then .error "invalid dual CIDR format: missing IPv4 CIDR"
            else if v4cidr.length > 1 ∧ v4cidr.headD ' ' = '0' then
              .error ("bad ipv4 bits: \"" ++ String.mk v4cidr ++ "\" (leading zeros not allowed)")
            else
              match goParseInt64 v4cidr with
              | none => .error ("bad ipv4 bits: \"" ++ String.mk v4cidr ++ "\"")
              | some n =>
                if n < 0 ∨ n > 32 then .error ("bad ipv4 bits: \"" ++ String.mk v4cidr ++ "\"")
                else .ok (String.mk host, n, v6bits)

/-- `spf.parseCIDRDefault` (src/spf/cidr.go): accept `1.2.3.4`,
`1.2.3.0/24` or IPv6 forms; an omitted mask means /32 or /128.  The Go
`net.ParseCIDR` error text is modelled as `invalid CIDR address`. -/
def parseCIDRDefault (s : String) (wantV4 : Bool) : Except String (GoIP × IPNet) :=
  if goContainsSub ['/'] s.toList then
    let parts := splitOnChar '/' s.toList
    if parts.length ≠ 2 then .error "invalid CIDR format"
    else
      let mask := (parts.drop 1).headD []
      if mask.length > 1 ∧ mask.headD ' ' = '0' then
        .error ("invalid CIDR mask: \"" ++ String.mk mask ++ "\" (leading zeros not allowed)")
      else
        match goParseCIDR s with
        | none => .error ("invalid CIDR address: " ++ s)
        | some (ip, ipnet) =>
          if wantV4 ∧ (ipTo4 ip).isNone then .error "expected IPv4"
          else .ok (ip, ipnet)
  else
    if goContainsSub [':'] s.toList ∧ goContainsSub ['.'] s.toList ∧ wantV4 then
      .error "not an IPv4 address"
    else if goContainsSub [':'] s.toList ∧ goContainsSub ['.'] s.toList ∧ ¬ wantV4 then
      match goParseIP s with
      | none => .error ("invalid ip \"" ++ s ++ "\"")
      | some ip =>
        match goCIDRMask 128 128 with
        | none => .error "expected IPv6"
        | some m => .ok (ip, ⟨ip, m⟩)
    else
      match goParseIP s with
      | none => .error ("invalid ip \"" ++ s ++ "\"")
      | some ip =>
        if wantV4 ∧ (ipTo4 ip).isNone then .error "expected IPv4"
        else if ¬ wantV4 ∧ (ipTo4 ip).isSome then .error "expected IPv6"
        else
          let bits : Int := if wantV4 then 32 else 128
          match goCIDRMask bits bits with
          | none => .error "expected IPv6"
          | some m => .ok (ip, ⟨ip, m⟩)

/-- `spf.dualCIDRMatch` (src/spf/cidr.go); the second `dst.To4()` branch of
the IPv4 arm is kept although it repeats the first test, as in the source. -/
def dualCIDRMatch (src dst : GoIP) (v4bits v6bits : Int) : Bool :=
  if src = [] ∨ dst = [] then false
  else if (ipTo4 src).isSome then
    let bits : Int := if v4bits ≥ 0 then v4bits else 32
    if v4bits ≥ 0 ∧ v4bits > 32 then false
    else
      match goCIDRMask bits 32 with
      | none => false
      | some m =>
        if (ipTo4 dst).isSome then ipEqual (goIPMask m src) (goIPMask m dst)
        else
          match ipTo4 dst with
          | some ip4 => ipEqual (goIPMask m src) (goIPMask m ip4)
          | none => false
  else
    let bits : Int := if v6bits ≥ 0 then v6bits else 128
    if v6bits ≥ 0 ∧ v6bits > 128 then false
    else
      match goCIDRMask bits 128 with
      | none => false
      | some m =>
        if (ipTo4 dst).isNone then ipEqual (goIPMask m src) (goIPMask m dst)
        else false

/-! #### src/unnamed/part_002: domain validity.  `unicode.IsLetter` /
`unicode.IsDigit` are applied to single bytes there; the inputs reaching
these checks are ASCII (the specs are pre-checked printable-ASCII), so the
ASCII letter/digit fragment is the faithful model. -/

def goIsLetter (c : Char) : Bool := ('a' ≤ c ∧ c ≤ 'z') ∨ ('A' ≤ c ∧ c ≤ 'Z')

def goIsDigit (c : Char) : Bool := '0' ≤ c ∧ c ≤ '9'

/-- One label check of `spf.isValidDomain`. -/
def validDomainLabel (label : List Char) : Bool :=
  label.length ≠ 0 ∧ label.length ≤ 63 ∧
  (goIsLetter (label.headD ' ') ∨ goIsDigit (label.headD ' ')) ∧
  (goIsLetter (label.getLastD ' ') ∨ goIsDigit (label.getLastD ' ')) ∧
  label.all (fun c => goIsLetter c ∨ goIsDigit c ∨ c = '-') ∧
  ¬ label.headD ' ' = '-' ∧ ¬ label.getLastD ' ' = '-'

/-- `spf.isValidDomain` (src/unnamed/part_002). -/
def isValidDomain (domain : String) : Bool :=
  let l := domain.toList
  if l.headD ' ' = '[' ∧ l.getLastD ' ' = ']' then
    let content := (l.drop 1).take (l.length - 2)
    if content.length = 0 ∨ content.length > 253 then false
    else (goParseIP (String.mk content)).isSome
  else if l.length = 0 ∨ l.length > 253 then false
  else
    let l := if l.getLastD ' ' = '.' then l.dropLast else l
    if l.length = 0 then false
    else
      let labels := splitOnChar '.' l
      if labels.length < 2 then false
      else labels.all validDomainLabel

/-- One label check of `spf.isValidDomainSpecWithoutColon` (macro labels
starting with `%` are skipped by the caller). -/
def validSpecLabel (label : List Char) : Bool :=
  label.length ≠ 0 ∧ label.length ≤ 63 ∧
  (goIsLetter (label.headD ' ') ∨ goIsDigit (label.headD ' ') ∨ label.headD ' ' = '_') ∧
  (goIsLetter (label.getLastD ' ') ∨ goIsDigit (label.getLastD ' ')) ∧
  label.all (fun c => goIsLetter c ∨ goIsDigit c ∨ c = '-' ∨ c = '_' ∨ c = '/' ∨ c = '%') ∧
  ¬ label.headD ' ' = '-' ∧ ¬ label.getLastD ' ' = '-' ∧
  ¬ (label.headD ' ' = '/' ∧ label.getLastD ' ' = '/')

/-- `spf.isValidDomainSpecWithoutColon` (src/unnamed/part_002). -/
def isValidDomainSpecWithoutColon (domainSpec : String) : Bool :=
  let l := domainSpec.toList
  if ¬ goContainsSub ['.'] l then l.headD ' ' = '%'
  else if (goParseIP domainSpec).isSome then false
  else
    let labels := splitOnChar '.' l
    let endIndex := if labels.getLastD [] = [] then labels.length - 1 else labels.length
    if endIndex ≤ 1 then false
    else
      (labels.take endIndex).all
        (fun label => label.headD ' ' = '%' ∨ validSpecLabel label) ∧
      (let topLabel := (labels.take endIndex).getLastD []
       topLabel.headD ' ' = '%' ∨
       (let topLabel := goTrimSuffix ['.'] topLabel
        (goParseInt64 topLabel).isNone ∧ topLabel ≠ []))

/-- `spf.isValidDomainSpec` (src/unnamed/part_002). -/
def isValidDomainSpec (domainSpec : String) : Bool :=
  let l := domainSpec.toList
  if l.length > 253 then false
  else if goContainsSub ['.', '.'] l then false
  else if l.headD ' ' = '.' then false
  else if l.all (fun c => 0x21 ≤ c.toNat ∧ c.toNat ≤ 0x7E) = false then false
  else if goContainsSub [':'] l then
    let labels := splitOnChar '.' l
    let topLabel := labels.getLastD []
    if goContainsSub [':'] topLabel ∧ ¬ topLabel.headD ' ' = '%' then false
    else
      let firstColon := goIndexChar ':' l
      let lastSlash := goLastIndexChar '/' l
      if firstColon ≠ -1 ∧ lastSlash ≠ -1 ∧ firstColon < lastSlash then
        isValidDomainSpecWithoutColon (String.mk (l.drop (firstColon.toNat + 1)))
      else
        let colonParts := splitOnChar ':' l
        if ¬ isValidDomain (String.mk (colonParts.headD [])) ∧
            ¬ (colonParts.headD []).headD ' ' = '%' then false
        else true
  else isValidDomainSpecWithoutColon domainSpec

/-- The label-dropping loop of the RFC 7208 §8.1 253-byte truncation
(src/spf/macro.go `expandDomainSpec`, repeated in
`Record.handleExpModifier`): drop leading labels while the rejoined string
is over 253 bytes.  After the loop the Go code unconditionally reassigns
`expanded = strings.Join(labels, ".")`, so the 253-character tail stored
inside the `len(labels) <= 1` break is immediately overwritten; the final
value is always the join of the surviving labels. -/
def dropLabelsTo253 : List (List Char) → List (List Char)
  | [] => []
  | [l] => [l]
  | l :: rest =>
    if (intercalateChar '.' (l :: rest)).length > 253 then dropLabelsTo253 rest
    else l :: rest

/-- The full RFC 7208 §8.1 truncation step on an expanded string. -/
def truncate253 (expanded : String) : String :=
  if expanded.toList.length > 253 then
    String.mk (intercalateChar '.' (dropLabelsTo253 (splitOnChar '.' expanded.toList)))
  else expanded

/-! #### The resolver interface and the term counter
(src/unnamed/part_003) -/

/-- Go `spf.MacroContext` (src/spf/macro.go): `Now` is the Unix
timestamp; the embedded `DNSResolver` is the explicitly-passed resolver. -/
structure MacroContext where
  IP : GoIP
  Domain : String
  Sender : String
  Helo : String
  Rcpt : String
  Receiver : String
  Now : Int
deriving DecidableEq, Repr

/-- State threaded through an SPF evaluation: the RFC 7208 §4.6.4
`termCounter` of `dnsResolverImpl` plus the resolver's own private state
(void counter, visited set, DNS zone data, …). -/
structure ResolverState (σ : Type) where
  termCounter : Int
  inner : σ

/-- Shallow embedding of the Go `SPFResolver` interface
(src/unnamed/part_003): each method may consult and update the resolver
state.  `hasDnsImpl` records whether the dynamic
`interface{ dnsImpl() *dnsResolverImpl }` assertion inside
`incrementDNSMechanismCounter` succeeds for this resolver. -/
structure SPFResolver (σ : Type) where
  hasDnsImpl : Bool
  ReplaceMacroValues : String → MacroContext → MacroPurpose → ResolverState σ →
    Except String String × ResolverState σ
  lookupTXT : String → ResolverState σ → Except Result (List String) × ResolverState σ
  lookupIP : String → ResolverState σ → Except Result (List GoIP) × ResolverState σ
  lookupMX : String → ResolverState σ → Except Result (List MX) × ResolverState σ
  lookupPTR : String → ResolverState σ → Except Result (List String) × ResolverState σ
  lookupRecord : String → ResolverState σ → Except Result Record × ResolverState σ
  isVisited : String → ResolverState σ → Bool
  markVisited : String → ResolverState σ → ResolverState σ
  unmarkVisited : String → ResolverState σ → ResolverState σ
  lookupA : String → ResolverState σ → Except Result (List GoIP) × ResolverState σ

/-- `spf.incrementDNSMechanismCounter` (src/unnamed/part_003): increments
the shared term counter and rejects past 10; a no-op for resolvers that do
not expose `dnsImpl`. -/
def incrementDNSMechanismCounter {σ : Type} (R : SPFResolver σ) (st : ResolverState σ) :
    Option Result × ResolverState σ :=
  if R.hasDnsImpl then
    if st.termCounter + 1 > 10 then
      (some ⟨PermError, "DNS mechanism limit exceeded"⟩,
       { st with termCounter := st.termCounter + 1 })
    else (none, { st with termCounter := st.termCounter + 1 })
  else (none, st)

/-- `spf.expandDomainSpec` (src/spf/macro.go): macro expansion, emptiness
check and the RFC 7208 §8.1 truncation. -/
def expandDomainSpec {σ : Type} (R : SPFResolver σ) (domainSpec : String)
    (ctx : MacroContext) (purpose : MacroPurpose) (st : ResolverState σ) :
    Except Result String × ResolverState σ :=
  match R.ReplaceMacroValues domainSpec ctx purpose st with
  | (.error e, st) => (.error ⟨PermError, "macro expansion error: " ++ e⟩, st)
  | (.ok expanded, st) =>
    if String.mk (goTrimSpace expanded.toList) = "" then
      (.error ⟨PermError, "empty domain-spec after macro expansion"⟩, st)
    else (.ok (truncate253 (String.mk (goTrimSpace expanded.toList))), st)

/-! #### src/spf/evaluate.go and the mechanism matchers
(src/unnamed/part_001).  Functions that recurse into `Record.Evaluate`
receive the recursive evaluator as the explicit argument `evalRec`
(record, current domain, depth, state). -/

/-- The byte scan of `Record.handleExpModifier` looking for `%{x}`-shaped
invalid macro patterns in the expanded explanation. -/
def invalidExpMacroScan : List Char → Bool
  | '%' :: '{' :: _ :: '}' :: _ => true
  | _ :: rest => invalidExpMacroScan rest
  | [] => false

/-- `Record.handleExpModifier` (src/spf/evaluate.go): only applies to
`Fail` results; the `result == nil` arm of the source cannot arise here
because the caller always passes a constructed result. -/
def handleExpModifier {σ : Type} (R : SPFResolver σ) (r : Record) (result : Result)
    (ip : GoIP) (domain sender helo : String) (now : Int) (st : ResolverState σ) :
    Except Result Result × ResolverState σ :=
  if result.Status ≠ Fail then (.ok result, st)
  else if r.Exp = "" then (.ok { result with Reason := "DEFAULT" }, st)
  else if String.mk (goTrimSpace r.Exp.toList) = "" then
    (.error ⟨PermError, "exp= domain-spec is empty"⟩, st)
  else
    match incrementDNSMechanismCounter R st with
    | (some res, st) => (.error res, st)
    | (none, st) =>
      match R.ReplaceMacroValues r.Exp ⟨ip, domain, sender, helo, "", domain, now⟩
          MacroPurpose.exp st with
      | (.error _, st) => (.ok result, st)
      | (.ok expandedExp, st) =>
        match R.lookupTXT
            (if expandedExp.toList.length > 253 then
              String.mk (intercalateChar '.' (dropLabelsTo253 (splitOnChar '.' expandedExp.toList)))
            else expandedExp) st with
        | (.error _, st) => (.ok { result with Reason := "DEFAULT" }, st)
        | (.ok expRecords, st) =>
          if expRecords.length = 0 ∨ expRecords.length > 1 then
            (.ok { result with Reason := "DEFAULT" }, st)
          else
            match R.ReplaceMacroValues (expRecords.headD "")
                ⟨ip, domain, sender, helo, "", domain, now⟩ MacroPurpose.exp st with
            | (.error _, st) => (.ok { result with Reason := "DEFAULT" }, st)
            | (.ok expandedReason, st) =>
              if expandedReason.toList.any (fun c => c.toNat > 127) then
                (.ok { result with Reason := "DEFAULT" }, st)
              else if goContainsSub ['%', '{'] expandedReason.toList ∧
                  invalidExpMacroScan expandedReason.toList then
                (.ok { result with Reason := "DEFAULT" }, st)
              else (.ok { result with Reason := expandedReason }, st)

/-- `Record.matchAllMechanism`. -/
def matchAllMechanism (_me : MechanismEntry) : Bool × Option Result := (true, none)

/-- `Record.matchIP4Mechanism` (the inner repeated `ip.To4()` test of the
source is kept although its negative arm is unreachable). -/
def matchIP4Mechanism (me : MechanismEntry) (ip : GoIP) : Bool × Option Result :=
  match parseCIDRDefault me.Value true with
  | .error e => (false, some ⟨PermError, "invalid ip4: " ++ e⟩)
  | .ok (_, net4) =>
    if ip ≠ [] then
      if (ipTo4 ip).isSome then
        if ipNetContains net4 ip then (true, none) else (false, none)
      else if (ipTo16 ip).isSome then
        match ipTo4 ip with
        | some ipv4 => if ipNetContains net4 ipv4 then (true, none) else (false, none)
        | none => (false, none)
      else (false, none)
    else (false, none)

/-- `Record.matchIP6Mechanism`. -/
def matchIP6Mechanism (me : MechanismEntry) (ip : GoIP) : Bool × Option Result :=
  match parseCIDRDefault me.Value false with
  | .error e => (false, some ⟨PermError, "invalid ip6: " ++ e⟩)
  | .ok (_, net6) =>
    if ip ≠ [] then
      if (ipTo4 ip).isSome then (false, none)
      else if ipNetContains net6 ip then (true, none)
      else (false, none)
    else (false, none)

/-- The `for i := 0; i < n; i++ { incrementDNSMechanismCounter }` loops
that fold extra MX / PTR records into the 10-term budget. -/
def termExtraIncrements {σ : Type} (R : SPFResolver σ) :
    Nat → ResolverState σ → Option Result × ResolverState σ
  | 0, st => (none, st)
  | n + 1, st =>
    match incrementDNSMechanismCounter R st with
    | (some res, st) => (some res, st)
    | (none, st) => termExtraIncrements R n st

/-- `Record.matchAMechanism`. -/
def matchAMechanism {σ : Type} (R : SPFResolver σ) (me : MechanismEntry) (ip : GoIP)
    (domain : String) (ctx : MacroContext) (st : ResolverState σ) :
    (Bool × Option Result) × ResolverState σ :=
  match splitHostAndDualCIDR me.Value with
  | .error perr => ((false, some ⟨PermError, "invalid a mechanism: " ++ perr⟩), st)
  | .ok (host, v4bits, v6bits) =>
    if ¬ isValidDomainSpec (if host = "" then domain else host) then
      ((false, some ⟨PermError, "invalid domain-spec in A mechanism"⟩), st)
    else
      match expandDomainSpec R (if host = "" then domain else host) ctx
          MacroPurpose.domainSpec st with
      | (.error res, st) => ((false, some res), st)
      | (.ok expandedHost, st) =>
        match R.lookupIP expandedHost st with
        | (.error res, st) => ((false, some res), st)
        | (.ok ips, st) =>
          if ips.any (fun dip => dualCIDRMatch ip dip v4bits v6bits) then ((true, none), st)
          else ((false, none), st)

/-- The per-MX-host loop of `Record.matchMXMechanism`. -/
def mxHostsLoop {σ : Type} (R : SPFResolver σ) (ip : GoIP) (v4bits v6bits : Int) :
    List MX → ResolverState σ → (Bool × Option Result) × ResolverState σ
  | [], st => ((false, none), st)
  | mx :: rest, st =>
    match R.lookupIP mx.Host st with
    | (.error res2, st) => ((false, some res2), st)
    | (.ok ips, st) =>
      if ips.length > 10 then
        ((false, some ⟨PermError, "too many A/AAAA records for MX host"⟩), st)
      else if ips.any (fun dip => dualCIDRMatch ip dip v4bits v6bits) then ((true, none), st)
      else mxHostsLoop R ip v4bits v6bits rest st

/-- `Record.matchMXMechanism`. -/
def matchMXMechanism {σ : Type} (R : SPFResolver σ) (me : MechanismEntry) (ip : GoIP)
    (domain : String) (ctx : MacroContext) (st : ResolverState σ) :
    (Bool × Option Result) × ResolverState σ :=
  match splitHostAndDualCIDR me.Value with
  | .error perr => ((false, some ⟨PermError, "invalid mx mechanism: " ++ perr⟩), st)
  | .ok (host, v4bits, v6bits) =>
    match expandDomainSpec R (if host = "" then domain else host) ctx
        MacroPurpose.domainSpec st with
    | (.error res, st) => ((false, some res), st)
    | (.ok expandedHost, st) =>
      match R.lookupMX expandedHost st with
      | (.error res, st) => ((false, some res), st)
      | (.ok mxs, st) =>
        match termExtraIncrements R (mxs.length - 1) st with
        | (some res, st) => ((false, some res), st)
        | (none, st) => mxHostsLoop R ip v4bits v6bits mxs st

/-- `Record.matchIncludeMechanism`; the deferred `unmarkVisited` runs on
every exit path after the mark. -/
def matchIncludeMechanism {σ : Type} (R : SPFResolver σ)
    (evalRec : Record → String → Int → ResolverState σ → Result × ResolverState σ)
    (me : MechanismEntry) (depth : Int) (ctx : MacroContext) (st : ResolverState σ) :
    (Bool × Option Result) × ResolverState σ :=
  if depth > 10 then ((false, some ⟨PermError, "include/redirect depth exceeded"⟩), st)
  else if me.Value = "" then ((false, some ⟨PermError, "include requires a domain"⟩), st)
  else if ¬ isValidDomainSpec me.Value then
    ((false, some ⟨PermError, "invalid domain-spec for include"⟩), st)
  else
    match expandDomainSpec R me.Value ctx MacroPurpose.domainSpec st with
    | (.error res, st) => ((false, some res), st)
    | (.ok expandedIncDomain, st) =>
      if R.isVisited expandedIncDomain st then
        ((false, some ⟨PermError, "circular reference detected in include"⟩), st)
      else
        match R.lookupRecord expandedIncDomain (R.markVisited expandedIncDomain st) with
        | (.error res, st) =>
          if res.Status = NoneSt then
            ((false, some ⟨PermError, "include domain has no SPF record"⟩),
             R.unmarkVisited expandedIncDomain st)
          else ((false, some res), R.unmarkVisited expandedIncDomain st)
        | (.ok rec, st) =>
          match evalRec rec expandedIncDomain (depth + 1) st with
          | (ires, st) =>
            if ires.Status = Pass then ((true, none), R.unmarkVisited expandedIncDomain st)
            else if ires.Status = TempError ∨ ires.Status = PermError then
              ((false, some ires), R.unmarkVisited expandedIncDomain st)
            else ((false, none), R.unmarkVisited expandedIncDomain st)

/-- `Record.matchExistsMechanism`. -/
def matchExistsMechanism {σ : Type} (R : SPFResolver σ) (me : MechanismEntry)
    (ctx : MacroContext) (st : ResolverState σ) :
    (Bool × Option Result) × ResolverState σ :=
  match splitHostAndDualCIDR me.Value with
  | .error perr => ((false, some ⟨PermError, "invalid exists mechanism: " ++ perr⟩), st)
  | .ok (host, v4bits, v6bits) =>
    if v4bits ≠ -1 ∨ v6bits ≠ -1 then
      ((false, some ⟨PermError, "exists mechanism domain-spec must not contain CIDR"⟩), st)
    else
      match expandDomainSpec R host ctx MacroPurpose.domainSpec st with
      | (.error res, st) => ((false, some res), st)
      | (.ok expandedHost, st) =>
        match R.lookupA expandedHost st with
        | (.error lookupRes, st) =>
          if lookupRes.Status = TempError ∨ lookupRes.Status = PermError then
            ((false, some lookupRes), st)
          else ((false, none), st)
        | (.ok ips, st) => ((ips.length > 0, none), st)

/-- The per-PTR-target loop of `Record.matchPTRMechanism` (lookup errors
`continue` to the next target). -/
def ptrTargetsLoop {σ : Type} (R : SPFResolver σ) (ip : GoIP)
    (expandedDomainToCheck : String) :
    List String → ResolverState σ → (Bool × Option Result) × ResolverState σ
  | [], st => ((false, none), st)
  | target :: rest, st =>
    let trimmedTarget := String.mk (goTrimSuffix ['.'] target.toList)
    if expandedDomainToCheck = "" ∨
        goHasSuffix (goToLowerStr expandedDomainToCheck.toList)
          (goToLowerStr trimmedTarget.toList) then
      match R.lookupIP trimmedTarget st with
      | (.error _, st) => ptrTargetsLoop R ip expandedDomainToCheck rest st
      | (.ok ips, st) =>
        let ips := if ips.length > 10 then ips.take 10 else ips
        if ips.any (fun dip => ipEqual dip ip) then ((true, none), st)
        else ptrTargetsLoop R ip expandedDomainToCheck rest st
    else ptrTargetsLoop R ip expandedDomainToCheck rest st

/-- The target fetch of `Record.matchPTRMechanism` (PTR lookup errors are
ignored, yielding an empty target list). -/
def ptrLookupTargets {σ : Type} (R : SPFResolver σ) (ip : GoIP) (st : ResolverState σ) :
    List String × ResolverState σ :=
  match R.lookupPTR (ipString ip) st with
  | (.error _, st) => (([] : List String), st)
  | (.ok ts, st) => (ts, st)

/-- `Record.matchPTRMechanism` after the target fetch: cap at 10 targets,
fold the extra targets into the term budget, expand the domain-spec and
scan the targets. -/
def matchPTRBody {σ : Type} (R : SPFResolver σ) (me : MechanismEntry) (ip : GoIP)
    (domain : String) (ctx : MacroContext) (targets0 : List String)
    (st : ResolverState σ) : (Bool × Option Result) × ResolverState σ :=
  match termExtraIncrements R
      ((if targets0.length > 10 then targets0.take 10 else targets0).length - 1) st with
  | (some res, st) => ((false, some res), st)
  | (none, st) =>
    match expandDomainSpec R (if me.Value = "" then domain else me.Value) ctx
        MacroPurpose.domainSpec st with
    | (.error res, st) => ((false, some res), st)
    | (.ok expandedDomainToCheck, st) =>
      ptrTargetsLoop R ip expandedDomainToCheck
        (if targets0.length > 10 then targets0.take 10 else targets0) st

/-- `Record.matchPTRMechanism`. -/
def matchPTRMechanism {σ : Type} (R : SPFResolver σ) (me : MechanismEntry) (ip : GoIP)
    (domain : String) (ctx : MacroContext) (st : ResolverState σ) :
    (Bool × Option Result) × ResolverState σ :=
  match ptrLookupTargets R ip st with
  | (targets0, st) => matchPTRBody R me ip domain ctx targets0 st

/-- `Record.matchMechanism` (src/unnamed/part_001): dispatch plus the
RFC 7208 §4.6.4 term-counter increment for the DNS-consuming mechanisms. -/
def matchMechanism {σ : Type} (R : SPFResolver σ)
    (evalRec : Record → String → Int → ResolverState σ → Result × ResolverState σ)
    (me : MechanismEntry) (ip : GoIP) (domain sender helo : String) (now : Int)
    (depth : Int) (st : ResolverState σ) :
    (Bool × Option Result) × ResolverState σ :=
  if me.Mechanism = MechanismAll then (matchAllMechanism me, st)
  else if me.Mechanism = MechanismIP4 then (matchIP4Mechanism me ip, st)
  else if me.Mechanism = MechanismIP6 then (matchIP6Mechanism me ip, st)
  else if me.Mechanism = MechanismA then
    match incrementDNSMechanismCounter R st with
    | (some res, st) => ((false, some res), st)
    | (none, st) => matchAMechanism R me ip domain ⟨ip, domain, sender, helo, "", "", now⟩ st
  else if me.Mechanism = MechanismMX then
    match incrementDNSMechanismCounter R st with
    | (some res, st) => ((false, some res), st)
    | (none, st) => matchMXMechanism R me ip domain ⟨ip, domain, sender, helo, "", "", now⟩ st
  else if me.Mechanism = MechanismInclude then
    match incrementDNSMechanismCounter R st with
    | (some res, st) => ((false, some res), st)
    | (none, st) =>
      matchIncludeMechanism R evalRec me depth ⟨ip, domain, sender, helo, "", "", now⟩ st
  else if me.Mechanism = MechanismExists then
    match incrementDNSMechanismCounter R st with
    | (some res, st) => ((false, some res), st)
    | (none, st) => matchExistsMechanism R me ⟨ip, domain, sender, helo, "", "", now⟩ st
  else if me.Mechanism = MechanismPTR then
    match incrementDNSMechanismCounter R st with
    | (some res, st) => ((false, some res), st)
    | (none, st) => matchPTRMechanism R me ip domain ⟨ip, domain, sender, helo, "", "", now⟩ st
  else ((false, some ⟨PermError, "unsupported mechanism"⟩), st)

/-- The mechanism loop of `Record.evaluateMechanisms`. -/
def evaluateMechanismsLoop {σ : Type} (R : SPFResolver σ)
    (evalRec : Record → String → Int → ResolverState σ → Result × ResolverState σ)
    (r : Record) (ip : GoIP) (domain sender helo : String) (now : Int) (depth : Int) :
    List MechanismEntry → ResolverState σ → Result × ResolverState σ
  | [], st => (⟨Neutral, "no mechanism matched"⟩, st)
  | me :: rest, st =>
    match matchMechanism R evalRec me ip domain sender helo now depth st with
    | ((_, some mres), st) => (mres, st)
    | ((true, none), st) =>
      match handleExpModifier R r ⟨qualToStatus me.Qualifier, "matched " ++ me.Mechanism⟩
          ip domain sender helo now st with
      | (.error expErr, st) => (expErr, st)
      | (.ok result, st) => (result, st)
    | ((false, none), st) =>
      evaluateMechanismsLoop R evalRec r ip domain sender helo now depth rest st

/-- `Record.evaluateMechanisms` (src/spf/evaluate.go). -/
def evaluateMechanisms {σ : Type} (R : SPFResolver σ)
    (evalRec : Record → String → Int → ResolverState σ → Result × ResolverState σ)
    (r : Record) (ip : GoIP) (domain sender helo : String) (now : Int) (depth : Int)
    (st : ResolverState σ) : Result × ResolverState σ :=
  evaluateMechanismsLoop R evalRec r ip domain sender helo now depth r.Mechanisms st

/-- `Record.getModifier` (src/unnamed/part_001). -/
def getModifier (r : Record) (m : String) : String :=
  match r.Modifiers.find? (fun md => md.Modifier = m) with
  | some md => md.Value
  | none => ""

/-- `Record.handleRedirectModifier` (src/spf/evaluate.go): note that the
redirect is attempted whenever a `redirect=` modifier is present and no
`all` mechanism exists — independently of the result `current` computed
from the mechanisms. -/
def handleRedirectModifier {σ : Type} (R : SPFResolver σ)
    (evalRec : Record → String → Int → ResolverState σ → Result × ResolverState σ)
    (r : Record) (current : Result) (ip : GoIP) (domain sender helo : String)
    (now : Int) (depth : Int) (st : ResolverState σ) : Result × ResolverState σ :=
  if depth > 10 then (⟨PermError, "include/redirect depth exceeded"⟩, st)
  else if getModifier r ModifierRedirect = "" then (current, st)
  else if r.AllExists then (current, st)
  else
    match incrementDNSMechanismCounter R st with
    | (some res, st) => (res, st)
    | (none, st) =>
      match expandDomainSpec R (getModifier r ModifierRedirect)
          ⟨ip, domain, sender, helo, "", "", now⟩ MacroPurpose.domainSpec st with
      | (.error res, st) => (res, st)
      | (.ok expandedRedir, st) =>
        if R.isVisited expandedRedir st then
          (⟨PermError, "circular reference detected in redirect"⟩, st)
        else
          match R.lookupRecord expandedRedir (R.markVisited expandedRedir st) with
          | (.error res, st) =>
            if res.Status = NoneSt then
              (⟨PermError, "redirect domain has no SPF record"⟩,
               R.unmarkVisited expandedRedir st)
            else (res, R.unmarkVisited expandedRedir st)
          | (.ok rec, st) =>
            match evalRec rec expandedRedir (depth + 1) st with
            | (eres, st) => (eres, R.unmarkVisited expandedRedir st)

/-- `Record.Evaluate` (src/spf/evaluate.go).  `fuel` only forces the
termination of the include/redirect recursion, which the Go code bounds
through its `depth > 10` guards; the fuel-exhausted branch returns the
same permerror as the depth guard, and every theorem below holds for all
fuel values. -/
def spfEvaluate {σ : Type} (R : SPFResolver σ) (ip : GoIP) (sender helo : String)
    (now : Int) :
    Nat → Record → String → Int → ResolverState σ → Result × ResolverState σ
  | 0, _, _, _, st => (⟨PermError, "include/redirect depth exceeded"⟩, st)
  | fuel + 1, r, domain, depth, st =>
    if depth > 10 then (⟨PermError, "include/redirect depth exceeded"⟩, st)
    else
      match evaluateMechanisms R (spfEvaluate R ip sender helo now fuel) r ip
          domain sender helo now depth st with
      | (res, st) =>
        handleRedirectModifier R (spfEvaluate R ip sender helo now fuel) r res ip
          domain sender helo now depth st

/-! #### C1: the redirect modifier is not gated on a mechanism match -/

/-- The record served for `other.example`: `v=spf1 -all`. -/
def c1RecordAll : Record :=
  ⟨"v=spf1 -all", "spf1", [⟨MechanismAll, "", QualifierFail⟩], [], "", true⟩

/-- The evaluated record: `v=spf1 ip4:192.0.2.0/24 redirect=other.example`. -/
def c1Record : Record :=
  ⟨"v=spf1 ip4:192.0.2.0/24 redirect=other.example", "spf1",
   [⟨MechanismIP4, "192.0.2.0/24", QualifierPass⟩],
   [⟨ModifierRedirect, "other.example"⟩], "", false⟩

/-- A concrete resolver for closed evaluation runs: macro-free strings
expand to themselves (as `dnsResolverImpl.ReplaceMacroValues` does on
macro-free input), `other.example` serves `v=spf1 -all`, the other
lookups fail, and the visited set lives in the inner state. -/
def c1Resolver : SPFResolver (List String) :=
  { hasDnsImpl := true
    ReplaceMacroValues := fun s _ _ st => (.ok s, st)
    lookupTXT := fun _ st => (.error ⟨TempError, "TXT lookup error"⟩, st)
    lookupIP := fun _ st => (.error ⟨TempError, "IP lookup error"⟩, st)
    lookupMX := fun _ st => (.error ⟨TempError, "MX lookup error"⟩, st)
    lookupPTR := fun _ st => (.error ⟨TempError, "PTR lookup error"⟩, st)
    lookupRecord := fun d st =>
      if d = "other.example" then (.ok c1RecordAll, st)
      else (.error ⟨NoneSt, "no SPF record found"⟩, st)
    isVisited := fun d st => st.inner.contains d
    markVisited := fun d st => { st with inner := d :: st.inner }
    unmarkVisited := fun d st => { st with inner := st.inner.filter (· ≠ d) }
    lookupA := fun _ st => (.error ⟨TempError, "IP lookup error"⟩, st) }

/-- C1: refuted — `Record.Evaluate` processes `redirect=` even when a
mechanism matched.  For `v=spf1 ip4:192.0.2.0/24 redirect=other.example`
queried with client IP 192.0.2.3 (which the `ip4` mechanism matches, so
the mechanism phase yields `pass` / `matched ip4`), the final result is
the redirect target's `fail` / `DEFAULT`: `handleRedirectModifier` only
checks that a redirect value exists and `AllExists` is false, never
whether `evaluateMechanisms` already matched, contradicting the claimed
"processed only when no mechanism of the record matched". -/
theorem C1_redirect_not_gated :
    (evaluateMechanisms c1Resolver
        (spfEvaluate c1Resolver [192, 0, 2, 3] "sender@example.org" "helo.example.org" 0 11)
        c1Record [192, 0, 2, 3] "example.org" "sender@example.org" "helo.example.org"
        0 0 ⟨0, []⟩).1 = ⟨Pass, "matched ip4"⟩ ∧
    (spfEvaluate c1Resolver [192, 0, 2, 3] "sender@example.org" "helo.example.org" 0 12
        c1Record "example.org" 0 ⟨0, []⟩).1 = ⟨Fail, "DEFAULT"⟩ ∧
    (⟨Fail, "DEFAULT"⟩ : Result) ≠ ⟨Pass, "matched ip4"⟩ := by
  refine ⟨rfl, rfl, by decide⟩

/-! #### C5: the shared 10-term DNS budget -/

/-- A result that rejects the evaluation *because of the 10-term budget*:
the permerror produced by `incrementDNSMechanismCounter`, possibly wrapped
by `expandDomainSpec` as a macro-expansion error (the `%{p}` path). -/
def budgetReject (r : Result) : Prop :=
  r.Status = PermError ∧
  (r.Reason = "DNS mechanism limit exceeded" ∨
   r.Reason = "macro expansion error: DNS mechanism limit exceeded")

instance (r : Result) : Decidable (budgetReject r) := by
  unfold budgetReject; infer_instance

/-- The counter discipline obeyed by the package's resolvers, stated as
hypotheses on an abstract resolver: plain lookups and visited-set updates
never touch the shared term counter (they only affect void counts and
zone state); `ReplaceMacroValues` can only advance the counter, leaves it
unchanged for the `exp=` purpose, never ends above 10 on success when it
started at most at 10 (each `%{p}` increment is checked immediately), and
only reports the budget error string after the counter has passed 10;
and no lookup fabricates a budget-rejection result of its own.  The
`dns_impl` field states that the resolver exposes the shared counter
(`dnsImpl`), as all resolvers of the package do. -/
structure ResolverOK {σ : Type} (R : SPFResolver σ) : Prop where
  dns_impl : R.hasDnsImpl = true
  rmv_mono : ∀ s ctx purpose st,
    st.termCounter ≤ ((R.ReplaceMacroValues s ctx purpose st).2).termCounter
  rmv_exp : ∀ s ctx st,
    ((R.ReplaceMacroValues s ctx MacroPurpose.exp st).2).termCounter = st.termCounter
  rmv_ok_le : ∀ s ctx purpose st out st',
    R.ReplaceMacroValues s ctx purpose st = (.ok out, st') →
    st.termCounter ≤ 10 → st'.termCounter ≤ 10
  rmv_err_budget : ∀ s ctx purpose st e st',
    R.ReplaceMacroValues s ctx purpose st = (.error e, st') →
    budgetReject ⟨PermError, "macro expansion error: " ++ e⟩ → st'.termCounter > 10
  txt_counter : ∀ s st, ((R.lookupTXT s st).2).termCounter = st.termCounter
  ip_counter : ∀ s st, ((R.lookupIP s st).2).termCounter = st.termCounter
  mx_counter : ∀ s st, ((R.lookupMX s st).2).termCounter = st.termCounter
  ptr_counter : ∀ s st, ((R.lookupPTR s st).2).termCounter = st.termCounter
  record_counter : ∀ s st, ((R.lookupRecord s st).2).termCounter = st.termCounter
  a_counter : ∀ s st, ((R.lookupA s st).2).termCounter = st.termCounter
  mark_counter : ∀ s st, (R.markVisited s st).termCounter = st.termCounter
  unmark_counter : ∀ s st, (R.unmarkVisited s st).termCounter = st.termCounter
  txt_noforge : ∀ s st r, (R.lookupTXT s st).1 = .error r → ¬ budgetReject r
  ip_noforge : ∀ s st r, (R.lookupIP s st).1 = .error r → ¬ budgetReject r
  mx_noforge : ∀ s st r, (R.lookupMX s st).1 = .error r → ¬ budgetReject r
  ptr_noforge : ∀ s st r, (R.lookupPTR s st).1 = .error r → ¬ budgetReject r
  record_noforge : ∀ s st r, (R.lookupRecord s st).1 = .error r → ¬ budgetReject r
  a_noforge : ∀ s st r, (R.lookupA s st).1 = .error r → ¬ budgetReject r

theorem stringAppendLeftCancel (p a b : String) (h : p ++ a = p ++ b) : a = b := by
  cases p with
  | mk pl =>
    cases a with
    | mk al =>
      cases b with
      | mk bl =>
        have hd : pl ++ al = pl ++ bl := congrArg String.data h
        exact congrArg String.mk (List.append_cancel_left hd)

/-- Behaviour of a single term-counter increment. -/
theorem inc_spec {σ : Type} (R : SPFResolver σ) (st : ResolverState σ) {o : Option Result}
    {st' : ResolverState σ} (h : incrementDNSMechanismCounter R st = (o, st')) :
    st.termCounter ≤ st'.termCounter ∧
    (o = none → st'.termCounter ≤ 10 ∨ st'.termCounter = st.termCounter) ∧
    (∀ r, o = some r → r.Status = PermError ∧
      r.Reason = "DNS mechanism limit exceeded" ∧ st'.termCounter > 10) := by
  unfold incrementDNSMechanismCounter at h
  by_cases hd : R.hasDnsImpl = true
  · rw [if_pos hd] at h
    by_cases hc : st.termCounter + 1 > 10
    · rw [if_pos hc] at h
      injection h with h1 h2
      subst h1; subst h2
      refine ⟨by change st.termCounter ≤ st.termCounter + 1; omega, ?_, ?_⟩
      · intro hno; cases hno
      · intro r hr
        injection hr with hr
        subst hr
        exact ⟨rfl, rfl, by change st.termCounter + 1 > 10; exact hc⟩
    · rw [if_neg hc] at h
      injection h with h1 h2
      subst h1; subst h2
      refine ⟨by change st.termCounter ≤ st.termCounter + 1; omega, ?_, ?_⟩
      · intro _
        left
        change st.termCounter + 1 ≤ 10
        omega
      · intro r hr; cases hr
  · rw [if_neg hd] at h
    injection h with h1 h2
    subst h1; subst h2
    exact ⟨le_refl _, fun _ => Or.inr rfl, fun r hr => by cases hr⟩

/-- Behaviour of the extra-increment loops (MX / PTR record counts). -/
theorem termExtra_spec {σ : Type} (R : SPFResolver σ) :
    ∀ (n : Nat) (st : ResolverState σ) {o : Option Result} {st' : ResolverState σ},
    termExtraIncrements R n st = (o, st') →
    st.termCounter ≤ st'.termCounter ∧
    (o = none → st'.termCounter ≤ 10 ∨ st'.termCounter = st.termCounter) ∧
    (∀ r, o = some r → r.Status = PermError ∧
      r.Reason = "DNS mechanism limit exceeded" ∧ st'.termCounter > 10) := by
  intro n
  induction n with
  | zero =>
    intro st o st' h
    unfold termExtraIncrements at h
    injection h with h1 h2
    subst h1; subst h2
    exact ⟨le_refl _, fun _ => Or.inr rfl, fun r hr => by cases hr⟩
  | succ n ih => -- continued below
    intro st o st' h
    unfold termExtraIncrements at h
    split at h
    next res sti hinc =>
      obtain ⟨hmono, hok, herr⟩ := inc_spec R st hinc
      injection h with h1 h2
      subst h1; subst h2
      refine ⟨hmono, ?_, ?_⟩
      · intro hno; cases hno
      · intro r hr
        injection hr with hr
        subst hr
        exact herr res rfl
    next sti hinc =>
      obtain ⟨hmono, hok, herr⟩ := inc_spec R st hinc
      obtain ⟨hmono', hok', herr'⟩ := ih sti h
      refine ⟨le_trans hmono hmono', ?_, herr'⟩
      intro hno
      rcases hok' hno with h1 | h1
      · exact Or.inl h1
      · rcases hok rfl with h2 | h2
        · exact Or.inl (by omega)
        · exact Or.inr (by omega)

/-- Counter discipline of `expandDomainSpec`: monotone, inert for the
`exp=` purpose, bounded by 10 on success, permerror on failure, and a
budget-shaped failure certifies a crossed counter. -/
theorem expandDomainSpec_inv {σ : Type} {R : SPFResolver σ} (OK : ResolverOK R)
    (d : String) (ctx : MacroContext) (purpose : MacroPurpose) (st : ResolverState σ)
    {out : Except Result String} {st' : ResolverState σ}
    (h : expandDomainSpec R d ctx purpose st = (out, st')) :
    st.termCounter ≤ st'.termCounter ∧
    (purpose = MacroPurpose.exp → st'.termCounter = st.termCounter) ∧
    (∀ s, out = .ok s → st.termCounter ≤ 10 → st'.termCounter ≤ 10) ∧
    (∀ r, out = .error r → r.Status = PermError) ∧
    (∀ r, out = .error r → budgetReject r → st'.termCounter > 10) := by
  unfold expandDomainSpec at h
  split at h
  next e st1 hr =>
    injection h with h1 h2
    subst h1; subst h2
    refine ⟨?_, ?_, ?_, ?_, ?_⟩
    · have := OK.rmv_mono d ctx purpose st
      rw [hr] at this
      exact this
    · intro hp
      subst hp
      have := OK.rmv_exp d ctx st
      rw [hr] at this
      exact this
    · intro s hs; cases hs
    · intro r hrr
      injection hrr with hrr
      subst hrr
      rfl
    · intro r hrr hb
      injection hrr with hrr
      subst hrr
      exact OK.rmv_err_budget d ctx purpose st e st1 hr hb
  next expanded st1 hr =>
    have hmono : st.termCounter ≤ st1.termCounter := by
      have := OK.rmv_mono d ctx purpose st
      rw [hr] at this
      exact this
    have hexp : purpose = MacroPurpose.exp → st1.termCounter = st.termCounter := by
      intro hp
      subst hp
      have := OK.rmv_exp d ctx st
      rw [hr] at this
      exact this
    have hle : st.termCounter ≤ 10 → st1.termCounter ≤ 10 :=
      OK.rmv_ok_le d ctx purpose st expanded st1 hr
    by_cases hc : String.mk (goTrimSpace expanded.toList) = ""
    · rw [if_pos hc] at h
      injection h with h1 h2
      subst h1; subst h2
      refine ⟨hmono, hexp, ?_, ?_, ?_⟩
      · intro s hs; cases hs
      · intro r hrr
        injection hrr with hrr
        subst hrr
        rfl
      · intro r hrr hb
        injection hrr with hrr
        subst hrr
        rcases hb.2 with hb2 | hb2 <;> exact absurd hb2 (by decide)
    · rw [if_neg hc] at h
      injection h with h1 h2
      subst h1; subst h2
      refine ⟨hmono, hexp, ?_, ?_, ?_⟩
      · intro s _ h10
        exact hle h10
      · intro r hrr; cases hrr
      · intro r hrr _; cases hrr

/-- Counter discipline of `Record.handleExpModifier`: monotone; the
counter can only cross 10 through the leading increment, which surfaces
as a permerror; a budget-shaped error certifies a crossed counter; and a
successful outcome keeps the status of the incoming result. -/
theorem handleExpModifier_inv {σ : Type} {R : SPFResolver σ} (OK : ResolverOK R)
    (r : Record) (result : Result) (ip : GoIP) (domain sender helo : String)
    (now : Int) (st : ResolverState σ) {out : Except Result Result}
    {st' : ResolverState σ}
    (h : handleExpModifier R r result ip domain sender helo now st = (out, st')) :
    st.termCounter ≤ st'.termCounter ∧
    (st.termCounter ≤ 10 → st'.termCounter > 10 →
      ∃ e, out = .error e ∧ e.Status = PermError) ∧
    (st.termCounter ≤ 10 → ∀ e, out = .error e → budgetReject e → st'.termCounter > 10) ∧
    (∀ v, out = .ok v → v.Status = result.Status) := by
  unfold handleExpModifier at h
  by_cases h1 : result.Status ≠ Fail
  · rw [if_pos h1] at h
    injection h with ho hs
    subst ho; subst hs
    refine ⟨le_refl _, ?_, ?_, ?_⟩
    · intro h10 hgt; omega
    · intro _ e he; cases he
    · intro v hv
      injection hv with hv
      subst hv
      rfl
  · rw [if_neg h1] at h
    by_cases h2 : r.Exp = ""
    · rw [if_pos h2] at h
      injection h with ho hs
      subst ho; subst hs
      refine ⟨le_refl _, ?_, ?_, ?_⟩
      · intro h10 hgt; omega
      · intro _ e he; cases he
      · intro v hv
        injection hv with hv
        subst hv
        rfl
    · rw [if_neg h2] at h
      by_cases h3 : String.mk (goTrimSpace r.Exp.toList) = ""
      · rw [if_pos h3] at h
        injection h with ho hs
        subst ho; subst hs
        refine ⟨le_refl _, ?_, ?_, ?_⟩
        · intro h10 hgt; omega
        · intro _ e he hb
          injection he with he
          subst he
          rcases hb.2 with hb2 | hb2 <;> exact absurd hb2 (by decide)
        · intro v hv; cases hv
      · rw [if_neg h3] at h
        split at h
        next res stinc hinc =>
          injection h with ho hs
          subst ho; subst hs
          obtain ⟨hm, _, herr⟩ := inc_spec R st hinc
          obtain ⟨hrs, _, hgt⟩ := herr res rfl
          refine ⟨hm, ?_, ?_, ?_⟩
          · intro _ _; exact ⟨res, rfl, hrs⟩
          · intro _ e he _
            exact hgt
          · intro v hv; cases hv
        next stinc hinc =>
          obtain ⟨hm0, hok0, _⟩ := inc_spec R st hinc
          split at h
          next e st2 hr =>
            injection h with ho hs
            subst ho; subst hs
            have hpres : st2.termCounter = stinc.termCounter := by
              have := OK.rmv_exp r.Exp ⟨ip, domain, sender, helo, "", domain, now⟩ stinc
              rw [hr] at this
              exact this
            refine ⟨by omega, ?_, ?_, ?_⟩
            · intro h10 hgt
              rcases hok0 rfl with hc | hc <;> omega
            · intro _ e' he; cases he
            · intro v hv
              injection hv with hv
              subst hv
              rfl
          next expandedExp st2 hr =>
            have hpres : st2.termCounter = stinc.termCounter := by
              have := OK.rmv_exp r.Exp ⟨ip, domain, sender, helo, "", domain, now⟩ stinc
              rw [hr] at this
              exact this
            split at h
            next e2 st3 htxt =>
              injection h with ho hs
              subst ho; subst hs
              have htc : st3.termCounter = st2.termCounter := by
                have := OK.txt_counter
                  (if expandedExp.toList.length > 253 then
                    String.mk (intercalateChar '.'
                      (dropLabelsTo253 (splitOnChar '.' expandedExp.toList)))
                  else expandedExp) st2
                rw [htxt] at this
                exact this
              refine ⟨by omega, ?_, ?_, ?_⟩
              · intro h10 hgt
                rcases hok0 rfl with hc | hc <;> omega
              · intro _ e' he; cases he
              · intro v hv
                injection hv with hv
                subst hv
                rfl
            next expRecords st3 htxt =>
              have htc : st3.termCounter = st2.termCounter := by
                have := OK.txt_counter
                  (if expandedExp.toList.length > 253 then
                    String.mk (intercalateChar '.'
                      (dropLabelsTo253 (splitOnChar '.' expandedExp.toList)))
                  else expandedExp) st2
                rw [htxt] at this
                exact this
              by_cases h4 : expRecords.length = 0 ∨ expRecords.length > 1
              · rw [if_pos h4] at h
                injection h with ho hs
                subst ho; subst hs
                refine ⟨by omega, ?_, ?_, ?_⟩
                · intro h10 hgt
                  rcases hok0 rfl with hc | hc <;> omega
                · intro _ e' he; cases he
                · intro v hv
                  injection hv with hv
                  subst hv
                  rfl
              · rw [if_neg h4] at h
                split at h
                next e3 st4 hr2 =>
                  injection h with ho hs
                  subst ho; subst hs
                  have hpres2 : st4.termCounter = st3.termCounter := by
                    have := OK.rmv_exp (expRecords.headD "")
                      ⟨ip, domain, sender, helo, "", domain, now⟩ st3
                    rw [hr2] at this
                    exact this
                  refine ⟨by omega, ?_, ?_, ?_⟩
                  · intro h10 hgt
                    rcases hok0 rfl with hc | hc <;> omega
                  · intro _ e' he; cases he
                  · intro v hv
                    injection hv with hv
                    subst hv
                    rfl
                next expandedReason st4 hr2 =>
                  have hpres2 : st4.termCounter = st3.termCounter := by
                    have := OK.rmv_exp (expRecords.headD "")
                      ⟨ip, domain, sender, helo, "", domain, now⟩ st3
                    rw [hr2] at this
                    exact this
                  by_cases h5 : expandedReason.toList.any (fun c => c.toNat > 127) = true
                  · rw [if_pos h5] at h
                    injection h with ho hs
                    subst ho; subst hs
                    refine ⟨by omega, ?_, ?_, ?_⟩
                    · intro h10 hgt
                      rcases hok0 rfl with hc | hc <;> omega
                    · intro _ e' he; cases he
                    · intro v hv
                      injection hv with hv
                      subst hv
                      rfl
                  · rw [if_neg h5] at h
                    by_cases h6 : goContainsSub ['%', '{'] expandedReason.toList ∧
                        invalidExpMacroScan expandedReason.toList
                    · rw [if_pos h6] at h
                      injection h with ho hs
                      subst ho; subst hs
                      refine ⟨by omega, ?_, ?_, ?_⟩
                      · intro h10 hgt
                        rcases hok0 rfl with hc | hc <;> omega
                      · intro _ e' he; cases he
                      · intro v hv
                        injection hv with hv
                        subst hv
                        rfl
                    · rw [if_neg h6] at h
                      injection h with ho hs
                      subst ho; subst hs
                      refine ⟨by omega, ?_, ?_, ?_⟩
                      · intro h10 hgt
                        rcases hok0 rfl with hc | hc <;> omega
                      · intro _ e' he; cases he
                      · intro v hv
                        injection hv with hv
                        subst hv
                        rfl

/-- Invariant of a mechanism-matcher transition: the counter is monotone,
it can only end above 10 alongside a permerror result, and a
budget-shaped result certifies a crossed counter. -/
def MatchInv {σ : Type} (st st' : ResolverState σ) (o : Option Result) : Prop :=
  st.termCounter ≤ st'.termCounter ∧
  (st.termCounter ≤ 10 → st'.termCounter > 10 → ∃ r, o = some r ∧ r.Status = PermError) ∧
  (st.termCounter ≤ 10 → ∀ r, o = some r → budgetReject r → st'.termCounter > 10)

/-- Invariant of a result-producing transition (`Evaluate`,
`evaluateMechanisms`). -/
def EvalInv {σ : Type} (st st' : ResolverState σ) (res : Result) : Prop :=
  st.termCounter ≤ st'.termCounter ∧
  (st.termCounter ≤ 10 → st'.termCounter > 10 → res.Status = PermError) ∧
  (st.termCounter ≤ 10 → budgetReject res → st'.termCounter > 10)

/-- The recursive evaluator handed to the matchers satisfies the
evaluation invariant. -/
def EvalRecOK {σ : Type}
    (evalRec : Record → String → Int → ResolverState σ → Result × ResolverState σ) : Prop :=
  ∀ rec dom depth st,
    EvalInv st (evalRec rec dom depth st).2 (evalRec rec dom depth st).1

theorem stringDataAppend (p e : String) : (p ++ e).data = p.data ++ e.data := by
  cases p; cases e; rfl

/-- A string extending a prefix that no budget string starts with is not a
budget reason. -/
theorem ne_of_not_prefix {p s : String} (e : String)
    (hnp : ¬ (p.data <+: s.data)) : p ++ e ≠ s := by
  intro h
  exact hnp ⟨e.data, by rw [← stringDataAppend]; exact congrArg String.data h⟩

theorem no_budget_wrap {p : String} (e : String)
    (h1 : ¬ (p.data <+: "DNS mechanism limit exceeded".data))
    (h2 : ¬ (p.data <+: "macro expansion error: DNS mechanism limit exceeded".data)) :
    ¬ budgetReject ⟨PermError, p ++ e⟩ := by
  intro hb
  rcases hb.2 with hr | hr
  · exact ne_of_not_prefix e h1 hr
  · exact ne_of_not_prefix e h2 hr

theorem qualToStatus_ne_perm (q : String) : qualToStatus q ≠ PermError := by
  unfold qualToStatus
  split
  · decide
  · split
    · decide
    · split <;> decide

theorem matchIP4_noBudget (me : MechanismEntry) (ip : GoIP) :
    ∀ r, (matchIP4Mechanism me ip).2 = some r → ¬ budgetReject r := by
  intro r hr
  unfold matchIP4Mechanism at hr
  split at hr
  next e _ =>
    injection hr with hr
    subst hr
    exact no_budget_wrap e (by decide) (by decide)
  next _ net4 _ =>
    repeat' split at hr
    all_goals exact Option.noConfusion hr

theorem matchIP6_noBudget (me : MechanismEntry) (ip : GoIP) :
    ∀ r, (matchIP6Mechanism me ip).2 = some r → ¬ budgetReject r := by
  intro r hr
  unfold matchIP6Mechanism at hr
  split at hr
  next e _ =>
    injection hr with hr
    subst hr
    exact no_budget_wrap e (by decide) (by decide)
  next _ net6 _ =>
    repeat' split at hr
    all_goals exact Option.noConfusion hr

/-- Counter discipline of `Record.matchAMechanism`. -/
theorem matchAMechanism_inv {σ : Type} {R : SPFResolver σ} (OK : ResolverOK R)
    (me : MechanismEntry) (ip : GoIP) (domain : String) (ctx : MacroContext)
    (st : ResolverState σ) {bo : Bool × Option Result} {st' : ResolverState σ}
    (h : matchAMechanism R me ip domain ctx st = (bo, st')) :
    MatchInv st st' bo.2 := by
  unfold matchAMechanism at h
  split at h
  next perr _ =>
    injection h with h1 h2
    subst h1; subst h2
    refine ⟨le_refl _, ?_, ?_⟩
    · intro h10 hgt; omega
    · intro _ r hr hb
      injection hr with hr
      subst hr
      exact absurd hb (no_budget_wrap perr (by decide) (by decide))
  next host v4bits v6bits _ =>
    by_cases hv : ¬ isValidDomainSpec (if host = "" then domain else host) = true
    · rw [if_pos hv] at h
      injection h with h1 h2
      subst h1; subst h2
      refine ⟨le_refl _, ?_, ?_⟩
      · intro h10 hgt; omega
      · intro _ r hr hb
        injection hr with hr
        subst hr
        exact absurd hb (by decide)
    · rw [if_neg hv] at h
      split at h
      next res st1 hexp =>
        injection h with h1 h2
        subst h1; subst h2
        obtain ⟨hm, _, _, hperm, hbud⟩ := expandDomainSpec_inv OK _ _ _ _ hexp
        refine ⟨hm, ?_, ?_⟩
        · intro _ _; exact ⟨res, rfl, hperm res rfl⟩
        · intro _ r hr hb
          injection hr with hr
          subst hr
          exact hbud res rfl hb
      next expandedHost st1 hexp =>
        obtain ⟨hm, _, hok, _, _⟩ := expandDomainSpec_inv OK _ _ _ _ hexp
        split at h
        next res st2 hip =>
          injection h with h1 h2
          subst h1; subst h2
          have hip1 : (R.lookupIP expandedHost st1).1 = .error res := by rw [hip]
          have hc : st2.termCounter = st1.termCounter := by
            have := OK.ip_counter expandedHost st1
            rw [hip] at this
            exact this
          refine ⟨by omega, ?_, ?_⟩
          · intro h10 hgt
            have := hok expandedHost rfl h10
            omega
          · intro _ r hr hb
            injection hr with hr
            subst hr
            exact absurd hb (OK.ip_noforge expandedHost st1 res hip1)
        next ips st2 hip =>
          have hc : st2.termCounter = st1.termCounter := by
            have := OK.ip_counter expandedHost st1
            rw [hip] at this
            exact this
          by_cases ha : (ips.any fun dip => dualCIDRMatch ip dip v4bits v6bits) = true
          · rw [if_pos ha] at h
            injection h with h1 h2
            subst h1; subst h2
            refine ⟨by omega, ?_, ?_⟩
            · intro h10 hgt
              have := hok expandedHost rfl h10
              omega
            · intro _ r hr; cases hr
          · rw [if_neg ha] at h
            injection h with h1 h2
            subst h1; subst h2
            refine ⟨by omega, ?_, ?_⟩
            · intro h10 hgt
              have := hok expandedHost rfl h10
              omega
            · intro _ r hr; cases hr

/-- The MX host loop neither touches the counter nor produces budget
results of its own. -/
theorem mxHostsLoop_inv {σ : Type} {R : SPFResolver σ} (OK : ResolverOK R)
    (ip : GoIP) (v4bits v6bits : Int) :
    ∀ (mxs : List MX) (st : ResolverState σ) {bo : Bool × Option Result}
      {st' : ResolverState σ},
    mxHostsLoop R ip v4bits v6bits mxs st = (bo, st') →
    st'.termCounter = st.termCounter ∧ (∀ r, bo.2 = some r → ¬ budgetReject r) := by
  intro mxs
  induction mxs with
  | nil =>
    intro st bo st' h
    unfold mxHostsLoop at h
    injection h with h1 h2
    subst h1; subst h2
    exact ⟨rfl, fun r hr => Option.noConfusion hr⟩
  | cons mx rest ih =>
    intro st bo st' h
    unfold mxHostsLoop at h
    split at h
    next res2 st1 hip =>
      injection h with h1 h2
      subst h1; subst h2
      have hip1 : (R.lookupIP mx.Host st).1 = .error res2 := by rw [hip]
      have hc : st1.termCounter = st.termCounter := by
        have := OK.ip_counter mx.Host st
        rw [hip] at this
        exact this
      refine ⟨hc, ?_⟩
      intro r hr
      injection hr with hr
      subst hr
      exact OK.ip_noforge mx.Host st res2 hip1
    next ips st1 hip =>
      have hc : st1.termCounter = st.termCounter := by
        have := OK.ip_counter mx.Host st
        rw [hip] at this
        exact this
      by_cases h10 : ips.length > 10
      · rw [if_pos h10] at h
        injection h with h1 h2
        subst h1; subst h2
        refine ⟨hc, ?_⟩
        intro r hr
        injection hr with hr
        subst hr
        decide
      · rw [if_neg h10] at h
        by_cases ha : (ips.any fun dip => dualCIDRMatch ip dip v4bits v6bits) = true
        · rw [if_pos ha] at h
          injection h with h1 h2
          subst h1; subst h2
          exact ⟨hc, fun r hr => Option.noConfusion hr⟩
        · rw [if_neg ha] at h
          obtain ⟨hc', hnb⟩ := ih st1 h
          exact ⟨by omega, hnb⟩

/-- Counter discipline of `Record.matchMXMechanism`. -/
theorem matchMXMechanism_inv {σ : Type} {R : SPFResolver σ} (OK : ResolverOK R)
    (me : MechanismEntry) (ip : GoIP) (domain : String) (ctx : MacroContext)
    (st : ResolverState σ) {bo : Bool × Option Result} {st' : ResolverState σ}
    (h : matchMXMechanism R me ip domain ctx st = (bo, st')) :
    MatchInv st st' bo.2 := by
  unfold matchMXMechanism at h
  split at h
  next perr _ =>
    injection h with h1 h2
    subst h1; subst h2
    refine ⟨le_refl _, ?_, ?_⟩
    · intro h10 hgt; omega
    · intro _ r hr hb
      injection hr with hr
      subst hr
      exact absurd hb (no_budget_wrap perr (by decide) (by decide))
  next host v4bits v6bits _ =>
    split at h
    next res st1 hexp =>
      injection h with h1 h2
      subst h1; subst h2
      obtain ⟨hm, _, _, hperm, hbud⟩ := expandDomainSpec_inv OK _ _ _ _ hexp
      refine ⟨hm, ?_, ?_⟩
      · intro _ _; exact ⟨res, rfl, hperm res rfl⟩
      · intro _ r hr hb
        injection hr with hr
        subst hr
        exact hbud res rfl hb
    next expandedHost st1 hexp =>
      obtain ⟨hm, _, hok, _, _⟩ := expandDomainSpec_inv OK _ _ _ _ hexp
      split at h
      next res st2 hmx =>
        injection h with h1 h2
        subst h1; subst h2
        have hmx1 : (R.lookupMX expandedHost st1).1 = .error res := by rw [hmx]
        have hc : st2.termCounter = st1.termCounter := by
          have := OK.mx_counter expandedHost st1
          rw [hmx] at this
          exact this
        refine ⟨by omega, ?_, ?_⟩
        · intro h10 hgt
          have := hok expandedHost rfl h10
          omega
        · intro _ r hr hb
          injection hr with hr
          subst hr
          exact absurd hb (OK.mx_noforge expandedHost st1 res hmx1)
      next mxs st2 hmx =>
        have hc : st2.termCounter = st1.termCounter := by
          have := OK.mx_counter expandedHost st1
          rw [hmx] at this
          exact this
        split at h
        next res st3 hext =>
          injection h with h1 h2
          subst h1; subst h2
          obtain ⟨hm3, _, herr3⟩ := termExtra_spec R (mxs.length - 1) st2 hext
          obtain ⟨hrs, _, hgt3⟩ := herr3 res rfl
          refine ⟨by omega, ?_, ?_⟩
          · intro _ _; exact ⟨res, rfl, hrs⟩
          · intro _ r hr _
            exact hgt3
        next st3 hext =>
          obtain ⟨hm3, hok3, _⟩ := termExtra_spec R (mxs.length - 1) st2 hext
          obtain ⟨hc4, hnb⟩ := mxHostsLoop_inv OK ip v4bits v6bits mxs st3 h
          refine ⟨by omega, ?_, ?_⟩
          · intro h10 hgt
            have h1le := hok expandedHost rfl h10
            rcases hok3 rfl with hcase | hcase <;> omega
          · intro _ r hr hb
            exact absurd hb (hnb r hr)

/-- Counter discipline of `Record.matchExistsMechanism`. -/
theorem matchExistsMechanism_inv {σ : Type} {R : SPFResolver σ} (OK : ResolverOK R)
    (me : MechanismEntry) (ctx : MacroContext) (st : ResolverState σ)
    {bo : Bool × Option Result} {st' : ResolverState σ}
    (h : matchExistsMechanism R me ctx st = (bo, st')) :
    MatchInv st st' bo.2 := by
  unfold matchExistsMechanism at h
  split at h
  next perr _ =>
    injection h with h1 h2
    subst h1; subst h2
    refine ⟨le_refl _, ?_, ?_⟩
    · intro h10 hgt; omega
    · intro _ r hr hb
      injection hr with hr
      subst hr
      exact absurd hb (no_budget_wrap perr (by decide) (by decide))
  next host v4bits v6bits _ =>
    by_cases hcid : v4bits ≠ -1 ∨ v6bits ≠ -1
    · rw [if_pos hcid] at h
      injection h with h1 h2
      subst h1; subst h2
      refine ⟨le_refl _, ?_, ?_⟩
      · intro h10 hgt; omega
      · intro _ r hr hb
        injection hr with hr
        subst hr
        exact absurd hb (by decide)
    · rw [if_neg hcid] at h
      split at h
      next res st1 hexp =>
        injection h with h1 h2
        subst h1; subst h2
        obtain ⟨hm, _, _, hperm, hbud⟩ := expandDomainSpec_inv OK _ _ _ _ hexp
        refine ⟨hm, ?_, ?_⟩
        · intro _ _; exact ⟨res, rfl, hperm res rfl⟩
        · intro _ r hr hb
          injection hr with hr
          subst hr
          exact hbud res rfl hb
      next expandedHost st1 hexp =>
        obtain ⟨hm, _, hok, _, _⟩ := expandDomainSpec_inv OK _ _ _ _ hexp
        split at h
        next lookupRes st2 hla =>
          have hla1 : (R.lookupA expandedHost st1).1 = .error lookupRes := by rw [hla]
          have hc : st2.termCounter = st1.termCounter := by
            have := OK.a_counter expandedHost st1
            rw [hla] at this
            exact this
          by_cases htp : lookupRes.Status = TempError ∨ lookupRes.Status = PermError
          · rw [if_pos htp] at h
            injection h with h1 h2
            subst h1; subst h2
            refine ⟨by omega, ?_, ?_⟩
            · intro h10 hgt
              have := hok expandedHost rfl h10
              omega
            · intro _ r hr hb
              injection hr with hr
              subst hr
              exact absurd hb (OK.a_noforge expandedHost st1 lookupRes hla1)
          · rw [if_neg htp] at h
            injection h with h1 h2
            subst h1; subst h2
            refine ⟨by omega, ?_, ?_⟩
            · intro h10 hgt
              have := hok expandedHost rfl h10
              omega
            · intro _ r hr; cases hr
        next ips st2 hla =>
          injection h with h1 h2
          subst h1; subst h2
          have hc : st2.termCounter = st1.termCounter := by
            have := OK.a_counter expandedHost st1
            rw [hla] at this
            exact this
          refine ⟨by omega, ?_, ?_⟩
          · intro h10 hgt
            have := hok expandedHost rfl h10
            omega
          · intro _ r hr; cases hr

/-- The PTR target loop neither touches the counter nor yields any
mechanism result. -/
theorem ptrTargetsLoop_inv {σ : Type} {R : SPFResolver σ} (OK : ResolverOK R)
    (ip : GoIP) (edc : String) :
    ∀ (targets : List String) (st : ResolverState σ) {bo : Bool × Option Result}
      {st' : ResolverState σ},
    ptrTargetsLoop R ip edc targets st = (bo, st') →
    st'.termCounter = st.termCounter ∧ bo.2 = none := by
  intro targets
  induction targets with
  | nil =>
    intro st bo st' h
    unfold ptrTargetsLoop at h
    injection h with h1 h2
    subst h1; subst h2
    exact ⟨rfl, rfl⟩
  | cons target rest ih =>
    intro st bo st' h
    unfold ptrTargetsLoop at h
    by_cases hsfx : edc = "" ∨
        goHasSuffix (goToLowerStr edc.toList)
          (goToLowerStr (String.mk (goTrimSuffix ['.'] target.toList)).toList) = true
    · rw [if_pos hsfx] at h
      split at h
      next e st1 hip =>
        obtain ⟨hc, hnone⟩ := ih st1 h
        have hc1 : st1.termCounter = st.termCounter := by
          have := OK.ip_counter (String.mk (goTrimSuffix ['.'] target.toList)) st
          rw [hip] at this
          exact this
        exact ⟨by omega, hnone⟩
      next ips st1 hip =>
        have hc1 : st1.termCounter = st.termCounter := by
          have := OK.ip_counter (String.mk (goTrimSuffix ['.'] target.toList)) st
          rw [hip] at this
          exact this
        by_cases ha : ((if ips.length > 10 then ips.take 10 else ips).any
            fun dip => ipEqual dip ip) = true
        · rw [if_pos ha] at h
          injection h with h1 h2
          subst h1; subst h2
          exact ⟨hc1, rfl⟩
        · rw [if_neg ha] at h
          obtain ⟨hc, hnone⟩ := ih st1 h
          exact ⟨by omega, hnone⟩
    · rw [if_neg hsfx] at h
      exact ih st h

/-- Counter discipline of the body of `Record.matchPTRMechanism`. -/
theorem matchPTRBody_inv {σ : Type} {R : SPFResolver σ} (OK : ResolverOK R)
    (me : MechanismEntry) (ip : GoIP) (domain : String) (ctx : MacroContext)
    (targets0 : List String) (st : ResolverState σ) {bo : Bool × Option Result}
    {st' : ResolverState σ}
    (h : matchPTRBody R me ip domain ctx targets0 st = (bo, st')) :
    MatchInv st st' bo.2 := by
  unfold matchPTRBody at h
  split at h
  next res st1 hext =>
    injection h with h1 h2
    subst h1; subst h2
    obtain ⟨hm, _, herr⟩ := termExtra_spec R _ st hext
    obtain ⟨hrs, _, hgt⟩ := herr res rfl
    refine ⟨hm, ?_, ?_⟩
    · intro _ _; exact ⟨res, rfl, hrs⟩
    · intro _ r hr _; exact hgt
  next st1 hext =>
    obtain ⟨hm1, hok1, _⟩ := termExtra_spec R _ st hext
    split at h
    next res st2 hexp =>
      injection h with h1 h2
      subst h1; subst h2
      obtain ⟨hm2, _, _, hperm, hbud⟩ := expandDomainSpec_inv OK _ _ _ _ hexp
      refine ⟨by omega, ?_, ?_⟩
      · intro _ _; exact ⟨res, rfl, hperm res rfl⟩
      · intro _ r hr hb
        injection hr with hr
        subst hr
        exact hbud res rfl hb
    next edc st2 hexp =>
      obtain ⟨hm2, _, hok2, _, _⟩ := expandDomainSpec_inv OK _ _ _ _ hexp
      obtain ⟨hc3, hnone⟩ := ptrTargetsLoop_inv OK ip edc _ st2 h
      refine ⟨by omega, ?_, ?_⟩
      · intro h10 hgt
        rcases hok1 rfl with hcase | hcase
        · have := hok2 edc rfl (by omega)
          omega
        · have := hok2 edc rfl (by omega)
          omega
      · intro _ r hr
        rw [hnone] at hr
        cases hr

/-- Counter discipline of `Record.matchPTRMechanism`. -/
theorem matchPTRMechanism_inv {σ : Type} {R : SPFResolver σ} (OK : ResolverOK R)
    (me : MechanismEntry) (ip : GoIP) (domain : String) (ctx : MacroContext)
    (st : ResolverState σ) {bo : Bool × Option Result} {st' : ResolverState σ}
    (h : matchPTRMechanism R me ip domain ctx st = (bo, st')) :
    MatchInv st st' bo.2 := by
  unfold matchPTRMechanism at h
  have hcnt : ∀ targets0 st1, ptrLookupTargets R ip st = (targets0, st1) →
      st1.termCounter = st.termCounter := by
    intro targets0 st1 hpt
    unfold ptrLookupTargets at hpt
    split at hpt
    next e st2 hp =>
      injection hpt with h1 h2
      subst h2
      have := OK.ptr_counter (ipString ip) st
      rw [hp] at this
      exact this
    next ts st2 hp =>
      injection hpt with h1 h2
      subst h2
      have := OK.ptr_counter (ipString ip) st
      rw [hp] at this
      exact this
  cases hpt : ptrLookupTargets R ip st with
  | mk targets0 st1 =>
    rw [hpt] at h
    replace h : matchPTRBody R me ip domain ctx targets0 st1 = (bo, st') := h
    have hc1 : st1.termCounter = st.termCounter := hcnt targets0 st1 hpt
    obtain ⟨hm, hcross, hbud⟩ := matchPTRBody_inv OK me ip domain ctx targets0 st1 h
    refine ⟨by omega, ?_, ?_⟩
    · intro h10 hgt
      exact hcross (by omega) hgt
    · intro h10 r hr hb
      exact hbud (by omega) r hr hb

/-- Counter discipline of `Record.matchIncludeMechanism`, given that the
recursive evaluator satisfies the evaluation invariant. -/
theorem matchIncludeMechanism_inv {σ : Type} {R : SPFResolver σ} (OK : ResolverOK R)
    {evalRec : Record → String → Int → ResolverState σ → Result × ResolverState σ}
    (hev : EvalRecOK evalRec) (me : MechanismEntry) (depth : Int) (ctx : MacroContext)
    (st : ResolverState σ) {bo : Bool × Option Result} {st' : ResolverState σ}
    (h : matchIncludeMechanism R evalRec me depth ctx st = (bo, st')) :
    MatchInv st st' bo.2 := by
  unfold matchIncludeMechanism at h
  by_cases hd : depth > 10
  · rw [if_pos hd] at h
    injection h with h1 h2
    subst h1; subst h2
    refine ⟨le_refl _, ?_, ?_⟩
    · intro h10 hgt; omega
    · intro _ r hr hb
      injection hr with hr
      subst hr
      exact absurd hb (by decide)
  · rw [if_neg hd] at h
    by_cases he : me.Value = ""
    · rw [if_pos he] at h
      injection h with h1 h2
      subst h1; subst h2
      refine ⟨le_refl _, ?_, ?_⟩
      · intro h10 hgt; omega
      · intro _ r hr hb
        injection hr with hr
        subst hr
        exact absurd hb (by decide)
    · rw [if_neg he] at h
      by_cases hv : ¬ isValidDomainSpec me.Value = true
      · rw [if_pos hv] at h
        injection h with h1 h2
        subst h1; subst h2
        refine ⟨le_refl _, ?_, ?_⟩
        · intro h10 hgt; omega
        · intro _ r hr hb
          injection hr with hr
          subst hr
          exact absurd hb (by decide)
      · rw [if_neg hv] at h
        split at h
        next res st1 hexp =>
          injection h with h1 h2
          subst h1; subst h2
          obtain ⟨hm, _, _, hperm, hbud⟩ := expandDomainSpec_inv OK _ _ _ _ hexp
          refine ⟨hm, ?_, ?_⟩
          · intro _ _; exact ⟨res, rfl, hperm res rfl⟩
          · intro _ r hr hb
            injection hr with hr
            subst hr
            exact hbud res rfl hb
        next dom st1 hexp =>
          obtain ⟨hm1, _, hok1, _, _⟩ := expandDomainSpec_inv OK _ _ _ _ hexp
          by_cases hvis : R.isVisited dom st1 = true
          · rw [if_pos hvis] at h
            injection h with h1 h2
            subst h1; subst h2
            refine ⟨hm1, ?_, ?_⟩
            · intro h10 hgt
              have := hok1 dom rfl h10
              omega
            · intro _ r hr hb
              injection hr with hr
              subst hr
              exact absurd hb (by decide)
          · rw [if_neg hvis] at h
            have hmk : (R.markVisited dom st1).termCounter = st1.termCounter :=
              OK.mark_counter dom st1
            split at h
            next res st2 hlr =>
              have hlr1 : (R.lookupRecord dom (R.markVisited dom st1)).1 = .error res := by
                rw [hlr]
              have hc2 : st2.termCounter = st1.termCounter := by
                have h0 := OK.record_counter dom (R.markVisited dom st1)
                rw [hlr] at h0
                exact h0.trans hmk
              have hum : (R.unmarkVisited dom st2).termCounter = st2.termCounter :=
                OK.unmark_counter dom st2
              by_cases hn : res.Status = NoneSt
              · rw [if_pos hn] at h
                injection h with h1 h2
                subst h1; subst h2
                refine ⟨by omega, ?_, ?_⟩
                · intro h10 hgt
                  have := hok1 dom rfl h10
                  omega
                · intro _ r hr hb
                  injection hr with hr
                  subst hr
                  exact absurd hb (by decide)
              · rw [if_neg hn] at h
                injection h with h1 h2
                subst h1; subst h2
                refine ⟨by omega, ?_, ?_⟩
                · intro h10 hgt
                  have := hok1 dom rfl h10
                  omega
                · intro _ r hr hb
                  injection hr with hr
                  subst hr
                  exact absurd hb (OK.record_noforge dom (R.markVisited dom st1) res hlr1)
            next rec st2 hlr =>
              have hc2 : st2.termCounter = st1.termCounter := by
                have h0 := OK.record_counter dom (R.markVisited dom st1)
                rw [hlr] at h0
                exact h0.trans hmk
              split at h
              next ires st3 hrec =>
                have hinv : EvalInv st2 st3 ires := by
                  have h0 := hev rec dom (depth + 1) st2
                  rw [hrec] at h0
                  exact h0
                obtain ⟨hm3, hcross3, hbud3⟩ := hinv
                have hum : (R.unmarkVisited dom st3).termCounter = st3.termCounter :=
                  OK.unmark_counter dom st3
                by_cases hp : ires.Status = Pass
                · rw [if_pos hp] at h
                  injection h with h1 h2
                  subst h1; subst h2
                  refine ⟨by omega, ?_, ?_⟩
                  · intro h10 hgt
                    have hperm := hcross3 (by have := hok1 dom rfl h10; omega) (by omega)
                    rw [hp] at hperm
                    exact absurd hperm (by decide)
                  · intro _ r hr
                    cases hr
                · rw [if_neg hp] at h
                  by_cases htp : ires.Status = TempError ∨ ires.Status = PermError
                  · rw [if_pos htp] at h
                    injection h with h1 h2
                    subst h1; subst h2
                    refine ⟨by omega, ?_, ?_⟩
                    · intro h10 hgt
                      refine ⟨ires, rfl, ?_⟩
                      exact hcross3 (by have := hok1 dom rfl h10; omega) (by omega)
                    · intro h10 r hr hb
                      injection hr with hr
                      subst hr
                      have := hbud3 (by have := hok1 dom rfl h10; omega) hb
                      omega
                  · rw [if_neg htp] at h
                    injection h with h1 h2
                    subst h1; subst h2
                    refine ⟨by omega, ?_, ?_⟩
                    · intro h10 hgt
                      have hperm := hcross3 (by have := hok1 dom rfl h10; omega) (by omega)
                      exact absurd (Or.inr hperm) htp
                    · intro _ r hr
                      cases hr

/-- Composing a successful counter increment with a matcher invariant. -/
theorem MatchInv.after_inc {σ : Type} {R : SPFResolver σ} {st st1 st' : ResolverState σ}
    {o : Option Result} (hinc : incrementDNSMechanismCounter R st = (none, st1))
    (hmi : MatchInv st1 st' o) : MatchInv st st' o := by
  obtain ⟨hm0, hok0, _⟩ := inc_spec R st hinc
  obtain ⟨hm, hcr, hbud⟩ := hmi
  refine ⟨le_trans hm0 hm, ?_, ?_⟩
  · intro h10 hgt
    rcases hok0 rfl with hc | hc
    · exact hcr hc hgt
    · exact hcr (by omega) hgt
  · intro h10 r hr hb
    rcases hok0 rfl with hc | hc
    · exact hbud hc r hr hb
    · exact hbud (by omega) r hr hb

/-- Counter discipline of `Record.matchMechanism`. -/
theorem matchMechanism_inv {σ : Type} {R : SPFResolver σ} (OK : ResolverOK R)
    {evalRec : Record → String → Int → ResolverState σ → Result × ResolverState σ}
    (hev : EvalRecOK evalRec) (me : MechanismEntry) (ip : GoIP)
    (domain sender helo : String) (now depth : Int) (st : ResolverState σ)
    {bo : Bool × Option Result} {st' : ResolverState σ}
    (h : matchMechanism R evalRec me ip domain sender helo now depth st = (bo, st')) :
    MatchInv st st' bo.2 := by
  unfold matchMechanism at h
  by_cases h1 : me.Mechanism = MechanismAll
  · rw [if_pos h1] at h
    injection h with hb1 hb2
    subst hb1; subst hb2
    refine ⟨le_refl _, ?_, ?_⟩
    · intro h10 hgt; omega
    · intro _ r hr hb; exact Option.noConfusion hr
  · rw [if_neg h1] at h
    by_cases h2 : me.Mechanism = MechanismIP4
    · rw [if_pos h2] at h
      injection h with hb1 hb2
      subst hb1; subst hb2
      refine ⟨le_refl _, ?_, ?_⟩
      · intro h10 hgt; omega
      · intro _ r hr hb
        exact absurd hb (matchIP4_noBudget me ip r hr)
    · rw [if_neg h2] at h
      by_cases h3 : me.Mechanism = MechanismIP6
      · rw [if_pos h3] at h
        injection h with hb1 hb2
        subst hb1; subst hb2
        refine ⟨le_refl _, ?_, ?_⟩
        · intro h10 hgt; omega
        · intro _ r hr hb
          exact absurd hb (matchIP6_noBudget me ip r hr)
      · rw [if_neg h3] at h
        by_cases h4 : me.Mechanism = MechanismA
        · rw [if_pos h4] at h
          split at h
          next res st1 hinc =>
            injection h with hb1 hb2
            subst hb1; subst hb2
            obtain ⟨hm, _, herr⟩ := inc_spec R st hinc
            obtain ⟨hrs, _, hgt⟩ := herr res rfl
            exact ⟨hm, fun _ _ => ⟨res, rfl, hrs⟩, fun _ r hr _ => hgt⟩
          next st1 hinc =>
            exact MatchInv.after_inc hinc (matchAMechanism_inv OK me ip domain _ st1 h)
        · rw [if_neg h4] at h
          by_cases h5 : me.Mechanism = MechanismMX
          · rw [if_pos h5] at h
            split at h
            next res st1 hinc =>
              injection h with hb1 hb2
              subst hb1; subst hb2
              obtain ⟨hm, _, herr⟩ := inc_spec R st hinc
              obtain ⟨hrs, _, hgt⟩ := herr res rfl
              exact ⟨hm, fun _ _ => ⟨res, rfl, hrs⟩, fun _ r hr _ => hgt⟩
            next st1 hinc =>
              exact MatchInv.after_inc hinc (matchMXMechanism_inv OK me ip domain _ st1 h)
          · rw [if_neg h5] at h
            by_cases h6 : me.Mechanism = MechanismInclude
            · rw [if_pos h6] at h
              split at h
              next res st1 hinc =>
                injection h with hb1 hb2
                subst hb1; subst hb2
                obtain ⟨hm, _, herr⟩ := inc_spec R st hinc
                obtain ⟨hrs, _, hgt⟩ := herr res rfl
                exact ⟨hm, fun _ _ => ⟨res, rfl, hrs⟩, fun _ r hr _ => hgt⟩
              next st1 hinc =>
                exact MatchInv.after_inc hinc
                  (matchIncludeMechanism_inv OK hev me depth _ st1 h)
            · rw [if_neg h6] at h
              by_cases h7 : me.Mechanism = MechanismExists
              · rw [if_pos h7] at h
                split at h
                next res st1 hinc =>
                  injection h with hb1 hb2
                  subst hb1; subst hb2
                  obtain ⟨hm, _, herr⟩ := inc_spec R st hinc
                  obtain ⟨hrs, _, hgt⟩ := herr res rfl
                  exact ⟨hm, fun _ _ => ⟨res, rfl, hrs⟩, fun _ r hr _ => hgt⟩
                next st1 hinc =>
                  exact MatchInv.after_inc hinc (matchExistsMechanism_inv OK me _ st1 h)
              · rw [if_neg h7] at h
                by_cases h8 : me.Mechanism = MechanismPTR
                · rw [if_pos h8] at h
                  split at h
                  next res st1 hinc =>
                    injection h with hb1 hb2
                    subst hb1; subst hb2
                    obtain ⟨hm, _, herr⟩ := inc_spec R st hinc
                    obtain ⟨hrs, _, hgt⟩ := herr res rfl
                    exact ⟨hm, fun _ _ => ⟨res, rfl, hrs⟩, fun _ r hr _ => hgt⟩
                  next st1 hinc =>
                    exact MatchInv.after_inc hinc
                      (matchPTRMechanism_inv OK me ip domain _ st1 h)
                · rw [if_neg h8] at h
                  injection h with hb1 hb2
                  subst hb1; subst hb2
                  refine ⟨le_refl _, ?_, ?_⟩
                  · intro h10 hgt; omega
                  · intro _ r hr hb
                    injection hr with hr
                    subst hr
                    exact absurd hb (by decide)

/-- Counter discipline of the mechanism loop of
`Record.evaluateMechanisms`. -/
theorem evaluateMechanismsLoop_inv {σ : Type} {R : SPFResolver σ} (OK : ResolverOK R)
    {evalRec : Record → String → Int → ResolverState σ → Result × ResolverState σ}
    (hev : EvalRecOK evalRec) (r : Record) (ip : GoIP) (domain sender helo : String)
    (now depth : Int) :
    ∀ (mechs : List MechanismEntry) (st : ResolverState σ) {res : Result}
      {st' : ResolverState σ},
    evaluateMechanismsLoop R evalRec r ip domain sender helo now depth mechs st =
      (res, st') →
    EvalInv st st' res := by
  intro mechs
  induction mechs with
  | nil =>
    intro st res st' h
    unfold evaluateMechanismsLoop at h
    injection h with h1 h2
    subst h1; subst h2
    refine ⟨le_refl _, ?_, ?_⟩
    · intro h10 hgt; omega
    · intro _ hb; exact absurd hb (by decide)
  | cons me rest ih =>
    intro st res st' h
    unfold evaluateMechanismsLoop at h
    split at h
    next b mres st1 hmm =>
      injection h with h1 h2
      subst h1; subst h2
      have hmi : MatchInv st st1 (some mres) :=
        matchMechanism_inv OK hev me ip domain sender helo now depth st hmm
      obtain ⟨hm, hcr, hbud⟩ := hmi
      refine ⟨hm, ?_, ?_⟩
      · intro h10 hgt
        obtain ⟨r2, hr2, hp2⟩ := hcr h10 hgt
        injection hr2 with hr2
        rw [← hr2] at hp2
        exact hp2
      · intro h10 hb
        exact hbud h10 mres rfl hb
    next st1 hmm =>
      have hmi : MatchInv st st1 (none : Option Result) :=
        matchMechanism_inv OK hev me ip domain sender helo now depth st hmm
      obtain ⟨hm, hcr, _⟩ := hmi
      have hst1 : st.termCounter ≤ 10 → st1.termCounter ≤ 10 := by
        intro h10
        by_contra hgt
        obtain ⟨r2, hr2, _⟩ := hcr h10 (by omega)
        exact Option.noConfusion hr2
      split at h
      next expErr st2 hhe =>
        injection h with h1 h2
        subst h1; subst h2
        obtain ⟨hm2, hcr2, hbud2, _⟩ :=
          handleExpModifier_inv OK r ⟨qualToStatus me.Qualifier, "matched " ++ me.Mechanism⟩
            ip domain sender helo now st1 hhe
        refine ⟨le_trans hm hm2, ?_, ?_⟩
        · intro h10 hgt
          obtain ⟨e, he, hp⟩ := hcr2 (hst1 h10) hgt
          injection he with he
          rw [← he] at hp
          exact hp
        · intro h10 hb
          exact hbud2 (hst1 h10) expErr rfl hb
      next resOk st2 hhe =>
        injection h with h1 h2
        subst h1; subst h2
        obtain ⟨hm2, hcr2, _, hok2⟩ :=
          handleExpModifier_inv OK r ⟨qualToStatus me.Qualifier, "matched " ++ me.Mechanism⟩
            ip domain sender helo now st1 hhe
        refine ⟨le_trans hm hm2, ?_, ?_⟩
        · intro h10 hgt
          obtain ⟨e, he, _⟩ := hcr2 (hst1 h10) hgt
          exact Except.noConfusion he
        · intro h10 hb
          have hs := hok2 resOk rfl
          rcases hb with ⟨hb1, _⟩
          rw [hs] at hb1
          exact absurd hb1 (qualToStatus_ne_perm me.Qualifier)
    next st1 hmm =>
      have hmi : MatchInv st st1 (none : Option Result) :=
        matchMechanism_inv OK hev me ip domain sender helo now depth st hmm
      obtain ⟨hm, hcr, _⟩ := hmi
      have hst1 : st.termCounter ≤ 10 → st1.termCounter ≤ 10 := by
        intro h10
        by_contra hgt
        obtain ⟨r2, hr2, _⟩ := hcr h10 (by omega)
        exact Option.noConfusion hr2
      obtain ⟨hm3, hcr3, hbud3⟩ := ih st1 h
      refine ⟨le_trans hm hm3, ?_, ?_⟩
      · intro h10 hgt
        exact hcr3 (hst1 h10) hgt
      · intro h10 hb
        have := hbud3 (hst1 h10) hb
        omega

/-- A successful increment on a counter-exposing resolver: the counter
advanced by one and stayed within the budget. -/
theorem inc_none_dns {σ : Type} {R : SPFResolver σ} {st st1 : ResolverState σ}
    (hD : R.hasDnsImpl = true) (h : incrementDNSMechanismCounter R st = (none, st1)) :
    st1.termCounter = st.termCounter + 1 ∧ st.termCounter + 1 ≤ 10 := by
  unfold incrementDNSMechanismCounter at h
  rw [if_pos hD] at h
  split at h
  next hc =>
    exact absurd (congrArg Prod.fst h) (by simp)
  next hc =>
    injection h with h1 h2
    subst h2
    have hc' : ¬ (st.termCounter + 1 > 10) := hc
    exact ⟨rfl, by omega⟩

/-- Counter discipline of `Record.handleRedirectModifier`: monotone; with
a counter within budget, a crossing surfaces as permerror and a budget
result certifies a crossing (unless the incoming result is passed
through); with a counter already past 10, the result is either the
incoming one or a permerror. -/
theorem handleRedirectModifier_inv {σ : Type} {R : SPFResolver σ} (OK : ResolverOK R)
    {evalRec : Record → String → Int → ResolverState σ → Result × ResolverState σ}
    (hev : EvalRecOK evalRec) (r : Record) (current : Result) (ip : GoIP)
    (domain sender helo : String) (now depth : Int) (st : ResolverState σ)
    {res : Result} {st' : ResolverState σ}
    (h : handleRedirectModifier R evalRec r current ip domain sender helo now depth st =
      (res, st')) :
    st.termCounter ≤ st'.termCounter ∧
    (st.termCounter ≤ 10 → st'.termCounter > 10 → res.Status = PermError) ∧
    (st.termCounter ≤ 10 → budgetReject res → st'.termCounter > 10 ∨ res = current) ∧
    (st.termCounter > 10 → res = current ∨ res.Status = PermError) := by
  unfold handleRedirectModifier at h
  by_cases hd : depth > 10
  · rw [if_pos hd] at h
    injection h with h1 h2
    subst h1; subst h2
    refine ⟨le_refl _, fun _ _ => rfl, ?_, fun _ => Or.inr rfl⟩
    intro _ hb
    exact absurd hb (by decide)
  · rw [if_neg hd] at h
    by_cases hr0 : getModifier r ModifierRedirect = ""
    · rw [if_pos hr0] at h
      injection h with h1 h2
      subst h1; subst h2
      refine ⟨le_refl _, ?_, ?_, fun _ => Or.inl rfl⟩
      · intro h10 hgt; omega
      · intro _ _; exact Or.inr rfl
    · rw [if_neg hr0] at h
      by_cases hall : r.AllExists = true
      · rw [if_pos hall] at h
        injection h with h1 h2
        subst h1; subst h2
        refine ⟨le_refl _, ?_, ?_, fun _ => Or.inl rfl⟩
        · intro h10 hgt; omega
        · intro _ _; exact Or.inr rfl
      · rw [if_neg hall] at h
        split at h
        next res1 st1 hinc =>
          injection h with h1 h2
          subst h1; subst h2
          obtain ⟨hm, _, herr⟩ := inc_spec R st hinc
          obtain ⟨hrs, _, hgt⟩ := herr res1 rfl
          refine ⟨hm, fun _ _ => hrs, ?_, fun _ => Or.inr hrs⟩
          intro _ _
          exact Or.inl hgt
        next st1 hinc =>
          obtain ⟨hst1, hle⟩ := inc_none_dns OK.dns_impl hinc
          have hvac : ¬ st.termCounter > 10 := by omega
          split at h
          next res1 st2 hexp =>
            injection h with h1 h2
            subst h1; subst h2
            obtain ⟨hm2, _, _, hperm, hbud⟩ := expandDomainSpec_inv OK _ _ _ _ hexp
            refine ⟨by omega, fun _ _ => hperm res1 rfl, ?_, fun hgt => absurd hgt hvac⟩
            intro _ hb
            exact Or.inl (hbud res1 rfl hb)
          next expandedRedir st2 hexp =>
            obtain ⟨hm2, _, hok2, _, _⟩ := expandDomainSpec_inv OK _ _ _ _ hexp
            have hst2 : st2.termCounter ≤ 10 := hok2 expandedRedir rfl (by omega)
            by_cases hvis : R.isVisited expandedRedir st2 = true
            · rw [if_pos hvis] at h
              injection h with h1 h2
              subst h1; subst h2
              refine ⟨by omega, fun _ _ => rfl, ?_, fun hgt => absurd hgt hvac⟩
              intro _ hb
              exact absurd hb (by decide)
            · rw [if_neg hvis] at h
              have hmk : (R.markVisited expandedRedir st2).termCounter = st2.termCounter :=
                OK.mark_counter expandedRedir st2
              split at h
              next res1 st3 hlr =>
                have hlr1 :
                    (R.lookupRecord expandedRedir (R.markVisited expandedRedir st2)).1 =
                      .error res1 := by rw [hlr]
                have hc3 : st3.termCounter = st2.termCounter := by
                  have h0 := OK.record_counter expandedRedir (R.markVisited expandedRedir st2)
                  rw [hlr] at h0
                  exact h0.trans hmk
                have hum : (R.unmarkVisited expandedRedir st3).termCounter =
                    st3.termCounter := OK.unmark_counter expandedRedir st3
                by_cases hn : res1.Status = NoneSt
                · rw [if_pos hn] at h
                  injection h with h1 h2
                  subst h1; subst h2
                  refine ⟨by omega, fun _ _ => rfl, ?_, fun hgt => absurd hgt hvac⟩
                  intro _ hb
                  exact absurd hb (by decide)
                · rw [if_neg hn] at h
                  injection h with h1 h2
                  subst h1; subst h2
                  refine ⟨by omega, ?_, ?_, fun hgt => absurd hgt hvac⟩
                  · intro h10 hgt
                    exact absurd hgt (by omega)
                  · intro _ hb
                    exact absurd hb
                      (OK.record_noforge expandedRedir (R.markVisited expandedRedir st2)
                        res1 hlr1)
              next rec st3 hlr =>
                have hc3 : st3.termCounter = st2.termCounter := by
                  have h0 := OK.record_counter expandedRedir (R.markVisited expandedRedir st2)
                  rw [hlr] at h0
                  exact h0.trans hmk
                split at h
                next eres st4 hrec =>
                  injection h with h1 h2
                  subst h1; subst h2
                  have hinv : EvalInv st3 st4 eres := by
                    have h0 := hev rec expandedRedir (depth + 1) st3
                    rw [hrec] at h0
                    exact h0
                  obtain ⟨hm4, hcr4, hbud4⟩ := hinv
                  have hum : (R.unmarkVisited expandedRedir st4).termCounter =
                      st4.termCounter := OK.unmark_counter expandedRedir st4
                  refine ⟨by omega, ?_, ?_, fun hgt => absurd hgt hvac⟩
                  · intro h10 hgt
                    exact hcr4 (by omega) (by omega)
                  · intro _ hb
                    have := hbud4 (by omega) hb
                    exact Or.inl (by omega)

/-- Counter discipline of `Record.Evaluate`, for every fuel value. -/
theorem spfEvaluate_inv {σ : Type} {R : SPFResolver σ} (OK : ResolverOK R)
    (ip : GoIP) (sender helo : String) (now : Int) :
    ∀ fuel : Nat, EvalRecOK (spfEvaluate R ip sender helo now fuel) := by
  intro fuel
  induction fuel with
  | zero =>
    intro rec dom depth st
    show EvalInv st st ⟨PermError, "include/redirect depth exceeded"⟩
    exact ⟨le_refl _, fun _ _ => rfl, fun _ hb => absurd hb (by decide)⟩
  | succ fuel ih =>
    intro rec dom depth st
    cases heval : spfEvaluate R ip sender helo now (fuel + 1) rec dom depth st with
    | mk res st' =>
      show EvalInv st st' res
      unfold spfEvaluate at heval
      by_cases hd : depth > 10
      · rw [if_pos hd] at heval
        injection heval with h1 h2
        subst h1; subst h2
        exact ⟨le_refl _, fun _ _ => rfl, fun _ hb => absurd hb (by decide)⟩
      · rw [if_neg hd] at heval
        split at heval
        next res1 st1 hem =>
          unfold evaluateMechanisms at hem
          obtain ⟨hm1, hcr1, hbud1⟩ :=
            evaluateMechanismsLoop_inv OK ih rec ip dom sender helo now depth
              rec.Mechanisms st hem
          obtain ⟨hm2, hcr2, hbud2, hbig2⟩ :=
            handleRedirectModifier_inv OK ih rec res1 ip dom sender helo now depth
              st1 heval
          refine ⟨le_trans hm1 hm2, ?_, ?_⟩
          · intro h10 hgt
            by_cases hx : st1.termCounter ≤ 10
            · exact hcr2 hx hgt
            · have hp1 := hcr1 h10 (by omega)
              rcases hbig2 (by omega) with hc | hc
              · rw [hc]; exact hp1
              · exact hc
          · intro h10 hb
            by_cases hx : st1.termCounter ≤ 10
            · rcases hbud2 hx hb with hc | hc
              · omega
              · have := hbud1 h10 (by rw [← hc]; exact hb)
                omega
            · omega

/-- C5: the shared 10-term DNS budget.  For any resolver obeying the
package's counter discipline (`ResolverOK`) and any record, starting an
evaluation with the term counter within budget: if the evaluation ends
with the counter past 10 — that is, the DNS-consuming terms (`include`,
`a`, `mx`, `exists`, `ptr`, `redirect`, the extra MX/PTR record terms and
`%{p}` expansions, all of which advance this counter and nothing else
does) exceeded the budget — the status is permerror; and if the counter
ends at 10 or less (e.g. exactly 10 terms were consumed), the outcome is
not a budget rejection (neither the direct `DNS mechanism limit exceeded`
permerror nor its macro-wrapped form). -/
theorem C5_dns_budget {σ : Type} (R : SPFResolver σ) (OK : ResolverOK R)
    (ip : GoIP) (sender helo : String) (now : Int) (fuel : Nat) (rec : Record)
    (domain : String) (st : ResolverState σ) (h0 : st.termCounter ≤ 10) :
    ((spfEvaluate R ip sender helo now fuel rec domain 0 st).2.termCounter > 10 →
      (spfEvaluate R ip sender helo now fuel rec domain 0 st).1.Status = PermError) ∧
    ((spfEvaluate R ip sender helo now fuel rec domain 0 st).2.termCounter ≤ 10 →
      ¬ budgetReject (spfEvaluate R ip sender helo now fuel rec domain 0 st).1) := by
  obtain ⟨hm, hcr, hbud⟩ := spfEvaluate_inv OK ip sender helo now fuel rec domain 0 st
  refine ⟨hcr h0, ?_⟩
  intro hle hb
  have := hbud h0 hb
  omega

/-- The concrete resolver satisfies the package counter discipline. -/
theorem c1ResolverOK : ResolverOK c1Resolver := by
  refine ⟨rfl, ?_, ?_, ?_, ?_, ?_, ?_, ?_, ?_, ?_, ?_, ?_, ?_, ?_, ?_, ?_, ?_, ?_, ?_⟩
  · intro s ctx p st; exact le_refl _
  · intro s ctx st; rfl
  · intro s ctx p st out st' h h10
    injection h with _ h2
    rw [← h2]
    exact h10
  · intro s ctx p st e st' h _
    injection h with h1 _
    exact Except.noConfusion h1
  · intro s st; rfl
  · intro s st; rfl
  · intro s st; rfl
  · intro s st; rfl
  · intro s st
    simp only [c1Resolver]
    split <;> rfl
  · intro s st; rfl
  · intro s st; rfl
  · intro s st; rfl
  · intro s st r h
    injection h with h
    subst h
    decide
  · intro s st r h
    injection h with h
    subst h
    decide
  · intro s st r h
    injection h with h
    subst h
    decide
  · intro s st r h
    injection h with h
    subst h
    decide
  · intro s st r h
    simp only [c1Resolver] at h
    split at h
    · exact Except.noConfusion h
    · injection h with h
      subst h
      decide
  · intro s st r h
    injection h with h
    subst h
    decide

/-- C5 witness: the concrete resolver obeys the discipline, the run of
`v=spf1 ip4:192.0.2.0/24 redirect=other.example` consumes one DNS term
(the redirect), ends within budget and is not budget-rejected. -/
theorem C5_dns_budget_witness :
    ((⟨0, []⟩ : ResolverState (List String)).termCounter ≤ 10) ∧
    ¬ budgetReject (spfEvaluate c1Resolver [192, 0, 2, 3] "sender@example.org"
        "helo.example.org" 0 12 c1Record "example.org" 0 ⟨0, []⟩).1 :=
  ⟨by decide,
   (C5_dns_budget c1Resolver c1ResolverOK [192, 0, 2, 3] "sender@example.org"
      "helo.example.org" 0 12 c1Record "example.org" ⟨0, []⟩ (by decide)).2 (by decide)⟩
